import Mathlib

/-!
Verification of the core subsystems of the idea-claude-code-gui repository:
the ai-bridge server (message router, send-message streaming handler,
provider/session stores, usage aggregation, TOML codec) and the VSCode-side
bridge process supervisor.

Each definition is a shallow embedding of the corresponding JavaScript /
TypeScript function; JSON objects are modelled as association lists with
unique keys (JavaScript objects preserve insertion order, which the
association-list model mirrors), JavaScript numbers that only ever hold
integral token counts or timestamps are modelled as Nat / Int.
-/

set_option maxHeartbeats 1000000

/-! ### Message-type normalization (src/ai-bridge/server.js, normalizeMessageType)

The source builds a constant snake_case-to-camelCase lookup table and returns
`typeMap[type] || type`.
-/

def typeMap : List (String × String) := [
  ("send_message", "sendMessage"),
  ("send_message_with_attachments", "sendMessageWithAttachments"),
  ("get_history", "getHistory"),
  ("load_history_data", "getHistory"),
  ("load_session", "loadSession"),
  ("delete_session", "deleteSession"),
  ("create_new_session", "createNewSession"),
  ("interrupt_session", "interruptSession"),
  ("export_session", "exportSession"),
  ("toggle_favorite", "toggleFavorite"),
  ("update_title", "updateTitle"),
  ("create_new_tab", "createNewTab"),
  ("get_settings", "getSettings"),
  ("update_settings", "updateSettings"),
  ("get_streaming_enabled", "getStreamingEnabled"),
  ("set_streaming_enabled", "setStreamingEnabled"),
  ("get_send_shortcut", "getSendShortcut"),
  ("set_send_shortcut", "setSendShortcut"),
  ("get_thinking_enabled", "getThinkingEnabled"),
  ("set_thinking_enabled", "setThinkingEnabled"),
  ("get_provider_config", "getProviderConfig"),
  ("update_provider_config", "updateProviderConfig"),
  ("get_current_claude_config", "getCurrentClaudeConfig"),
  ("update_current_claude_config", "updateCurrentClaudeConfig"),
  ("get_active_provider", "getActiveProvider"),
  ("set_active_provider", "setActiveProvider"),
  ("set_provider", "setProvider"),
  ("get_providers", "getProviders"),
  ("add_provider", "addProvider"),
  ("update_provider", "updateProvider"),
  ("switch_provider", "switchProvider"),
  ("delete_provider", "deleteProvider"),
  ("get_codex_providers", "getCodexProviders"),
  ("add_codex_provider", "addCodexProvider"),
  ("update_codex_provider", "updateCodexProvider"),
  ("switch_codex_provider", "switchCodexProvider"),
  ("delete_codex_provider", "deleteCodexProvider"),
  ("set_model", "setModel"),
  ("set_mode", "setMode"),
  ("set_reasoning_effort", "setReasoningEffort"),
  ("permission_response", "permissionResponse"),
  ("permission_decision", "permissionDecision"),
  ("ask_user_question_response", "askUserQuestionResponse"),
  ("plan_approval_response", "planApprovalResponse"),
  ("get_mcp_servers", "getMcpServers"),
  ("add_mcp_server", "addMcpServer"),
  ("update_mcp_server", "updateMcpServer"),
  ("delete_mcp_server", "deleteMcpServer"),
  ("toggle_mcp_server", "toggleMcpServer"),
  ("get_mcp_server_status", "getMcpServerStatus"),
  ("get_codex_mcp_servers", "getCodexMcpServers"),
  ("add_codex_mcp_server", "addCodexMcpServer"),
  ("update_codex_mcp_server", "updateCodexMcpServer"),
  ("delete_codex_mcp_server", "deleteCodexMcpServer"),
  ("toggle_codex_mcp_server", "toggleCodexMcpServer"),
  ("get_global_mcp_servers", "getMcpServers"),
  ("add_global_mcp_server", "addMcpServer"),
  ("update_global_mcp_server", "updateMcpServer"),
  ("delete_global_mcp_server", "deleteMcpServer"),
  ("toggle_global_mcp_server", "toggleMcpServer"),
  ("get_skills", "getSkills"),
  ("get_all_skills", "getSkills"),
  ("import_skill", "importSkill"),
  ("open_skill", "openSkill"),
  ("delete_skill", "deleteSkill"),
  ("toggle_skill", "toggleSkill"),
  ("get_agents", "getAgents"),
  ("get_selected_agent", "getSelectedAgent"),
  ("set_selected_agent", "setSelectedAgent"),
  ("add_agent", "addAgent"),
  ("update_agent", "updateAgent"),
  ("delete_agent", "deleteAgent"),
  ("get_dependencies", "getDependencies"),
  ("get_dependency_status", "getDependencies"),
  ("get_sdk_status", "getSdkStatus"),
  ("install_dependency", "installDependency"),
  ("uninstall_dependency", "uninstallDependency"),
  ("check_node_environment", "checkNodeEnvironment"),
  ("get_usage_statistics", "getUsageStatistics"),
  ("open_file", "openFile"),
  ("open_browser", "openBrowser"),
  ("refresh_file", "refreshFile"),
  ("show_diff", "showDiff"),
  ("show_multi_edit_diff", "showMultiEditDiff"),
  ("rewind_files", "rewindFiles"),
  ("list_files", "listFiles"),
  ("save_json", "saveJson"),
  ("frontend_ready", "frontendReady"),
  ("refresh_slash_commands", "refreshSlashCommands"),
  ("get_node_path", "getNodePath"),
  ("set_node_path", "setNodePath"),
  ("get_working_directory", "getWorkingDirectory"),
  ("set_working_directory", "setWorkingDirectory"),
  ("get_editor_font_config", "getEditorFontConfig"),
  ("open_file_chooser_for_cc_switch", "openFileChooserForCcSwitch"),
  ("save_imported_providers", "saveImportedProviders"),
  ("preview_cc_switch_import", "previewCcSwitchImport")]

/-- `return typeMap[type] || type`: canonical names pass through the table,
unknown types are returned unchanged.  (Every value of the table is a
non-empty string, so the JavaScript `||` fallback fires exactly on lookup
misses.) -/
def normalizeMessageType (t : String) : String :=
  (List.lookup t typeMap).getD t

/-! ### JSON object model shared by the settings / store handlers -/

/-- JavaScript JSON value, as manipulated by the config handlers.  Objects are
association lists in insertion order with unique keys (`JSON.parse` output). -/
inductive Jv where
  | str : String → Jv
  | num : Int → Jv
  | boolean : Bool → Jv
  | null : Jv
  | obj : List (String × Jv) → Jv
  | arr : List Jv → Jv
deriving Repr, BEq

abbrev JObj := List (String × Jv)

/-- `o[k]` on a JavaScript object. -/
def getKey (m : JObj) (k : String) : Option Jv :=
  List.lookup k m

/-- `o[k] = v` on a JavaScript object: replaces the value in place when the
key exists (keeping its position), otherwise appends the key. -/
def setKey (m : JObj) (k : String) (v : Jv) : JObj :=
  match m with
  | [] => [(k, v)]
  | (k0, v0) :: rest =>
    if k0 = k then (k0, v) :: rest else (k0, v0) :: setKey rest k v

/-- `delete o[k]` on a JavaScript object (keys are unique, so removing the
first occurrence is removing the only occurrence). -/
def delKey (m : JObj) (k : String) : JObj :=
  match m with
  | [] => []
  | (k0, v0) :: rest =>
    if k0 = k then rest else (k0, v0) :: delKey rest k

def jKeys (m : JObj) : List String := m.map Prod.fst

/-! ### mergeProviderSettingsIntoClaudeSettings (src/ai-bridge/server.js) -/

/-- `value && typeof value === 'object' && !Array.isArray(value)`. -/
def isPlainObj : Jv → Bool
  | Jv.obj _ => true
  | _ => false

/-- What the spread `{...baseEnv, ...value}` sees for
`(next.env && typeof next.env === 'object') ? next.env : {}` : a plain object
contributes its entries; an array (which also has `typeof 'object'`) spreads
to index-keyed entries; anything else contributes nothing. -/
def envBaseEntries : Option Jv → JObj
  | some (Jv.obj m) => m
  | some (Jv.arr xs) => (List.zip ((List.range xs.length).map toString) xs)
  | _ => []

/-- Object spread `{...a, ...b}` (for objects with unique keys): keys of `a`
in order, taking the value from `b` when `b` also has the key, followed by
the keys of `b` that are not in `a`, in order. -/
def objSpread2 (a b : JObj) : JObj :=
  (a.map fun p => (p.1, (List.lookup p.1 b).getD p.2)) ++
    b.filter fun p => ! (jKeys a).contains p.1

/-- One iteration of the `for (const [key, value] of Object.entries(incoming))`
loop of `mergeProviderSettingsIntoClaudeSettings`. -/
def mergeStep (next : JObj) (kv : String × Jv) : JObj :=
  if kv.1 = "env" ∧ isPlainObj kv.2 then
    match kv.2 with
    | Jv.obj patchEnv =>
      setKey next "env" (Jv.obj (objSpread2 (envBaseEntries (getKey next "env")) patchEnv))
    | _ => setKey next kv.1 kv.2
  else
    setKey next kv.1 kv.2

/-- `mergeProviderSettingsIntoClaudeSettings(baseSettings, providerSettings)`
for the case (the only one the callers build) where both arguments already
are plain objects: start from a copy of the base and fold the incoming
entries through `mergeStep`. -/
def mergeProviderSettingsIntoClaudeSettings (base incoming : JObj) : JObj :=
  incoming.foldl mergeStep base

/-! ### favorites.json / session-titles.json stores
(src/ai-bridge/server.js, handleToggleFavorite / handleUpdateTitle /
handleDeleteSession).

Store entries are always JSON objects written by this program
(`{favoritedAt: ...}` / `{customTitle: ..., updatedAt: ...}`), hence always
truthy; presence of a key therefore coincides with the JavaScript truthiness
tests `!!favorites?.[sessionId]` and `if (favorites[sessionId])`. -/

/-- A `favorites.json` entry `{ favoritedAt }`. -/
structure FavEntry where
  favoritedAt : Int
deriving Repr, DecidableEq

/-- A `session-titles.json` entry `{ customTitle, updatedAt }`. -/
structure TitleEntry where
  customTitle : String
  updatedAt : Int
deriving Repr, DecidableEq

abbrev FavStore := List (String × FavEntry)
abbrev TitleStore := List (String × TitleEntry)

def storeLookup {α : Type} (m : List (String × α)) (k : String) : Option α :=
  List.lookup k m

def storeDel {α : Type} (m : List (String × α)) (k : String) : List (String × α) :=
  match m with
  | [] => []
  | (k0, v0) :: rest => if k0 = k then rest else (k0, v0) :: storeDel rest k

/-- `handleToggleFavorite` body after the id guard: flip presence of the
session id in the favorites map (the sent `favoriteToggled` envelope is not
modelled; the function returns the saved store). -/
def handleToggleFavorite (favorites : FavStore) (sessionId : String) (now : Int) :
    FavStore :=
  let currentlyFavorited := (storeLookup favorites sessionId).isSome
  if currentlyFavorited then
    storeDel favorites sessionId
  else
    favorites ++ [(sessionId, ⟨now⟩)]

/-- `handleDeleteSession` body after the id guard, restricted to its effect on
the two auxiliary stores (the `.jsonl` unlink and the reply envelope are not
modelled): delete the id from `favorites.json` and `session-titles.json`
when present. -/
def handleDeleteSession (favorites : FavStore) (titles : TitleStore)
    (sessionId : String) : FavStore × TitleStore :=
  let favorites' :=
    if (storeLookup favorites sessionId).isSome then storeDel favorites sessionId
    else favorites
  let titles' :=
    if (storeLookup titles sessionId).isSome then storeDel titles sessionId
    else titles
  (favorites', titles')

/-! ### Claude provider pointer (src/ai-bridge/server.js,
handleSwitchClaudeProvider / handleDeleteProvider /
getClaudeProvidersWithActiveFlag) -/

def localSettingsId : String := "__local_settings_json__"

/-- The slice of on-disk state the provider-pointer handlers read and write:
`config.json`'s claude section and `settings.json`'s legacy active-id field.
`claudeCurrent = none` models a missing or non-string `config.claude.current`.
-/
structure ProviderState where
  claudeCurrent : Option String
  claudeProviders : List (String × JObj)
  activeClaudeProviderId : Option String
deriving Repr

/-- `ensureClaudeSection`: defaults `config.claude.current` to the local
entry when it is missing or the empty string. -/
def ensuredCurrent (s : ProviderState) : String :=
  match s.claudeCurrent with
  | some c => if c = "" then localSettingsId else c
  | none => localSettingsId

/-- `handleSwitchClaudeProvider`: after the `if (!id)` guard, the handler
unconditionally writes the id into `config.claude.current` and
`settings.activeClaudeProviderId` (the merge into `~/.claude/settings.json`
and the reply envelopes are outside this state slice). -/
def handleSwitchClaudeProvider (s : ProviderState) (id : String) : ProviderState :=
  if id = "" then s
  else { s with claudeCurrent := some id, activeClaudeProviderId := some id }

/-- The active id computed by `getClaudeProvidersWithActiveFlag`:
`activeFromConfig || activeFromLegacy || '__local_settings_json__'`. -/
def readActiveClaudeId (s : ProviderState) : String :=
  let fromConfig :=
    match s.claudeCurrent with
    | some c => if c = "" then none else some c
    | none => none
  let fromLegacy :=
    match s.activeClaudeProviderId with
    | some c => if c = "" then none else some c
    | none => none
  ((fromConfig.or fromLegacy).getD localSettingsId)

/-- `handleDeleteProvider` after the payload guard: the provider map entry is
deleted; the handler then computes the active id (from the ensured
`config.claude.current`, falling back to the legacy settings field) and, when
it equals the deleted id, resets both pointers to the local entry. -/
def handleDeleteProvider (s : ProviderState) (id : String) : ProviderState :=
  let providers' := storeDelJ s.claudeProviders id
  let ensured := ensuredCurrent s
  let activeId :=
    if ensured ≠ "" then ensured
    else match s.activeClaudeProviderId with
         | some c => c
         | none => localSettingsId
  if activeId = id then
    { claudeCurrent := some localSettingsId,
      claudeProviders := providers',
      activeClaudeProviderId := some localSettingsId }
  else
    { s with claudeProviders := providers' }
where
  storeDelJ (m : List (String × JObj)) (k : String) : List (String × JObj) :=
    match m with
    | [] => []
    | (k0, v0) :: rest => if k0 = k then rest else (k0, v0) :: storeDelJ rest k

/-! ### Bridge process supervisor (src/unnamed/part_002, BridgeManager)

The supervisor's observable state: whether a child process object is held and
marked running, the restart counter, the queue of `setTimeout` restart
callbacks still pending (recorded with their delays), the log of all delays
ever scheduled, and the number of user-visible "max restart attempts
reached" error notifications.  External events (process exit, timer firing)
drive the transition functions. -/

structure BridgeState where
  hasProcess : Bool
  isRunning : Bool
  restartCount : Nat
  pendingTimers : List Nat
  scheduledDelays : List Nat
  maxRestartErrors : Nat
deriving Repr, DecidableEq

def BridgeState.initial : BridgeState :=
  { hasProcess := false, isRunning := false, restartCount := 0,
    pendingTimers := [], scheduledDelays := [], maxRestartErrors := 0 }

def maxRestarts : Nat := 3

namespace BridgeState

/-- `start()` (successful spawn): an already-running manager returns early;
otherwise the child is spawned, `_isRunning` is set, and `_restartCount` is
reset to 0. -/
def start (s : BridgeState) : BridgeState :=
  if s.isRunning then s
  else { s with hasProcess := true, isRunning := true, restartCount := 0 }

/-- The `exit` listener installed by `_setupProcessListeners`.  `code = none`
models a `null` exit code (killed by signal); the JavaScript test
`code !== 0` is then true.  Within the retry budget a restart is scheduled
after `1000 * this._restartCount` ms (after incrementing the counter);
otherwise, when the counter has reached the maximum, a user-visible error is
shown. -/
def exitEvent (s : BridgeState) (code : Option Int) : BridgeState :=
  let s := { s with isRunning := false }
  if code ≠ some 0 ∧ s.restartCount < maxRestarts then
    let rc := s.restartCount + 1
    { s with restartCount := rc,
             pendingTimers := s.pendingTimers ++ [1000 * rc],
             scheduledDelays := s.scheduledDelays ++ [1000 * rc] }
  else if s.restartCount ≥ maxRestarts then
    { s with maxRestartErrors := s.maxRestartErrors + 1 }
  else s

/-- A pending `setTimeout(() => this.start(), ...)` callback fires: the timer
is consumed and `start()` runs.  Nothing in `stop()` clears these timers. -/
def timerFire (s : BridgeState) : BridgeState :=
  match s.pendingTimers with
  | [] => s
  | _ :: rest => start { s with pendingTimers := rest }

/-- `stop()`: when a process is held, set `_restartCount = _maxRestarts`
(the code comment says "Prevent auto-restart"), kill the process and clear
the running flags.  The kill makes the child emit a later `exit` event with a
`null` code, which is delivered separately as `exitEvent none`. -/
def stop (s : BridgeState) : BridgeState :=
  if s.hasProcess then
    { s with restartCount := maxRestarts, hasProcess := false, isRunning := false }
  else s

end BridgeState

/-- External events driving the supervisor. -/
inductive BridgeEv where
  | startCall
  | exitEv (code : Option Int)
  | timerFire
  | stopCall
deriving Repr, DecidableEq

def bridgeStep (s : BridgeState) : BridgeEv → BridgeState
  | BridgeEv.startCall => s.start
  | BridgeEv.exitEv c => s.exitEvent c
  | BridgeEv.timerFire => s.timerFire
  | BridgeEv.stopCall => s.stop

def bridgeRun (evs : List BridgeEv) : BridgeState :=
  evs.foldl bridgeStep BridgeState.initial

/-! ### Usage statistics aggregation (src/ai-bridge/server.js,
processClaudeSessions / processCodexSessions)

Costs are per-session numbers carried in from the log parser; the claims
about the aggregator concern which sessions are summed, so the floating-point
cost is modelled as a Nat.  A session's ISO date key
`new Date(t).toISOString().slice(0, 10)` is modelled by its epoch-day number
`t.fdiv 86400000`: two timestamps share the date key exactly when they share
the epoch day, and lexicographic comparison of the ISO strings agrees with
numeric comparison of the day numbers for the representable date range. -/

structure UsageData where
  inputTokens : Nat
  outputTokens : Nat
  cacheWriteTokens : Nat
  cacheReadTokens : Nat
  totalTokens : Nat
deriving Repr, DecidableEq

def UsageData.empty : UsageData := ⟨0, 0, 0, 0, 0⟩

structure SessionSummary where
  sessionId : String
  timestamp : Int
  model : String
  usage : UsageData
  cost : Nat
deriving Repr, DecidableEq

structure DailyUsage where
  date : Int
  sessions : Nat
  usage : UsageData
  cost : Nat
  modelsUsed : List String
deriving Repr, DecidableEq

structure ModelUsage where
  model : String
  totalCost : Nat
  totalTokens : Nat
  inputTokens : Nat
  outputTokens : Nat
  cacheCreationTokens : Nat
  cacheReadTokens : Nat
  sessionCount : Nat
deriving Repr, DecidableEq

structure WeekBucket where
  sessions : Nat
  cost : Nat
  tokens : Nat
deriving Repr, DecidableEq

def WeekBucket.empty : WeekBucket := ⟨0, 0, 0⟩

structure UsageStats where
  totalUsage : UsageData
  estimatedCost : Nat
  dailyUsage : List DailyUsage
  byModel : List ModelUsage
  sessions : List SessionSummary
  currentWeek : WeekBucket
  lastWeek : WeekBucket
deriving Repr, DecidableEq

/-- Stable insertion sort modelling `Array.prototype.sort` (V8's sort is
stable): `sortedBy le l` keeps equal elements in input order. -/
def insertBy {α : Type} (le : α → α → Bool) (x : α) : List α → List α
  | [] => [x]
  | y :: ys => if le y x then y :: insertBy le x ys else x :: y :: ys

def sortedBy {α : Type} (le : α → α → Bool) : List α → List α
  | [] => []
  | x :: xs => insertBy le x (sortedBy le xs)

/-- Comparator `(a, b) => b.timestamp - a.timestamp` (newest first). -/
def byTimestampDesc (a b : SessionSummary) : Bool := b.timestamp ≤ a.timestamp

/-- Comparator `(a, b) => b.totalCost - a.totalCost` (highest cost first). -/
def byCostDesc (a b : ModelUsage) : Bool := b.totalCost ≤ a.totalCost

/-- Comparator `(a, b) => a.date.localeCompare(b.date)` on epoch days. -/
def byDateAsc (a b : DailyUsage) : Bool := a.date ≤ b.date

def epochDay (t : Int) : Int := Int.fdiv t 86400000

def msPerWeek : Int := 7 * 24 * 60 * 60 * 1000

/-- The `upd` closure of the `dailyMap` update: add one session into a day
bucket.  `claudeFields = true` mirrors `processClaudeSessions`, which adds
only `inputTokens`/`outputTokens` into the bucket's usage;
`processCodexSessions` adds all five fields. -/
def dailyUpd (claudeFields : Bool) (s : SessionSummary) (d : DailyUsage) : DailyUsage :=
  { d with
    sessions := d.sessions + 1
    cost := d.cost + s.cost
    usage :=
      if claudeFields then
        { d.usage with
          inputTokens := d.usage.inputTokens + s.usage.inputTokens
          outputTokens := d.usage.outputTokens + s.usage.outputTokens }
      else
        { inputTokens := d.usage.inputTokens + s.usage.inputTokens
          outputTokens := d.usage.outputTokens + s.usage.outputTokens
          cacheWriteTokens := d.usage.cacheWriteTokens + s.usage.cacheWriteTokens
          cacheReadTokens := d.usage.cacheReadTokens + s.usage.cacheReadTokens
          totalTokens := d.usage.totalTokens + s.usage.totalTokens }
    modelsUsed :=
      if d.modelsUsed.contains s.model then d.modelsUsed
      else d.modelsUsed ++ [s.model] }

/-- `dailyMap` update for one session: find-or-create the day bucket, then
add this session. -/
def dailyAdd (claudeFields : Bool) (m : List DailyUsage) (s : SessionSummary) :
    List DailyUsage :=
  let key := epochDay s.timestamp
  match m.find? (fun d => d.date = key) with
  | some _ => m.map (fun d => if d.date = key then dailyUpd claudeFields s d else d)
  | none => m ++ [dailyUpd claudeFields s ⟨key, 0, UsageData.empty, 0, []⟩]

/-- The `upd` closure of the `modelMap` update. -/
def modelUpd (s : SessionSummary) (t : ModelUsage) : ModelUsage :=
  { t with
    sessionCount := t.sessionCount + 1
    totalCost := t.totalCost + s.cost
    totalTokens := t.totalTokens + s.usage.totalTokens
    inputTokens := t.inputTokens + s.usage.inputTokens
    outputTokens := t.outputTokens + s.usage.outputTokens
    cacheCreationTokens := t.cacheCreationTokens + s.usage.cacheWriteTokens
    cacheReadTokens := t.cacheReadTokens + s.usage.cacheReadTokens }

/-- `modelMap` update for one session. -/
def modelAdd (m : List ModelUsage) (s : SessionSummary) : List ModelUsage :=
  match m.find? (fun t => t.model = s.model) with
  | some _ => m.map (fun t => if t.model = s.model then modelUpd s t else t)
  | none => m ++ [modelUpd s ⟨s.model, 0, 0, 0, 0, 0, 0, 0⟩]

def addUsage (u : UsageData) (s : SessionSummary) : UsageData :=
  { inputTokens := u.inputTokens + s.usage.inputTokens
    outputTokens := u.outputTokens + s.usage.outputTokens
    cacheWriteTokens := u.cacheWriteTokens + s.usage.cacheWriteTokens
    cacheReadTokens := u.cacheReadTokens + s.usage.cacheReadTokens
    totalTokens := u.totalTokens + s.usage.totalTokens }

def weekAdd (w : WeekBucket) (s : SessionSummary) : WeekBucket :=
  { sessions := w.sessions + 1, cost := w.cost + s.cost,
    tokens := w.tokens + s.usage.totalTokens }

/-- Accumulator of the `for (const session of sessions)` loop of
`processClaudeSessions`. -/
structure ClaudeAcc where
  total : UsageData
  cost : Nat
  daily : List DailyUsage
  models : List ModelUsage
  cur : WeekBucket
  last : WeekBucket
deriving Repr, DecidableEq

def ClaudeAcc.empty : ClaudeAcc :=
  ⟨UsageData.empty, 0, [], [], WeekBucket.empty, WeekBucket.empty⟩

/-- One iteration of the `processClaudeSessions` loop: totals, the daily and
model maps, and the week buckets (`>` comparisons against the boundaries,
`else if` for the previous week). -/
def claudeStep (oneWeekAgo twoWeeksAgo : Int) (acc : ClaudeAcc) (s : SessionSummary) :
    ClaudeAcc :=
  { total := addUsage acc.total s
    cost := acc.cost + s.cost
    daily := dailyAdd true acc.daily s
    models := modelAdd acc.models s
    cur := if oneWeekAgo < s.timestamp then weekAdd acc.cur s else acc.cur
    last :=
      if oneWeekAgo < s.timestamp then acc.last
      else if twoWeeksAgo < s.timestamp then weekAdd acc.last s
      else acc.last }

/-- `processClaudeSessions(sessions, stats)` (stats starts out empty): one
loop accumulating totals, the daily map, the model map and the week buckets,
then the sorted `dailyUsage` and `byModel` lists, and `stats.sessions` = the
input sorted newest-first, sliced to 200 entries when longer.  The `trends`
percentages are real-valued ratios of the two week buckets and are not
modelled separately. -/
def processClaudeSessions (now : Int) (sessions : List SessionSummary) : UsageStats :=
  let oneWeekAgo := now - msPerWeek
  let twoWeeksAgo := now - 2 * msPerWeek
  let acc := sessions.foldl (claudeStep oneWeekAgo twoWeeksAgo) ClaudeAcc.empty
  let sorted := sortedBy byTimestampDesc sessions
  { totalUsage := acc.total
    estimatedCost := acc.cost
    dailyUsage := sortedBy byDateAsc acc.daily
    byModel := sortedBy byCostDesc acc.models
    sessions := if sorted.length > 200 then sorted.take 200 else sorted
    currentWeek := acc.cur
    lastWeek := acc.last }

/-- One iteration of the third `processCodexSessions` loop (week buckets,
with `>=` comparisons against the boundaries). -/
def codexWeekStep (oneWeekAgo twoWeeksAgo : Int) (w : WeekBucket × WeekBucket)
    (s : SessionSummary) : WeekBucket × WeekBucket :=
  if oneWeekAgo ≤ s.timestamp then (weekAdd w.1 s, w.2)
  else if twoWeeksAgo ≤ s.timestamp then (w.1, weekAdd w.2 s)
  else w

/-- `processCodexSessions(sessions, stats)`: a first loop accumulates the
totals, a second loop builds the daily map (all five usage fields) and the
model map, `stats.sessions = sessions` — the input list, with no 200-entry
cap — and a third loop fills the week buckets. -/
def processCodexSessions (now : Int) (sessions : List SessionSummary) : UsageStats :=
  let oneWeekAgo := now - msPerWeek
  let twoWeeksAgo := now - 2 * msPerWeek
  let total := sessions.foldl addUsage UsageData.empty
  let cost := sessions.foldl (fun c s => c + s.cost) 0
  let maps := sessions.foldl
    (fun (m : List DailyUsage × List ModelUsage) s =>
      (dailyAdd false m.1 s, modelAdd m.2 s)) ([], [])
  let weeks := sessions.foldl (codexWeekStep oneWeekAgo twoWeeksAgo)
    (WeekBucket.empty, WeekBucket.empty)
  { totalUsage := total
    estimatedCost := cost
    dailyUsage := sortedBy byDateAsc maps.1
    byModel := sortedBy byCostDesc maps.2
    sessions := sessions
    currentWeek := weeks.1
    lastWeek := weeks.2 }

/-- `getCodexProjectStatistics`: the session reader sorts the scanned
summaries newest-first (`readCodexSessionSummaries` ends with
`sessions.sort((a, b) => b.timestamp - a.timestamp)`), then
`processCodexSessions` aggregates them. -/
def getCodexProjectStatistics (now : Int) (scanned : List SessionSummary) : UsageStats :=
  processCodexSessions now (sortedBy byTimestampDesc scanned)

/-- `getClaudeProjectStatistics`: the scanned summaries are concatenated in
directory order and handed to `processClaudeSessions`, which sorts them. -/
def getClaudeProjectStatistics (now : Int) (scanned : List SessionSummary) : UsageStats :=
  processClaudeSessions now scanned

/-! ### TOML codec (src/ai-bridge/utils/toml-utils.js)

The codec is embedded at the character level, over `List Char`.  Values are
the mutually inductive `Tv`/`TvList`/`TvKvs` family (JavaScript strings,
numbers restricted to the integers, booleans, arrays, and objects in
insertion order); `Number(...)`/`String(...)` on numbers are modelled by a
decimal integer codec.  `parseTomlValue`'s recursion on substrings is
expressed with an explicit fuel argument (the document parser passes
`valueStr.length + 1`, which the proofs show is never exhausted on generated
documents). -/

def cDq : Char := Char.ofNat 34
def cSq : Char := Char.ofNat 39
def cBs : Char := Char.ofNat 92
def cLc : Char := Char.ofNat 123
def cRc : Char := Char.ofNat 125
def cLb : Char := '['
def cRb : Char := ']'
def cNl : Char := Char.ofNat 10
def cCr : Char := Char.ofNat 13
def cTab : Char := Char.ofNat 9
def cSp : Char := ' '
def cEq : Char := '='
def cComma : Char := ','
def cHash : Char := '#'
def cDot : Char := '.'
def cDash : Char := '-'

/-- The whitespace characters `String.prototype.trim` strips that can occur
in this codec's documents. -/
def isWsChar (c : Char) : Bool := c = cSp ∨ c = cTab ∨ c = cNl ∨ c = cCr

/-- `s.trim()`. -/
def trimToml (s : List Char) : List Char :=
  ((s.dropWhile isWsChar).reverse.dropWhile isWsChar).reverse

/-- `s.slice(1, -1)`. -/
def sliceEnds (s : List Char) : List Char := (s.drop 1).dropLast

def headIs (s : List Char) (c : Char) : Bool :=
  match s with
  | [] => false
  | c0 :: _ => c0 = c

def lastIs (s : List Char) (c : Char) : Bool := headIs s.reverse c

mutual
inductive Tv where
  | vStr (s : List Char)
  | vInt (n : Int)
  | vBool (b : Bool)
  | vArr (xs : TvList)
  | vTab (kvs : TvKvs)
inductive TvList where
  | nil
  | cons (x : Tv) (xs : TvList)
inductive TvKvs where
  | nil
  | cons (k : List Char) (v : Tv) (rest : TvKvs)
end

/-- `escapeTomlString`, one character at a time: the source's chain of five
global single-character replacements (backslash first) is equivalent to this
per-character translation, because each later replacement target cannot occur
inside an earlier replacement's output at a position that changes the
result. -/
def escChar (c : Char) : List Char :=
  if c = cBs then [cBs, cBs]
  else if c = cDq then [cBs, cDq]
  else if c = cNl then [cBs, 'n']
  else if c = cTab then [cBs, 't']
  else if c = cCr then [cBs, 'r']
  else [c]

def escapeTomlString (s : List Char) : List Char := s.flatMap escChar

/-- The decoding of one escaped character in `unescapeTomlString`. -/
def unescChar (c : Char) : List Char :=
  if c = 'n' then [cNl]
  else if c = 't' then [cTab]
  else if c = 'r' then [cCr]
  else if c = cBs then [cBs]
  else if c = cDq then [cDq]
  else if c = cSq then [cSq]
  else [cBs, c]

/-- `unescapeTomlString`'s character loop with its `escaped` flag. -/
def unescGo (escaped : Bool) : List Char → List Char
  | [] => if escaped then [cBs] else []
  | c :: rest =>
    if escaped then unescChar c ++ unescGo false rest
    else if c = cBs then unescGo true rest
    else c :: unescGo false rest

def unescapeTomlString (s : List Char) : List Char := unescGo false s

/-- Scanner state of `splitTomlElements`: bracket depth, double-quote flag,
single-quote flag, escape flag. -/
structure SplitSt where
  depth : Int
  inD : Bool
  inS : Bool
  esc : Bool
deriving Repr, DecidableEq

def neutralSt : SplitSt := ⟨0, false, false, false⟩

/-- The state transition of one `splitTomlElements` loop iteration (the
delimiter branch leaves the state unchanged, so the transition does not
depend on the delimiter). -/
def scanStep (st : SplitSt) (c : Char) : SplitSt :=
  if st.esc then { st with esc := false }
  else if c = cBs then { st with esc := true }
  else if c = cDq ∧ ¬ st.inS then { st with inD := ¬ st.inD }
  else if c = cSq ∧ ¬ st.inD then { st with inS := ¬ st.inS }
  else if ¬ st.inD ∧ ¬ st.inS then
    if c = cLb ∨ c = cLc then { st with depth := st.depth + 1 }
    else if c = cRb ∨ c = cRc then { st with depth := st.depth - 1 }
    else st
  else st

def scanFold (st : SplitSt) (s : List Char) : SplitSt := s.foldl scanStep st

/-- Whether `splitTomlElements` pushes the current element at this character
(for a delimiter that is none of the scanner's special characters, such as
the comma). -/
def splitsHere (delim : Char) (st : SplitSt) (c : Char) : Bool :=
  ¬ st.esc ∧ ¬ st.inD ∧ ¬ st.inS ∧ st.depth = 0 ∧ c = delim

/-- `splitTomlElements`'s loop: `cur` is the current element being
accumulated; a delimiter hit at depth 0 outside quotes pushes it. -/
def splitGo (delim : Char) : List Char → SplitSt → List Char → List (List Char)
  | [], _, cur => if cur ≠ [] then [cur] else []
  | c :: rest, st, cur =>
    if splitsHere delim st c then cur :: splitGo delim rest st []
    else splitGo delim rest (scanStep st c) (cur ++ [c])

def splitTomlElements (content : List Char) (delim : Char) : List (List Char) :=
  splitGo delim content neutralSt []

/-- JavaScript decimal digit rendering: `digitChar d` for `d < 10`. -/
def digitChar (d : Nat) : Char := Char.ofNat (48 + d)

def isDigitChar (c : Char) : Bool := 48 ≤ c.toNat ∧ c.toNat ≤ 57

/-- `String(n)` for a natural number, by fueled repeated division (fuel
`n + 1` always suffices). -/
def natCharsF : Nat → Nat → List Char → List Char
  | 0, _, acc => acc
  | f + 1, n, acc =>
    if n < 10 then digitChar (n % 10) :: acc
    else natCharsF f (n / 10) (digitChar (n % 10) :: acc)

def natChars (n : Nat) : List Char := natCharsF (n + 1) n []

/-- `String(n)` for an integer. -/
def intChars (n : Int) : List Char :=
  if n < 0 then cDash :: natChars n.natAbs else natChars n.toNat

/-- Value of a non-empty all-digit string. -/
def digitsValGo (a : Nat) : List Char → Nat
  | [] => a
  | c :: rest => digitsValGo (a * 10 + (c.toNat - 48)) rest

/-- `Number(valueStr)` restricted to the decimal integer strings this codec's
generator emits (other inputs the generator never produces — floats,
exponent or hex forms — are treated as unparsable). -/
def numParse (s : List Char) : Option Int :=
  match s with
  | [] => none
  | c :: rest =>
    if c = cDash then
      if rest ≠ [] ∧ rest.all isDigitChar then some (-(digitsValGo 0 rest : Int))
      else none
    else if s.all isDigitChar then some ((digitsValGo 0 s : Int))
    else none

def tChars : List Char := ['t', 'r', 'u', 'e']
def fChars : List Char := ['f', 'a', 'l', 's', 'e']

/-- `o[k]` on a TOML table. -/
def getK : TvKvs → List Char → Option Tv
  | TvKvs.nil, _ => none
  | TvKvs.cons k0 v0 rest, k => if k0 = k then some v0 else getK rest k

/-- `o[k] = v` on a TOML table (replace in place, else append). -/
def setK : TvKvs → List Char → Tv → TvKvs
  | TvKvs.nil, k, v => TvKvs.cons k v TvKvs.nil
  | TvKvs.cons k0 v0 rest, k, v =>
    if k0 = k then TvKvs.cons k0 v rest else TvKvs.cons k0 v0 (setK rest k v)

def ofTvList : List Tv → TvList
  | [] => TvList.nil
  | x :: xs => TvList.cons x (ofTvList xs)

/-- `s.indexOf(c)`. -/
def firstIdx (s : List Char) (c : Char) : Option Nat :=
  match s with
  | [] => none
  | c0 :: rest =>
    if c0 = c then some 0 else (firstIdx rest c).map (· + 1)

/-- `parseTomlValue` (with `parseTomlArray` and `parseTomlInlineTable`
inlined as the corresponding branches), with explicit fuel for the recursion
into array elements and inline-table values. -/
def parseTomlValueF : Nat → List Char → Tv
  | 0, s => Tv.vStr s
  | f + 1, valueStr =>
    if valueStr = [] then Tv.vStr []
    else if valueStr = tChars then Tv.vBool true
    else if valueStr = fChars then Tv.vBool false
    else if headIs valueStr cLb ∧ lastIs valueStr cRb then
      let content := trimToml (sliceEnds valueStr)
      if content = [] then Tv.vArr TvList.nil
      else
        let elements := splitTomlElements content cComma
        Tv.vArr (ofTvList
          (((elements.map trimToml).filter (· ≠ [])).map (parseTomlValueF f)))
    else if headIs valueStr cLc ∧ lastIs valueStr cRc then
      let content := trimToml (sliceEnds valueStr)
      if content = [] then Tv.vTab TvKvs.nil
      else
        let pairs := splitTomlElements content cComma
        Tv.vTab (pairs.foldl
          (fun result pair =>
            let t := trimToml pair
            match firstIdx t cEq with
            | none => result
            | some i =>
              if i = 0 then result
              else
                let key0 := trimToml (t.take i)
                let valueStr2 := trimToml (t.drop (i + 1))
                let key :=
                  if (headIs key0 cDq ∧ lastIs key0 cDq) ∨
                      (headIs key0 cSq ∧ lastIs key0 cSq) then
                    sliceEnds key0
                  else key0
                setK result key (parseTomlValueF f valueStr2))
          TvKvs.nil)
    else if (headIs valueStr cDq ∧ lastIs valueStr cDq) ∨
        (headIs valueStr cSq ∧ lastIs valueStr cSq) then
      Tv.vStr (unescapeTomlString (sliceEnds valueStr))
    else
      match numParse valueStr with
      | some n => Tv.vInt n
      | none => Tv.vStr valueStr

/-- `content.split('\n')` (JavaScript `split`: the empty string yields one
empty piece, a trailing newline yields a trailing empty piece). -/
def splitNl : List Char → List (List Char)
  | [] => [[]]
  | c :: rest =>
    if c = cNl then [] :: splitNl rest
    else
      match splitNl rest with
      | l :: ls => (c :: l) :: ls
      | [] => [[c]]

/-- `sectionName.split('.')` (same JavaScript `split` semantics). -/
def splitDots : List Char → List (List Char)
  | [] => [[]]
  | c :: rest =>
    if c = cDot then [] :: splitDots rest
    else
      match splitDots rest with
      | l :: ls => (c :: l) :: ls
      | [] => [[c]]

/-- The `currentSection` navigation of a `[section]` header: walk the dotted
parts from the root, keeping existing tables and replacing missing or
non-table values by fresh empty tables.  (In JavaScript an existing array
would also pass the `typeof === 'object'` test and be descended into; no
document this parser itself builds and then re-enters can put a non-table
there, and generated documents never do.) -/
def ensurePath : TvKvs → List (List Char) → TvKvs
  | root, [] => root
  | root, p :: ps =>
    let sub :=
      match getK root p with
      | some (Tv.vTab t) => t
      | _ => TvKvs.nil
    setK root p (Tv.vTab (ensurePath sub ps))

/-- Apply an update to the table the `currentSection` pointer designates.
The parser only assigns through paths whose tables exist (they were created
by `ensurePath`), where this functional update agrees with the JavaScript
pointer mutation. -/
def updateAtPath : TvKvs → List (List Char) → (TvKvs → TvKvs) → TvKvs
  | root, [], f => f root
  | root, p :: ps, f =>
    let sub :=
      match getK root p with
      | some (Tv.vTab t) => t
      | _ => TvKvs.nil
    setK root p (Tv.vTab (updateAtPath sub ps f))

/-- The `for (let line of lines)` loop of `parseToml`: the state is the
result object under construction plus the dotted path of the current
section. -/
def parseLinesGo : List (List Char) → TvKvs → List (List Char) → TvKvs
  | [], root, _ => root
  | line :: rest, root, path =>
    let l := trimToml line
    if l = [] then parseLinesGo rest root path
    else if headIs l cHash then parseLinesGo rest root path
    else if headIs l cLb ∧ lastIs l cRb then
      let sectionName := trimToml (sliceEnds l)
      let parts := splitDots sectionName
      parseLinesGo rest (ensurePath root parts) parts
    else
      match firstIdx l cEq with
      | some i =>
        if i = 0 then parseLinesGo rest root path
        else
          let key := trimToml (l.take i)
          let valueStr := trimToml (l.drop (i + 1))
          parseLinesGo rest
            (updateAtPath root path
              (fun sec => setK sec key (parseTomlValueF (valueStr.length + 1) valueStr)))
            path
      | none => parseLinesGo rest root path

/-- `parseToml(content)`. -/
def parseToml (content : List Char) : TvKvs :=
  parseLinesGo (splitNl content) TvKvs.nil []

/-- `typeof value !== 'object' || value === null || Array.isArray(value)`:
the entries written inline (`simpleEntries`); tables are the `nestedEntries`.
-/
def isTabV : Tv → Bool
  | Tv.vTab _ => true
  | _ => false

mutual
/-- `toTomlValue(value)`. -/
def toTomlValue : Tv → List Char
  | Tv.vStr s => cDq :: escapeTomlString s ++ [cDq]
  | Tv.vInt n => intChars n
  | Tv.vBool b => if b then tChars else fChars
  | Tv.vArr xs => cLb :: toTomlList xs ++ [cRb]
  | Tv.vTab kvs => cLc :: cSp :: toTomlKvs kvs ++ [cSp, cRc]
termination_by structural v => v

/-- `value.map(toTomlValue).join(', ')`. -/
def toTomlList : TvList → List Char
  | TvList.nil => []
  | TvList.cons x TvList.nil => toTomlValue x
  | TvList.cons x xs => toTomlValue x ++ cComma :: cSp :: toTomlList xs
termination_by structural l => l

/-- `Object.entries(value).map(([key, val]) => ...).join(', ')` for inline
tables: each entry is rendered `"key" = value` with the key escaped. -/
def toTomlKvs : TvKvs → List Char
  | TvKvs.nil => []
  | TvKvs.cons k v TvKvs.nil =>
    cDq :: escapeTomlString k ++ [cDq, cSp, cEq, cSp] ++ toTomlValue v
  | TvKvs.cons k v rest =>
    cDq :: escapeTomlString k ++ [cDq, cSp, cEq, cSp] ++ toTomlValue v ++
      cComma :: cSp :: toTomlKvs rest
termination_by structural l => l
end

/-- The `key = value` lines of one section's `simpleEntries`. -/
def simpleLines : TvKvs → List (List Char)
  | TvKvs.nil => []
  | TvKvs.cons k v rest =>
    if isTabV v then simpleLines rest
    else (k ++ [cSp, cEq, cSp] ++ toTomlValue v) :: simpleLines rest

mutual
/-- `writeTomlSection(lines, sectionPath, section)` for a table value at the
given dotted path (non-table values contribute no section): the `[path]`
header and the simple entries when there are any, then the nested sections.
-/
def sectionLines (path : List Char) : Tv → List (List Char)
  | Tv.vTab kvs =>
    let simple := simpleLines kvs
    (if simple = [] then [] else (cLb :: path ++ [cRb]) :: simple) ++
      sectionSubs path kvs
  | _ => []
termination_by structural v => v

/-- The `nestedEntries` loop of `writeTomlSection`: recurse into each table
entry under `path.key`. -/
def sectionSubs (path : List Char) : TvKvs → List (List Char)
  | TvKvs.nil => []
  | TvKvs.cons k v rest =>
    (if isTabV v then sectionLines (path ++ cDot :: k) v else []) ++
      sectionSubs path rest
termination_by structural l => l
end

/-- The second `generateToml` loop: a top-level section per table entry. -/
def topSections : TvKvs → List (List Char)
  | TvKvs.nil => []
  | TvKvs.cons k v rest =>
    (if isTabV v then sectionLines k v else []) ++ topSections rest

/-- `generateToml(config)`: top-level simple entries first, then the
sections, joined by newlines with a trailing newline when non-empty. -/
def generateTomlLines (config : TvKvs) : List (List Char) :=
  simpleLines config ++ topSections config

def generateToml (config : TvKvs) : List Char :=
  let lines := generateTomlLines config
  List.intercalate [cNl] lines ++ (if lines ≠ [] then [cNl] else [])

def kvsKeys : TvKvs → List (List Char)
  | TvKvs.nil => []
  | TvKvs.cons k _ rest => k :: kvsKeys rest

def kvsLen : TvKvs → Nat
  | TvKvs.nil => 0
  | TvKvs.cons _ _ rest => kvsLen rest + 1

def listOfTvList : TvList → List Tv
  | TvList.nil => []
  | TvList.cons x xs => x :: listOfTvList xs

/-- A bare TOML key the generator writes unquoted and the parser reads back
verbatim: non-empty, ASCII letters, digits, underscore or hyphen. -/
def safeKeyChar (c : Char) : Bool := c.isAlpha ∨ c.isDigit ∨ c = '_' ∨ c = cDash

def safeKey (k : List Char) : Bool := k ≠ [] ∧ k.all safeKeyChar

mutual
/-- The class of configuration values for which the round trip is claimed
after amendment: arbitrary strings, integers and booleans; arrays of
well-formed values; tables that are non-empty, have bare keys with no
duplicates, and well-formed values. -/
def wfTv : Tv → Bool
  | Tv.vStr _ => true
  | Tv.vInt _ => true
  | Tv.vBool _ => true
  | Tv.vArr xs => wfTvList xs
  | Tv.vTab kvs =>
    (match kvs with | TvKvs.nil => false | _ => true) &&
      decide ((kvsKeys kvs).Nodup) && wfKvs kvs
termination_by structural v => v

def wfTvList : TvList → Bool
  | TvList.nil => true
  | TvList.cons x xs => wfTv x && wfTvList xs
termination_by structural l => l

def wfKvs : TvKvs → Bool
  | TvKvs.nil => true
  | TvKvs.cons k v rest => safeKey k && wfTv v && wfKvs rest
termination_by structural l => l
end

/-- Well-formedness of a whole configuration document (the top-level table
may be empty: an empty document round-trips to an empty object). -/
def wfDoc (config : TvKvs) : Bool :=
  decide ((kvsKeys config).Nodup) && wfKvs config

def simpleOfKvs : TvKvs → TvKvs
  | TvKvs.nil => TvKvs.nil
  | TvKvs.cons k v rest =>
    if isTabV v then simpleOfKvs rest else TvKvs.cons k v (simpleOfKvs rest)

def appendKvs : TvKvs → TvKvs → TvKvs
  | TvKvs.nil, b => b
  | TvKvs.cons k v rest, b => TvKvs.cons k v (appendKvs rest b)

mutual
/-- The reordering the section mechanism performs on a table reachable
outside any array: simple entries first (their values, parsed back from
inline text, are unchanged), then the table entries, each recursively
reordered. -/
def canonTv : Tv → Tv
  | Tv.vTab kvs => Tv.vTab (appendKvs (simpleOfKvs kvs) (canonSubs kvs))
  | v => v
termination_by structural v => v

def canonSubs : TvKvs → TvKvs
  | TvKvs.nil => TvKvs.nil
  | TvKvs.cons k v rest =>
    if isTabV v then TvKvs.cons k (canonTv v) (canonSubs rest)
    else canonSubs rest
termination_by structural l => l
end

def canonDoc (config : TvKvs) : TvKvs :=
  appendKvs (simpleOfKvs config) (canonSubs config)

mutual
/-- JavaScript deep equality of JSON-like values, insensitive to object key
order (as `assert.deepStrictEqual` compares objects): arrays elementwise in
order, objects by key lookup plus equal size. -/
def tvEquiv : Tv → Tv → Bool
  | Tv.vStr a, Tv.vStr b => a = b
  | Tv.vInt a, Tv.vInt b => a = b
  | Tv.vBool a, Tv.vBool b => a = b
  | Tv.vArr xs, Tv.vArr ys => tvListEquiv xs ys
  | Tv.vTab a, Tv.vTab b => kvsLen a = kvsLen b && kvsSubEquiv a b
  | _, _ => false
termination_by structural a => a

def tvListEquiv : TvList → TvList → Bool
  | TvList.nil, TvList.nil => true
  | TvList.cons x xs, TvList.cons y ys => tvEquiv x y && tvListEquiv xs ys
  | _, _ => false
termination_by structural a => a

/-- Every entry of the first table has an equivalent entry in the second. -/
def kvsSubEquiv : TvKvs → TvKvs → Bool
  | TvKvs.nil, _ => true
  | TvKvs.cons k v rest, b =>
    (match getK b k with
     | some w => tvEquiv v w
     | none => false) && kvsSubEquiv rest b
termination_by structural a => a
end

/-- Deep equality of two parsed documents (root objects). -/
def docEquiv (a b : TvKvs) : Bool := tvEquiv (Tv.vTab a) (Tv.vTab b)

mutual
/-- Nesting depth, bounding the recursion the value parser needs. -/
def tvDepth : Tv → Nat
  | Tv.vStr _ => 0
  | Tv.vInt _ => 0
  | Tv.vBool _ => 0
  | Tv.vArr xs => tvListDepth xs + 1
  | Tv.vTab kvs => tvKvsDepth kvs + 1
termination_by structural v => v

def tvListDepth : TvList → Nat
  | TvList.nil => 0
  | TvList.cons x xs => max (tvDepth x) (tvListDepth xs)
termination_by structural l => l

def tvKvsDepth : TvKvs → Nat
  | TvKvs.nil => 0
  | TvKvs.cons _ v rest => max (tvDepth v) (tvKvsDepth rest)
termination_by structural l => l
end

/-! Proof infrastructure for the TOML codec: a mutual induction principle for
the value family, the scanner predicates used to reason about
`splitTomlElements`, and functional descriptions of the parser's path
navigation. -/

section TvInduction

variable {P : Tv → Prop} {Q : TvList → Prop} {R : TvKvs → Prop}
variable (hs : ∀ s, P (Tv.vStr s)) (hi : ∀ n, P (Tv.vInt n))
variable (hb : ∀ b, P (Tv.vBool b))
variable (ha : ∀ xs, Q xs → P (Tv.vArr xs))
variable (ht : ∀ kvs, R kvs → P (Tv.vTab kvs))
variable (hqn : Q TvList.nil)
variable (hqc : ∀ x xs, P x → Q xs → Q (TvList.cons x xs))
variable (hrn : R TvKvs.nil)
variable (hrc : ∀ k v rest, P v → R rest → R (TvKvs.cons k v rest))

mutual
def tvIndV : ∀ v, P v
  | Tv.vStr s => hs s
  | Tv.vInt n => hi n
  | Tv.vBool b => hb b
  | Tv.vArr xs => ha xs (tvIndL xs)
  | Tv.vTab kvs => ht kvs (tvIndK kvs)
termination_by structural v => v

def tvIndL : ∀ l, Q l
  | TvList.nil => hqn
  | TvList.cons x xs => hqc x xs (tvIndV x) (tvIndL xs)
termination_by structural l => l

def tvIndK : ∀ l, R l
  | TvKvs.nil => hrn
  | TvKvs.cons k v rest => hrc k v rest (tvIndV v) (tvIndK rest)
termination_by structural l => l
end

end TvInduction

/-- No character of `s`, scanned from `st`, triggers a split on `delim`. -/
def noSplits (delim : Char) (st : SplitSt) : List Char → Bool
  | [] => true
  | c :: rest => ¬ splitsHere delim st c && noSplits delim (scanStep st c) rest

/-- Navigate a dotted path through existing tables. -/
def getPathK : TvKvs → List (List Char) → Option TvKvs
  | root, [] => some root
  | root, p :: ps =>
    match getK root p with
    | some (Tv.vTab t) => getPathK t ps
    | _ => none

/-- Functionally set the table at a (non-empty) dotted path, materializing
missing or non-table intermediate nodes as empty tables, exactly as
`ensurePath` does. -/
def setPath : TvKvs → List (List Char) → Tv → TvKvs
  | root, [], _ => root
  | root, [p], v => setK root p v
  | root, p :: ps, v =>
    let sub :=
      match getK root p with
      | some (Tv.vTab t) => t
      | _ => TvKvs.nil
    setK root p (Tv.vTab (setPath sub ps v))

/-- A section path that can be freshly added below `root`: some (possibly
empty) chain of leading parts exists as tables, and the part after the chain
is absent (in particular the full path is not yet present). -/
def AddableAt : TvKvs → List (List Char) → Prop
  | _, [] => False
  | root, [p] => getK root p = none
  | root, p :: ps =>
    getK root p = none ∨ (∃ t, getK root p = some (Tv.vTab t) ∧ AddableAt t ps)

/-- A trimmed line the parser treats as a section header. -/
def isHeaderLine (line : List Char) : Bool :=
  let l := trimToml line
  l ≠ [] ∧ ¬ headIs l cHash ∧ headIs l cLb ∧ lastIs l cRb

/-- Line lists whose processing does not depend on the incoming section path
(they are empty, consist of blank lines, or begin with a header line, which
resets the path). -/
def PathIrrelevant (lines : List (List Char)) : Prop :=
  ∀ (root : TvKvs) (p q : List (List Char)),
    parseLinesGo lines root p = parseLinesGo lines root q

/-! Size measure for the section-generation recursion (arrays are never
descended into by the section writer, so they count as leaves). -/

mutual
def tvSizeM : Tv → Nat
  | Tv.vStr _ => 1
  | Tv.vInt _ => 1
  | Tv.vBool _ => 1
  | Tv.vArr _ => 1
  | Tv.vTab kvs => kvsSizeM kvs + 1
termination_by structural v => v

def kvsSizeM : TvKvs → Nat
  | TvKvs.nil => 0
  | TvKvs.cons _ v rest => tvSizeM v + kvsSizeM rest + 1
termination_by structural l => l
end

/-! ### handleSendMessage (src/ai-bridge/server.js)

The handler's observable protocol output is the sequence of `sendToHost`
calls it makes.  Envelope contents are abstracted to a payload tag carrying
the strings the handler computes; `JSON.parse` inside the console-log
interceptor is abstracted to two oracle functions (`jpMsg` for the
`[MESSAGE]` branch, `jpObj` for the brace-prefixed branch) passed as
parameters, since only the shape of the parse result, not the parser, decides
which envelope is emitted. -/

/-- What the `[MESSAGE]` branch extracts from a successfully parsed message:
whether `msg.type === 'assistant'` and the plain text that the non-streaming
mode would accumulate from its content blocks. -/
structure MsgView where
  isAssistant : Bool
  accumText : String
deriving Repr

/-- What the brace-prefixed branch extracts from a successfully parsed JSON
line: `some e` when `parsed.success === false && typeof parsed.error ===
'string'` (with `e` the error string), and whether `typeof parsed.type ===
'string'` (the raw pass-through case). -/
structure ObjView where
  errorResult : Option String
  hasTypeField : Bool
deriving Repr

/-- Interceptor state threaded through the console-log callback:
`bufferedContent`, `capturedStructuredError`, `structuredErrorEmitted`. -/
structure InterceptState where
  buffered : String
  capturedErr : Option String
  emitted : Bool
deriving Repr

def InterceptState.initial : InterceptState := ⟨"", none, false⟩

/-- Abstracted envelope payloads (`sendToHost`'s `content` argument). -/
inductive Payload where
  | pStart
  | pDelta (delta : String)
  | pThinking (delta : String)
  | pMessage (raw : String)
  | pError (text : String)
  | pRemediation (isCodex : Bool)
  | pBuffered (text : String)
  | pEnd
deriving Repr, DecidableEq

/-- One outbound envelope: `sendToHost(type, content, requestId)`. -/
structure OutEnvelope where
  etype : String
  requestId : String
  payload : Payload
deriving Repr, DecidableEq

/-- `s.startsWith(p)` (expressed on the character lists, which the kernel
can evaluate). -/
def jsStartsWith (s p : String) : Bool := p.data.isPrefixOf s.data

/-- `s.trim()` for the strings handled here (expressed on the character
lists, which the kernel can evaluate). -/
def jsTrim (s : String) : String := String.mk (trimToml s.data)

/-- `textChunk.startsWith(' ') ? textChunk.slice(1) : textChunk`. -/
def stripOneSpace (s : String) : String :=
  if jsStartsWith s " " then s.drop 1 else s

/-- The console-log interceptor installed by `handleSendMessage` for the
Claude branch, acting on one intercepted output line: returns the new state
and the envelopes sent for this line, in order. -/
def interceptLine (jpMsg : String → Option MsgView) (jpObj : String → Option ObjView)
    (streaming thinking : Bool) (rid : String)
    (st : InterceptState) (output : String) : InterceptState × List OutEnvelope :=
  if jsStartsWith output "[CONTENT_DELTA]" then
    let deltaJson := jsTrim (output.drop 15)
    (st, [⟨"streamChunk", rid, Payload.pDelta deltaJson⟩])
  else if jsStartsWith output "[CONTENT]" then
    let textChunk := stripOneSpace (output.drop 9)
    if streaming then
      (st, [⟨"streamChunk", rid, Payload.pDelta textChunk⟩])
    else
      ({ st with buffered := st.buffered ++ textChunk }, [])
  else if jsStartsWith output "[THINKING_DELTA]" then
    if ¬ thinking then (st, [])
    else
      let deltaJson := jsTrim (output.drop 16)
      (st, [⟨"thinkingChunk", rid, Payload.pThinking deltaJson⟩])
  else if jsStartsWith output "[THINKING]" then
    if ¬ thinking then (st, [])
    else
      let thinkingChunk := stripOneSpace (output.drop 10)
      if thinkingChunk ≠ "" then
        (st, [⟨"thinkingChunk", rid, Payload.pThinking thinkingChunk⟩])
      else (st, [])
  else if jsStartsWith output "[MESSAGE]" then
    let msgJson := jsTrim (output.drop 9)
    match jpMsg msgJson with
    | some m =>
      let st :=
        if ¬ streaming ∧ m.isAssistant then
          { st with buffered := st.buffered ++ m.accumText }
        else st
      (st, [⟨"messageUpdate", rid, Payload.pMessage msgJson⟩])
    | none => (st, [])
  else if jsStartsWith output "[STREAM_START]" then (st, [])
  else if jsStartsWith output "[STREAM_END]" then (st, [])
  else if jsStartsWith output "\x7b" then
    match jpObj output with
    | some o =>
      match o.errorResult with
      | some e =>
        let st := { st with capturedErr := some e }
        if ¬ st.emitted then
          ({ st with emitted := true },
           [⟨"streamChunk", rid, Payload.pError ("\n\nError: " ++ e)⟩])
        else (st, [])
      | none => (st, [])
    | none => (st, [])
  else (st, [])

/-- Fold the interceptor over the lines the SDK logged. -/
def interceptRun (jpMsg : String → Option MsgView) (jpObj : String → Option ObjView)
    (streaming thinking : Bool) (rid : String)
    (lines : List String) : InterceptState × List OutEnvelope :=
  lines.foldl
    (fun acc line =>
      let next := interceptLine jpMsg jpObj streaming thinking rid acc.1 line
      (next.1, acc.2 ++ next.2))
    (InterceptState.initial, [])

/-- Whether the awaited SDK command resolved or threw (the thrown message). -/
inductive SdkOutcome where
  | completes
  | throws (emsg : String)
deriving Repr, DecidableEq

/-- The situations `handleSendMessage` distinguishes: the Claude SDK branch
(with the console lines the SDK produced before resolving or throwing), the
Codex SDK branch, or neither SDK available. -/
inductive SendScenario where
  | claudeAvailable (lines : List String) (outcome : SdkOutcome)
  | codexAvailable (outcome : SdkOutcome)
  | sdkUnavailable (isCodex : Bool)
deriving Repr

def scThrows : SendScenario → Option String
  | SendScenario.claudeAvailable _ (SdkOutcome.throws e) => some e
  | SendScenario.codexAvailable (SdkOutcome.throws e) => some e
  | _ => none

/-- The envelopes `handleSendMessage` emits between `streamStart` and
`streamEnd`: the try-block body plus the catch handler. -/
def sendMessageBody (jpMsg : String → Option MsgView) (jpObj : String → Option ObjView)
    (streaming thinking : Bool) (rid : String) : SendScenario → List OutEnvelope
  | SendScenario.claudeAvailable lines outcome =>
    let run := interceptRun jpMsg jpObj streaming thinking rid lines
    match outcome with
    | SdkOutcome.throws e =>
      run.2 ++ [⟨"streamChunk", rid, Payload.pError ("\n\nError: " ++ e)⟩]
    | SdkOutcome.completes =>
      run.2 ++
        (if ¬ streaming ∧ run.1.buffered ≠ "" then
          [⟨"streamChunk", rid, Payload.pBuffered run.1.buffered⟩]
         else
           match run.1.capturedErr with
           | some e =>
             if ¬ streaming ∧ ¬ run.1.emitted then
               [⟨"streamChunk", rid, Payload.pError ("\n\nError: " ++ e)⟩]
             else []
           | none => [])
  | SendScenario.codexAvailable outcome =>
    match outcome with
    | SdkOutcome.throws e =>
      [⟨"streamChunk", rid, Payload.pError ("\n\nError: " ++ e)⟩]
    | SdkOutcome.completes => []
  | SendScenario.sdkUnavailable isCodex =>
    [⟨"streamChunk", rid, Payload.pRemediation isCodex⟩]

/-- `handleSendMessage(content, requestId)`: one `streamStart`, the body
emissions, then — the last statement of the function, outside the
try/catch — exactly one `streamEnd`. -/
def handleSendMessage (jpMsg : String → Option MsgView) (jpObj : String → Option ObjView)
    (streaming thinking : Bool) (sc : SendScenario) (rid : String) : List OutEnvelope :=
  ⟨"streamStart", rid, Payload.pStart⟩ ::
    sendMessageBody jpMsg jpObj streaming thinking rid sc ++
      [⟨"streamEnd", rid, Payload.pEnd⟩]

/-! ### Further TOML proof infrastructure: character classes, canonical
predicates for the round-trip induction, and the witness configuration. -/

/-- A character that is none of the scanner's special characters and not the
comma delimiter: scanning it changes nothing and never splits. -/
def plainChar (c : Char) : Bool :=
  ¬ (c = cBs ∨ c = cDq ∨ c = cSq ∨ c = cLb ∨ c = cRb ∨ c = cLc ∨ c = cRc ∨
      c = cComma)

/-- Non-empty with non-whitespace first and last character: `trim` leaves
such a string unchanged. -/
def trimmedNe (s : List Char) : Bool :=
  match s.head?, s.getLast? with
  | some a, some b => ¬ isWsChar a ∧ ¬ isWsChar b
  | _, _ => false

/-- `sectionName` text of a dotted path. -/
def joinDots (parts : List (List Char)) : List Char := List.intercalate [cDot] parts

/-- The scanner neutrality of printed values: from any bracket depth `d ≥ 0`
(double quotes, single quotes and escape off), the text of a printed value
returns the scanner to the same state and triggers no comma split. -/
def ScanCleanV (v : Tv) : Prop :=
  ∀ d : Int, 0 ≤ d →
    scanFold ⟨d, false, false, false⟩ (toTomlValue v) = ⟨d, false, false, false⟩ ∧
    noSplits cComma ⟨d, false, false, false⟩ (toTomlValue v) = true

/-- Scanner neutrality of a printed array body (valid at depth `≥ 1`, inside
the enclosing bracket). -/
def ScanCleanL (xs : TvList) : Prop :=
  ∀ d : Int, 1 ≤ d →
    scanFold ⟨d, false, false, false⟩ (toTomlList xs) = ⟨d, false, false, false⟩ ∧
    noSplits cComma ⟨d, false, false, false⟩ (toTomlList xs) = true

/-- Scanner neutrality of a printed inline-table body (valid at depth `≥ 1`).
-/
def ScanCleanK (kvs : TvKvs) : Prop :=
  ∀ d : Int, 1 ≤ d →
    scanFold ⟨d, false, false, false⟩ (toTomlKvs kvs) = ⟨d, false, false, false⟩ ∧
    noSplits cComma ⟨d, false, false, false⟩ (toTomlKvs kvs) = true

/-- The value round trip: a well-formed value, printed and re-parsed with
enough fuel, yields itself. -/
def ValRtV (v : Tv) : Prop :=
  wfTv v = true → ∀ f, tvDepth v < f → parseTomlValueF f (toTomlValue v) = v

def kvsEntries : TvKvs → List (List Char × Tv)
  | TvKvs.nil => []
  | TvKvs.cons k v rest => (k, v) :: kvsEntries rest

/-- Keys of the table-valued entries (the nested sections). -/
def tableKeys : TvKvs → List (List Char)
  | TvKvs.nil => []
  | TvKvs.cons k v rest =>
    if isTabV v then k :: tableKeys rest else tableKeys rest

/-- The effect of processing one section's `key = value` lines on the section
table: set each non-table entry in order. -/
def setSimple (sec : TvKvs) : TvKvs → TvKvs
  | TvKvs.nil => sec
  | TvKvs.cons k v rest =>
    if isTabV v then setSimple sec rest else setSimple (setK sec k v) rest

/-- Rebuild a table from an entry list. -/
def ofEntries : List (List Char × Tv) → TvKvs
  | [] => TvKvs.nil
  | p :: rest => TvKvs.cons p.1 p.2 (ofEntries rest)

/-- The body of the inline-table pair loop of `parseTomlValue`, named so the
round-trip proof can reason about the fold. -/
def pairFoldStep (f : Nat) (result : TvKvs) (pair : List Char) : TvKvs :=
  let t := trimToml pair
  match firstIdx t cEq with
  | none => result
  | some i =>
    if i = 0 then result
    else
      let key0 := trimToml (t.take i)
      let valueStr2 := trimToml (t.drop (i + 1))
      let key :=
        if (headIs key0 cDq ∧ lastIs key0 cDq) ∨
            (headIs key0 cSq ∧ lastIs key0 cSq) then
          sliceEnds key0
        else key0
      setK result key (parseTomlValueF f valueStr2)

/-- The printed text of one inline-table entry. -/
def pairText (k : List Char) (v : Tv) : List Char :=
  cDq :: escapeTomlString k ++ [cDq, cSp, cEq, cSp] ++ toTomlValue v

/-- A configuration exercising every value form: strings needing escapes,
negative integers, booleans, arrays with nested inline tables, and nested
sections. -/
def tomlWitnessConfig : TvKvs :=
  TvKvs.cons ['n', 'a', 'm', 'e'] (Tv.vStr ['a', cSp, cDq, 'b', cNl, cBs])
    (TvKvs.cons ['c', 'o', 'u', 'n', 't'] (Tv.vInt (-42))
      (TvKvs.cons ['o', 'n'] (Tv.vBool true)
        (TvKvs.cons ['a', 'r', 'r']
          (Tv.vArr (TvList.cons (Tv.vInt 1)
            (TvList.cons (Tv.vStr ['x', cComma, 'y'])
              (TvList.cons
                (Tv.vTab (TvKvs.cons ['k'] (Tv.vInt 2) TvKvs.nil))
                TvList.nil))))
          (TvKvs.cons ['s', 'e', 'c']
            (Tv.vTab (TvKvs.cons ['x'] (Tv.vInt 10)
              (TvKvs.cons ['i', 'n', 'n', 'e', 'r']
                (Tv.vTab (TvKvs.cons ['y'] (Tv.vStr []) TvKvs.nil))
                TvKvs.nil)))
            TvKvs.nil))))

/-! ## Theorems -/

/-! ### Generic association-list lemmas -/

theorem lookup_mem_str {l : List (String × String)} {k v : String}
    (h : List.lookup k l = some v) : (k, v) ∈ l := by
  induction l with
  | nil => simp [List.lookup] at h
  | cons p rest ih =>
    obtain ⟨k0, v0⟩ := p
    rw [List.lookup] at h
    by_cases hk : (k == k0)
    · rw [hk] at h
      simp only [Option.some.injEq] at h
      subst h
      simp only [beq_iff_eq] at hk
      subst hk
      exact List.mem_cons_self _ _
    · rw [Bool.not_eq_true] at hk
      rw [hk] at h
      exact List.mem_cons_of_mem _ (ih h)

/-- C8: message-type normalization is idempotent, no canonical (mapped-to)
name appears as a legacy key of the lookup table, and unknown types pass
through unchanged. -/
theorem normalizeMessageType_spec (t : String) :
    normalizeMessageType (normalizeMessageType t) = normalizeMessageType t ∧
    ((typeMap.map Prod.snd).all fun v => (List.lookup v typeMap).isNone) = true ∧
    (List.lookup t typeMap = none → normalizeMessageType t = t) := by
  have hall : ((typeMap.map Prod.snd).all fun v => (List.lookup v typeMap).isNone) = true := by
    decide
  refine ⟨?_, hall, ?_⟩
  · cases h : List.lookup t typeMap with
    | none => simp [normalizeMessageType, h]
    | some v =>
      have hv : ((List.lookup v typeMap).isNone) = true := by
        have hmem : v ∈ typeMap.map Prod.snd :=
          List.mem_map_of_mem Prod.snd (lookup_mem_str h)
        exact List.all_eq_true.mp hall v hmem
      rw [Option.isNone_iff_eq_none] at hv
      simp [normalizeMessageType, h, hv]
  · intro h
    simp [normalizeMessageType, h]

theorem normalizeMessageType_spec_witness :
    normalizeMessageType "interrupt_session" = "interruptSession" ∧
    normalizeMessageType "already_canonical_name" = "already_canonical_name" := by
  constructor
  · rfl
  · exact (normalizeMessageType_spec "already_canonical_name").2.2 (by decide)

theorem lookupStr_cons {α : Type} (k0 : String) (v0 : α) (rest : List (String × α))
    (k : String) :
    List.lookup k ((k0, v0) :: rest) = if k0 = k then some v0 else List.lookup k rest := by
  rw [List.lookup]
  by_cases h : k = k0
  · subst h; simp
  · have : (k == k0) = false := by simp [h]
    rw [this]
    have : ¬ (k0 = k) := fun hh => h hh.symm
    simp [this]

theorem lookupStr_append {α : Type} (x y : List (String × α)) (k : String) :
    List.lookup k (x ++ y) = (List.lookup k x).or (List.lookup k y) := by
  induction x with
  | nil => simp [List.lookup]
  | cons p rest ih =>
    obtain ⟨k0, v0⟩ := p
    rw [List.cons_append, lookupStr_cons, lookupStr_cons]
    by_cases h : k0 = k
    · simp [h]
    · simp [h, ih]

theorem lookupStr_eq_none {α : Type} {m : List (String × α)} {k : String}
    (h : k ∉ m.map Prod.fst) : List.lookup k m = none := by
  induction m with
  | nil => simp [List.lookup]
  | cons p rest ih =>
    obtain ⟨k0, v0⟩ := p
    simp only [List.map_cons, List.mem_cons, not_or] at h
    rw [lookupStr_cons]
    have : ¬ (k0 = k) := fun hh => h.1 hh.symm
    simp [this, ih h.2]

theorem storeDel_lookup_ne {α : Type} (m : List (String × α)) {s k : String}
    (h : s ≠ k) : storeLookup (storeDel m k) s = storeLookup m s := by
  induction m with
  | nil => rfl
  | cons p rest ih =>
    obtain ⟨k0, v0⟩ := p
    unfold storeDel
    by_cases hk : k0 = k
    · simp only [hk, if_pos rfl]
      unfold storeLookup
      rw [lookupStr_cons]
      have : ¬ (k = s) := fun hh => h hh.symm
      simp [this]
    · simp only [if_neg hk]
      unfold storeLookup at ih ⊢
      rw [lookupStr_cons, lookupStr_cons]
      by_cases h0 : k0 = s
      · simp [h0]
      · simp [h0, ih]

theorem storeDel_lookup_self {α : Type} {m : List (String × α)}
    (h : (m.map Prod.fst).Nodup) (k : String) :
    storeLookup (storeDel m k) k = none := by
  induction m with
  | nil => rfl
  | cons p rest ih =>
    obtain ⟨k0, v0⟩ := p
    simp only [List.map_cons, List.nodup_cons] at h
    unfold storeDel
    by_cases hk : k0 = k
    · simp only [hk, if_pos rfl]
      subst hk
      exact lookupStr_eq_none h.1
    · simp only [if_neg hk]
      unfold storeLookup
      rw [lookupStr_cons]
      simp only [if_neg hk]
      exact ih h.2

/-- C10: toggling a session's favorite flag flips exactly that session's
presence in the favorites map and leaves every other entry unchanged. -/
theorem handleToggleFavorite_spec (favorites : FavStore) (sessionId : String) (now : Int)
    (h : (favorites.map Prod.fst).Nodup) :
    ((storeLookup (handleToggleFavorite favorites sessionId now) sessionId).isSome
        = ! (storeLookup favorites sessionId).isSome) ∧
    (∀ s, s ≠ sessionId →
      storeLookup (handleToggleFavorite favorites sessionId now) s
        = storeLookup favorites s) := by
  cases hl : storeLookup favorites sessionId with
  | some v =>
    have hres : handleToggleFavorite favorites sessionId now
        = storeDel favorites sessionId := by
      simp [handleToggleFavorite, hl]
    rw [hres]
    refine ⟨?_, ?_⟩
    · rw [storeDel_lookup_self h]
      rfl
    · intro s hs
      exact storeDel_lookup_ne favorites hs
  | none =>
    have hres : handleToggleFavorite favorites sessionId now
        = favorites ++ [(sessionId, ⟨now⟩)] := by
      simp [handleToggleFavorite, hl]
    rw [hres]
    refine ⟨?_, ?_⟩
    · unfold storeLookup
      rw [lookupStr_append]
      unfold storeLookup at hl
      rw [hl, lookupStr_cons]
      simp
    · intro s hs
      unfold storeLookup
      rw [lookupStr_append]
      have hnone : List.lookup s [(sessionId, (⟨now⟩ : FavEntry))] = none := by
        rw [lookupStr_cons]
        have hne : ¬ (sessionId = s) := fun hh => hs hh.symm
        simp [hne, List.lookup]
      rw [hnone]
      simp

theorem handleToggleFavorite_spec_witness :
    ((storeLookup (handleToggleFavorite [("s1", ⟨5⟩)] "s2" 9) "s2").isSome
        = ! (storeLookup [(("s1" : String), (⟨5⟩ : FavEntry))] "s2").isSome) ∧
    storeLookup (handleToggleFavorite [("s1", ⟨5⟩)] "s2" 9) "s1"
        = storeLookup [(("s1" : String), (⟨5⟩ : FavEntry))] "s1" := by
  have h := handleToggleFavorite_spec [("s1", ⟨5⟩)] "s2" 9 (by decide)
  exact ⟨h.1, h.2 "s1" (by decide)⟩

/-- C9: after a session is deleted, its id has no entry in the favorites
store nor in the custom-titles store, and every other id's entries are
unchanged. -/
theorem handleDeleteSession_spec (favorites : FavStore) (titles : TitleStore)
    (sessionId : String)
    (hf : (favorites.map Prod.fst).Nodup) (ht : (titles.map Prod.fst).Nodup) :
    storeLookup (handleDeleteSession favorites titles sessionId).1 sessionId = none ∧
    storeLookup (handleDeleteSession favorites titles sessionId).2 sessionId = none ∧
    (∀ s, s ≠ sessionId →
      storeLookup (handleDeleteSession favorites titles sessionId).1 s
        = storeLookup favorites s) ∧
    (∀ s, s ≠ sessionId →
      storeLookup (handleDeleteSession favorites titles sessionId).2 s
        = storeLookup titles s) := by
  have hfav1 : (handleDeleteSession favorites titles sessionId).1
      = (if (storeLookup favorites sessionId).isSome then storeDel favorites sessionId
         else favorites) := rfl
  have htit1 : (handleDeleteSession favorites titles sessionId).2
      = (if (storeLookup titles sessionId).isSome then storeDel titles sessionId
         else titles) := rfl
  refine ⟨?_, ?_, ?_, ?_⟩
  · rw [hfav1]
    cases hl : storeLookup favorites sessionId with
    | some v => simp only [Option.isSome_some, if_true]
                exact storeDel_lookup_self hf sessionId
    | none => simp [hl]
  · rw [htit1]
    cases hl : storeLookup titles sessionId with
    | some v => simp only [Option.isSome_some, if_true]
                exact storeDel_lookup_self ht sessionId
    | none => simp [hl]
  · intro s hs
    rw [hfav1]
    cases hl : storeLookup favorites sessionId with
    | some v => simp only [Option.isSome_some, if_true]
                exact storeDel_lookup_ne favorites hs
    | none => simp [hl]
  · intro s hs
    rw [htit1]
    cases hl : storeLookup titles sessionId with
    | some v => simp only [Option.isSome_some, if_true]
                exact storeDel_lookup_ne titles hs
    | none => simp [hl]

theorem handleDeleteSession_spec_witness :
    storeLookup (handleDeleteSession [("a", ⟨1⟩), ("b", ⟨2⟩)] [("a", ⟨"t", 3⟩)] "a").1 "a"
        = none ∧
    storeLookup (handleDeleteSession [("a", ⟨1⟩), ("b", ⟨2⟩)] [("a", ⟨"t", 3⟩)] "a").2 "a"
        = none ∧
    storeLookup (handleDeleteSession [("a", ⟨1⟩), ("b", ⟨2⟩)] [("a", ⟨"t", 3⟩)] "a").1 "b"
        = storeLookup [(("a" : String), (⟨1⟩ : FavEntry)), ("b", ⟨2⟩)] "b" := by
  have h := handleDeleteSession_spec [("a", ⟨1⟩), ("b", ⟨2⟩)] [("a", ⟨"t", 3⟩)] "a"
    (by decide) (by decide)
  exact ⟨h.1, h.2.1, h.2.2.1 "b" (by decide)⟩

theorem getKey_cons (k0 : String) (v0 : Jv) (rest : JObj) (k : String) :
    getKey ((k0, v0) :: rest) k = if k0 = k then some v0 else getKey rest k :=
  lookupStr_cons k0 v0 rest k

theorem getKey_append (x y : JObj) (k : String) :
    getKey (x ++ y) k = (getKey x k).or (getKey y k) :=
  lookupStr_append x y k

theorem getKey_setKey_self (m : JObj) (k : String) (v : Jv) :
    getKey (setKey m k v) k = some v := by
  induction m with
  | nil => simp [setKey, getKey, List.lookup]
  | cons p rest ih =>
    obtain ⟨k0, v0⟩ := p
    by_cases h : k0 = k
    · subst h
      simp [setKey, getKey_cons]
    · simp [setKey, h, getKey_cons, ih]

theorem getKey_setKey_ne (m : JObj) {k q : String} (v : Jv) (h : q ≠ k) :
    getKey (setKey m k v) q = getKey m q := by
  induction m with
  | nil =>
    have hb : (q == k) = false := by simp [h]
    simp [setKey, getKey, List.lookup, hb]
  | cons p rest ih =>
    obtain ⟨k0, v0⟩ := p
    by_cases h0 : k0 = k
    · subst h0
      have hne : ¬ (k0 = q) := fun hh => h hh.symm
      simp [setKey, getKey_cons, hne]
    · simp only [setKey, if_neg h0, getKey_cons, ih]

theorem mergeStep_eq_setKey (next : JObj) (kv : String × Jv) :
    ∃ w, mergeStep next kv = setKey next kv.1 w := by
  obtain ⟨k0, v0⟩ := kv
  by_cases h : k0 = "env" ∧ isPlainObj v0 = true
  · cases v0 with
    | obj pe =>
      refine ⟨Jv.obj (objSpread2 (envBaseEntries (getKey next "env")) pe), ?_⟩
      have hk : k0 = "env" := h.1
      subst hk
      simp [mergeStep, isPlainObj]
    | str a => simp [isPlainObj] at h
    | num a => simp [isPlainObj] at h
    | boolean a => simp [isPlainObj] at h
    | null => simp [isPlainObj] at h
    | arr a => simp [isPlainObj] at h
  · refine ⟨v0, ?_⟩
    simp only [mergeStep, if_neg h]

theorem mergeFold_preserves (incoming : List (String × Jv)) :
    ∀ (base : JObj) (k : String), k ∉ incoming.map Prod.fst →
      getKey (incoming.foldl mergeStep base) k = getKey base k := by
  induction incoming with
  | nil => intro base k _; rfl
  | cons kv rest ih =>
    intro base k hk
    simp only [List.map_cons, List.mem_cons, not_or] at hk
    rw [List.foldl_cons, ih _ k hk.2]
    obtain ⟨w, hw⟩ := mergeStep_eq_setKey base kv
    rw [hw, getKey_setKey_ne _ _ hk.1]

theorem mergeFold_sets (incoming : List (String × Jv)) :
    ∀ (base : JObj) (k : String) (v : Jv),
      (incoming.map Prod.fst).Nodup → (k, v) ∈ incoming →
      ¬ (k = "env" ∧ isPlainObj v = true) →
      getKey (incoming.foldl mergeStep base) k = some v := by
  induction incoming with
  | nil => intro _ _ _ _ hmem _; simp at hmem
  | cons kv rest ih =>
    intro base k v hnd hmem hnenv
    simp only [List.map_cons, List.nodup_cons] at hnd
    rcases List.mem_cons.mp hmem with heq | htail
    · subst heq
      rw [List.foldl_cons]
      have hstep : mergeStep base (k, v) = setKey base k v := by
        unfold mergeStep
        rw [if_neg hnenv]
      rw [hstep, mergeFold_preserves rest _ k hnd.1, getKey_setKey_self]
    · rw [List.foldl_cons]
      exact ih _ k v hnd.2 htail hnenv

theorem mergeFold_env (incoming : List (String × Jv)) :
    ∀ (base : JObj) (pe : JObj),
      (incoming.map Prod.fst).Nodup → ("env", Jv.obj pe) ∈ incoming →
      getKey (incoming.foldl mergeStep base) "env"
        = some (Jv.obj (objSpread2 (envBaseEntries (getKey base "env")) pe)) := by
  induction incoming with
  | nil => intro _ _ _ hmem; simp at hmem
  | cons kv rest ih =>
    intro base pe hnd hmem
    simp only [List.map_cons, List.nodup_cons] at hnd
    rcases List.mem_cons.mp hmem with heq | htail
    · rw [List.foldl_cons]
      have hstep : mergeStep base kv
          = setKey base "env"
              (Jv.obj (objSpread2 (envBaseEntries (getKey base "env")) pe)) := by
        rw [← heq]
        simp [mergeStep, isPlainObj]
      rw [hstep]
      have henv : ("env" : String) ∉ rest.map Prod.fst := by
        have hkv : kv.1 = "env" := by rw [← heq]
        rw [← hkv]
        exact hnd.1
      rw [mergeFold_preserves rest _ _ henv, getKey_setKey_self]
    · have hne : kv.1 ≠ "env" := by
        intro hk
        apply hnd.1
        rw [hk]
        exact List.mem_map_of_mem Prod.fst htail
      rw [List.foldl_cons]
      obtain ⟨w, hw⟩ := mergeStep_eq_setKey base kv
      have hbase : getKey (mergeStep base kv) "env" = getKey base "env" := by
        rw [hw, getKey_setKey_ne _ _ (fun hh => hne hh.symm)]
      rw [ih _ pe hnd.2 htail, hbase]

theorem getKey_filterKeys (b : JObj) (q1 q2 : String → Bool) (e : String)
    (h : q1 e = q2 e) :
    getKey (b.filter fun p => q1 p.1) e = getKey (b.filter fun p => q2 p.1) e := by
  induction b with
  | nil => rfl
  | cons p rest ih =>
    obtain ⟨k0, v0⟩ := p
    simp only [List.filter_cons]
    by_cases hk : k0 = e
    · subst hk
      rw [show q1 (k0, v0).1 = q2 (k0, v0).1 from h]
      cases hq : q2 (k0, v0).1 with
      | true => simp [getKey_cons]
      | false => simpa using ih
    · cases hq1 : q1 (k0, v0).1 with
      | true =>
        cases hq2 : q2 (k0, v0).1 with
        | true => simpa [getKey_cons, hk] using ih
        | false => simpa [getKey_cons, hk] using ih
      | false =>
        cases hq2 : q2 (k0, v0).1 with
        | true => simpa [getKey_cons, hk] using ih
        | false => simpa using ih

theorem getKey_mapSpread (a b : JObj) (e : String) :
    getKey (a.map fun p => (p.1, (List.lookup p.1 b).getD p.2)) e
      = (getKey a e).map fun v => (List.lookup e b).getD v := by
  induction a with
  | nil => rfl
  | cons p rest ih =>
    obtain ⟨k0, v0⟩ := p
    simp only [List.map_cons]
    by_cases hk : k0 = e
    · subst hk
      simp [getKey_cons]
    · simp only [getKey_cons, if_neg hk, ih]

theorem lookupStr_isSome_of_mem {α : Type} {m : List (String × α)} {k : String}
    (h : k ∈ m.map Prod.fst) : (List.lookup k m).isSome = true := by
  induction m with
  | nil => simp at h
  | cons p rest ih =>
    obtain ⟨k0, v0⟩ := p
    rw [lookupStr_cons]
    simp only [List.map_cons, List.mem_cons] at h
    by_cases hk : k0 = k
    · simp [hk]
    · rcases h with h | h
      · exact absurd h.symm hk
      · simp only [if_neg hk]
        exact ih h

theorem objSpread2_lookup (a b : JObj) (e : String) :
    getKey (objSpread2 a b) e = (getKey b e).or (getKey a e) := by
  unfold objSpread2
  rw [getKey_append, getKey_mapSpread a b e]
  cases ha : getKey a e with
  | some v =>
    cases hb : getKey b e with
    | some w =>
      rw [show List.lookup e b = getKey b e from rfl, hb]
      simp
    | none =>
      rw [show List.lookup e b = getKey b e from rfl, hb]
      simp
  | none =>
    have hnotmem : e ∉ jKeys a := by
      intro hmem
      have hsome := lookupStr_isSome_of_mem (m := a) (k := e)
        (show e ∈ a.map Prod.fst from hmem)
      rw [show List.lookup e a = getKey a e from rfl, ha] at hsome
      simp at hsome
    have hcont : (jKeys a).contains e = false := by simpa using hnotmem
    have hfilter : getKey (b.filter fun p => ! (jKeys a).contains p.1) e
        = getKey (b.filter fun _ => true) e :=
      getKey_filterKeys b (fun s => ! (jKeys a).contains s) (fun _ => true) e
        (by simp; exact hnotmem)
    rw [hfilter]
    simp

/-- C6: merging a settings patch into a base document preserves every
pre-existing key not present in the patch, replaces (does not union) every
key present in the patch other than a plain-object `env`, and unions the
nested `env` map so that the patch's entries win and the base's other
entries survive. -/
theorem mergeProviderSettings_spec (base incoming : JObj)
    (hnd : (incoming.map Prod.fst).Nodup) :
    (∀ k, k ∉ incoming.map Prod.fst →
      getKey (mergeProviderSettingsIntoClaudeSettings base incoming) k
        = getKey base k) ∧
    (∀ k v, (k, v) ∈ incoming → ¬ (k = "env" ∧ isPlainObj v = true) →
      getKey (mergeProviderSettingsIntoClaudeSettings base incoming) k = some v) ∧
    (∀ pe, ("env", Jv.obj pe) ∈ incoming →
      getKey (mergeProviderSettingsIntoClaudeSettings base incoming) "env"
        = some (Jv.obj (objSpread2 (envBaseEntries (getKey base "env")) pe)) ∧
      ∀ e, getKey (objSpread2 (envBaseEntries (getKey base "env")) pe) e
        = (getKey pe e).or (getKey (envBaseEntries (getKey base "env")) e)) := by
  refine ⟨?_, ?_, ?_⟩
  · intro k hk
    exact mergeFold_preserves incoming base k hk
  · intro k v hmem hnenv
    exact mergeFold_sets incoming base k v hnd hmem hnenv
  · intro pe hmem
    exact ⟨mergeFold_env incoming base pe hnd hmem,
      fun e => objSpread2_lookup (envBaseEntries (getKey base "env")) pe e⟩

theorem mergeProviderSettings_spec_witness :
    getKey (mergeProviderSettingsIntoClaudeSettings
        [("model", Jv.str "opus"), ("env", Jv.obj [("A", Jv.str "1"), ("B", Jv.str "2")])]
        [("env", Jv.obj [("B", Jv.str "3")]), ("apiKey", Jv.str "k")])
      "model" = some (Jv.str "opus") ∧
    getKey (mergeProviderSettingsIntoClaudeSettings
        [("model", Jv.str "opus"), ("env", Jv.obj [("A", Jv.str "1"), ("B", Jv.str "2")])]
        [("env", Jv.obj [("B", Jv.str "3")]), ("apiKey", Jv.str "k")])
      "apiKey" = some (Jv.str "k") ∧
    getKey (mergeProviderSettingsIntoClaudeSettings
        [("model", Jv.str "opus"), ("env", Jv.obj [("A", Jv.str "1"), ("B", Jv.str "2")])]
        [("env", Jv.obj [("B", Jv.str "3")]), ("apiKey", Jv.str "k")])
      "env" = some (Jv.obj [("A", Jv.str "1"), ("B", Jv.str "3")]) := by
  have h := mergeProviderSettings_spec
    [("model", Jv.str "opus"), ("env", Jv.obj [("A", Jv.str "1"), ("B", Jv.str "2")])]
    [("env", Jv.obj [("B", Jv.str "3")]), ("apiKey", Jv.str "k")]
    (by simp)
  refine ⟨?_, ?_, ?_⟩
  · have := h.1 "model" (by simp)
    rw [this]
    rfl
  · exact h.2.1 "apiKey" (Jv.str "k") (by simp) (by simp [isPlainObj])
  · have := (h.2.2 [("B", Jv.str "3")] (by simp)).1
    rw [this]
    rfl

/-- C7: switching the active Claude provider and then reading the current
provider returns the just-set id, and deleting the provider whose id equals
the active pointer resets both the canonical `config.claude.current` and the
legacy `settings.activeClaudeProviderId` to the local entry. -/
theorem claudeProviderPointer_spec (s : ProviderState) (id : String) :
    (id ≠ "" → readActiveClaudeId (handleSwitchClaudeProvider s id) = id) ∧
    (ensuredCurrent s = id →
      (handleDeleteProvider s id).claudeCurrent = some localSettingsId ∧
      (handleDeleteProvider s id).activeClaudeProviderId = some localSettingsId) := by
  constructor
  · intro hid
    unfold handleSwitchClaudeProvider readActiveClaudeId
    rw [if_neg hid]
    simp [hid]
  · intro hact
    have hens : ensuredCurrent s ≠ "" := by
      unfold ensuredCurrent
      cases hc : s.claudeCurrent with
      | none => simp [localSettingsId]
      | some c =>
        by_cases h : c = ""
        · simp [h, localSettingsId]
        · simp [h]
    unfold handleDeleteProvider
    simp only [if_pos hens, if_pos hact]
    exact ⟨trivial, trivial⟩

theorem claudeProviderPointer_spec_witness :
    readActiveClaudeId
        (handleSwitchClaudeProvider
          ⟨some "p0", [("p1", [])], some "p0"⟩ "p1") = "p1" ∧
    (handleDeleteProvider ⟨some "p1", [("p1", [])], some "p1"⟩ "p1").claudeCurrent
        = some localSettingsId ∧
    (handleDeleteProvider ⟨some "p1", [("p1", [])], some "p1"⟩ "p1").activeClaudeProviderId
        = some localSettingsId := by
  refine ⟨?_, ?_, ?_⟩
  · exact (claudeProviderPointer_spec ⟨some "p0", [("p1", [])], some "p0"⟩ "p1").1
      (by decide)
  · exact ((claudeProviderPointer_spec ⟨some "p1", [("p1", [])], some "p1"⟩ "p1").2
      (by decide)).1
  · exact ((claudeProviderPointer_spec ⟨some "p1", [("p1", [])], some "p1"⟩ "p1").2
      (by decide)).2

/-- C2 (failing input): with the retry counter reset to 0 by every successful
`start()`, four consecutive non-zero exits each schedule a restart after the
same 1000 ms delay — the delays never increase, the 3-restart budget is never
reached, no max-restart error is surfaced, and a fourth restart is still
pending. -/
theorem bridgeRestart_counterReset_eval :
    (bridgeRun [BridgeEv.startCall, BridgeEv.exitEv (some 1), BridgeEv.timerFire,
        BridgeEv.exitEv (some 1), BridgeEv.timerFire, BridgeEv.exitEv (some 1),
        BridgeEv.timerFire, BridgeEv.exitEv (some 1)]).scheduledDelays
      = [1000, 1000, 1000, 1000] ∧
    (bridgeRun [BridgeEv.startCall, BridgeEv.exitEv (some 1), BridgeEv.timerFire,
        BridgeEv.exitEv (some 1), BridgeEv.timerFire, BridgeEv.exitEv (some 1),
        BridgeEv.timerFire, BridgeEv.exitEv (some 1)]).maxRestartErrors = 0 ∧
    (bridgeRun [BridgeEv.startCall, BridgeEv.exitEv (some 1), BridgeEv.timerFire,
        BridgeEv.exitEv (some 1), BridgeEv.timerFire, BridgeEv.exitEv (some 1),
        BridgeEv.timerFire, BridgeEv.exitEv (some 1)]).pendingTimers = [1000] := by
  decide

/-- C3 (failing input): `stop()` does not cancel a restart timer that a prior
non-zero exit already scheduled; when that timer fires after `stop()`, the
child process is spawned again and the manager reports itself running. -/
theorem bridgeStop_pendingTimer_eval :
    (bridgeRun [BridgeEv.startCall, BridgeEv.exitEv (some 1),
        BridgeEv.stopCall]).pendingTimers = [1000] ∧
    (bridgeRun [BridgeEv.startCall, BridgeEv.exitEv (some 1), BridgeEv.stopCall,
        BridgeEv.exitEv none, BridgeEv.timerFire]).isRunning = true ∧
    (bridgeRun [BridgeEv.startCall, BridgeEv.exitEv (some 1), BridgeEv.stopCall,
        BridgeEv.exitEv none, BridgeEv.timerFire]).hasProcess = true := by
  decide

theorem interceptLine_envs (jpMsg : String → Option MsgView)
    (jpObj : String → Option ObjView) (streaming thinking : Bool) (rid : String)
    (st : InterceptState) (output : String) :
    ∀ e ∈ (interceptLine jpMsg jpObj streaming thinking rid st output).2,
      (e.etype = "streamChunk" ∨ e.etype = "thinkingChunk" ∨ e.etype = "messageUpdate") ∧
        e.requestId = rid := by
  intro e he
  unfold interceptLine at he
  by_cases h1 : jsStartsWith output "[CONTENT_DELTA]" = true
  · simp [h1] at he
    subst he
    exact ⟨Or.inl rfl, rfl⟩
  by_cases h2 : jsStartsWith output "[CONTENT]" = true
  · by_cases hst : streaming = true
    · simp [h1, h2, hst] at he
      subst he
      exact ⟨Or.inl rfl, rfl⟩
    · simp [h1, h2, hst] at he
  by_cases h3 : jsStartsWith output "[THINKING_DELTA]" = true
  · by_cases hth : thinking = true
    · simp [h1, h2, h3, hth] at he
      subst he
      exact ⟨Or.inr (Or.inl rfl), rfl⟩
    · simp [h1, h2, h3, hth] at he
  by_cases h4 : jsStartsWith output "[THINKING]" = true
  · by_cases hth : thinking = true
    · by_cases hsp : stripOneSpace (output.drop 10) = ""
      · simp [h1, h2, h3, h4, hth, hsp] at he
      · simp [h1, h2, h3, h4, hth, hsp] at he
        subst he
        exact ⟨Or.inr (Or.inl rfl), rfl⟩
    · simp [h1, h2, h3, h4, hth] at he
  by_cases h5 : jsStartsWith output "[MESSAGE]" = true
  · cases hm : jpMsg (jsTrim (output.drop 9)) with
    | some m =>
      simp [h1, h2, h3, h4, h5, hm] at he
      subst he
      exact ⟨Or.inr (Or.inr rfl), rfl⟩
    | none => simp [h1, h2, h3, h4, h5, hm] at he
  by_cases h6 : jsStartsWith output "[STREAM_START]" = true
  · simp [h1, h2, h3, h4, h5, h6] at he
  by_cases h7 : jsStartsWith output "[STREAM_END]" = true
  · simp [h1, h2, h3, h4, h5, h6, h7] at he
  by_cases h8 : jsStartsWith output "\x7b" = true
  · cases ho : jpObj output with
    | some o =>
      cases herr : o.errorResult with
      | some emsg =>
        by_cases hemit : st.emitted = false
        · simp [h1, h2, h3, h4, h5, h6, h7, h8, ho, herr, hemit] at he
          subst he
          exact ⟨Or.inl rfl, rfl⟩
        · simp [h1, h2, h3, h4, h5, h6, h7, h8, ho, herr, hemit] at he
      | none => simp [h1, h2, h3, h4, h5, h6, h7, h8, ho, herr] at he
    | none => simp [h1, h2, h3, h4, h5, h6, h7, h8, ho] at he
  · simp [h1, h2, h3, h4, h5, h6, h7, h8] at he

theorem interceptFold_envs (jpMsg : String → Option MsgView)
    (jpObj : String → Option ObjView) (streaming thinking : Bool) (rid : String) :
    ∀ (lines : List String) (start : InterceptState × List OutEnvelope),
      (∀ e ∈ start.2,
        (e.etype = "streamChunk" ∨ e.etype = "thinkingChunk" ∨ e.etype = "messageUpdate") ∧
          e.requestId = rid) →
      ∀ e ∈ (lines.foldl
          (fun acc line =>
            let next := interceptLine jpMsg jpObj streaming thinking rid acc.1 line
            (next.1, acc.2 ++ next.2)) start).2,
        (e.etype = "streamChunk" ∨ e.etype = "thinkingChunk" ∨ e.etype = "messageUpdate") ∧
          e.requestId = rid := by
  intro lines
  induction lines with
  | nil => intro start h e he; exact h e he
  | cons l ls ih =>
    intro start h e he
    rw [List.foldl_cons] at he
    refine ih _ ?_ e he
    intro e2 he2
    simp only [List.mem_append] at he2
    rcases he2 with h2 | h2
    · exact h e2 h2
    · exact interceptLine_envs jpMsg jpObj streaming thinking rid start.1 l e2 h2

theorem sendMessageBody_envs (jpMsg : String → Option MsgView)
    (jpObj : String → Option ObjView) (streaming thinking : Bool) (rid : String)
    (sc : SendScenario) :
    ∀ e ∈ sendMessageBody jpMsg jpObj streaming thinking rid sc,
      (e.etype = "streamChunk" ∨ e.etype = "thinkingChunk" ∨ e.etype = "messageUpdate") ∧
        e.requestId = rid := by
  intro e he
  cases sc with
  | claudeAvailable lines outcome =>
    unfold sendMessageBody at he
    have hrun := interceptFold_envs jpMsg jpObj streaming thinking rid lines
      (InterceptState.initial, []) (by simp)
    cases outcome with
    | throws emsg =>
      simp only [List.mem_append] at he
      rcases he with h | h
      · exact hrun e h
      · simp only [List.mem_singleton] at h
        subst h
        exact ⟨Or.inl rfl, rfl⟩
    | completes =>
      simp only [List.mem_append] at he
      rcases he with h | h
      · exact hrun e h
      · split at h
        · simp only [List.mem_singleton] at h
          subst h
          exact ⟨Or.inl rfl, rfl⟩
        · split at h
          · split at h
            · simp only [List.mem_singleton] at h
              subst h
              exact ⟨Or.inl rfl, rfl⟩
            · simp at h
          · simp at h
  | codexAvailable outcome =>
    cases outcome with
    | throws emsg =>
      unfold sendMessageBody at he
      simp only [List.mem_singleton] at he
      subst he
      exact ⟨Or.inl rfl, rfl⟩
    | completes => simp [sendMessageBody] at he
  | sdkUnavailable isCodex =>
    unfold sendMessageBody at he
    simp only [List.mem_singleton] at he
    subst he
    exact ⟨Or.inl rfl, rfl⟩

theorem sendMessageBody_throws (jpMsg : String → Option MsgView)
    (jpObj : String → Option ObjView) (streaming thinking : Bool) (rid : String)
    (sc : SendScenario) :
    match scThrows sc with
    | some emsg =>
      (⟨"streamChunk", rid, Payload.pError ("\n\nError: " ++ emsg)⟩ : OutEnvelope)
        ∈ sendMessageBody jpMsg jpObj streaming thinking rid sc
    | none => True := by
  cases sc with
  | claudeAvailable lines outcome =>
    cases outcome with
    | throws emsg => simp [scThrows, sendMessageBody]
    | completes => simp [scThrows]
  | codexAvailable outcome =>
    cases outcome with
    | throws emsg => simp [scThrows, sendMessageBody]
    | completes => simp [scThrows]
  | sdkUnavailable isCodex => simp [scThrows]

/-- C1 (amended): every `handleSendMessage` run — Claude SDK available,
Codex SDK available, SDK missing, or the awaited command throwing — emits
exactly one `streamStart` first and exactly one `streamEnd` last; in between
come only `streamChunk`, `thinkingChunk` and `messageUpdate` envelopes (the
claim as frozen omits `messageUpdate`); every envelope carries the request's
id; a thrown error is reported as an inline `streamChunk` error fragment,
never by omitting `streamEnd`; and with the SDK unavailable the middle is
exactly one remediation `streamChunk`. -/
theorem handleSendMessage_stream_shape (jpMsg : String → Option MsgView)
    (jpObj : String → Option ObjView) (streaming thinking : Bool)
    (sc : SendScenario) (rid : String) :
    ∃ mid,
      handleSendMessage jpMsg jpObj streaming thinking sc rid
        = ⟨"streamStart", rid, Payload.pStart⟩ :: mid
            ++ [⟨"streamEnd", rid, Payload.pEnd⟩] ∧
      (∀ e ∈ mid,
        (e.etype = "streamChunk" ∨ e.etype = "thinkingChunk" ∨
            e.etype = "messageUpdate") ∧ e.requestId = rid) ∧
      (match scThrows sc with
       | some emsg =>
         (⟨"streamChunk", rid, Payload.pError ("\n\nError: " ++ emsg)⟩ : OutEnvelope)
           ∈ mid
       | none => True) ∧
      (∀ b, sc = SendScenario.sdkUnavailable b →
        mid = [⟨"streamChunk", rid, Payload.pRemediation b⟩]) := by
  refine ⟨sendMessageBody jpMsg jpObj streaming thinking rid sc, rfl,
    sendMessageBody_envs jpMsg jpObj streaming thinking rid sc,
    sendMessageBody_throws jpMsg jpObj streaming thinking rid sc, ?_⟩
  intro b hb
  subst hb
  rfl

theorem handleSendMessage_stream_shape_witness :
    handleSendMessage (fun _ => none) (fun _ => none) true true
        (SendScenario.sdkUnavailable false) "r7"
      = [⟨"streamStart", "r7", Payload.pStart⟩,
         ⟨"streamChunk", "r7", Payload.pRemediation false⟩,
         ⟨"streamEnd", "r7", Payload.pEnd⟩] := by
  obtain ⟨mid, h1, _, _, h4⟩ := handleSendMessage_stream_shape
    (fun _ => none) (fun _ => none) true true (SendScenario.sdkUnavailable false) "r7"
  rw [h1, h4 false rfl]
  rfl

/-- C1 (counterexample to the claim as stated): with the Claude SDK
available and the SDK logging one `[MESSAGE]` line whose JSON parses, the
middle of the stream contains a `messageUpdate` envelope, so the output is
not of the form `streamStart`, then only `streamChunk`/`thinkingChunk`
envelopes, then `streamEnd`. -/
theorem sendMessage_claim_shape_counterexample :
    ¬ (∃ mid,
        handleSendMessage (fun _ => some ⟨true, ""⟩) (fun _ => none) true true
            (SendScenario.claudeAvailable ["[MESSAGE] assistant"] SdkOutcome.completes)
            "r1"
          = ⟨"streamStart", "r1", Payload.pStart⟩ :: mid
              ++ [⟨"streamEnd", "r1", Payload.pEnd⟩] ∧
        ∀ e ∈ mid, e.etype = "streamChunk" ∨ e.etype = "thinkingChunk") := by
  intro ⟨mid, heq, hmid⟩
  have hout : handleSendMessage (fun _ => some ⟨true, ""⟩) (fun _ => none) true true
      (SendScenario.claudeAvailable ["[MESSAGE] assistant"] SdkOutcome.completes) "r1"
      = [⟨"streamStart", "r1", Payload.pStart⟩,
         ⟨"messageUpdate", "r1", Payload.pMessage "assistant"⟩,
         ⟨"streamEnd", "r1", Payload.pEnd⟩] := by decide
  rw [hout] at heq
  have hm : (⟨"messageUpdate", "r1", Payload.pMessage "assistant"⟩ : OutEnvelope) ∈ mid := by
    have h1 : (⟨"messageUpdate", "r1", Payload.pMessage "assistant"⟩ : OutEnvelope)
        ∈ ([⟨"streamStart", "r1", Payload.pStart⟩,
            ⟨"messageUpdate", "r1", Payload.pMessage "assistant"⟩,
            ⟨"streamEnd", "r1", Payload.pEnd⟩] : List OutEnvelope) := by decide
    rw [heq] at h1
    rcases List.mem_cons.mp h1 with h | h
    · exact absurd h (by decide)
    · rcases List.mem_append.mp h with h | h
      · exact h
      · exact absurd h (by decide)
  rcases hmid _ hm with h | h
  · exact absurd h (by decide)
  · exact absurd h (by decide)

theorem insertBy_perm {α : Type} (le : α → α → Bool) (x : α) (l : List α) :
    List.Perm (insertBy le x l) (x :: l) := by
  induction l with
  | nil => rfl
  | cons y ys ih =>
    unfold insertBy
    by_cases h : le y x = true
    · rw [if_pos h]
      exact (ih.cons y).trans (List.Perm.swap x y ys)
    · rw [if_neg h]

theorem sortedBy_perm {α : Type} (le : α → α → Bool) (l : List α) :
    List.Perm (sortedBy le l) l := by
  induction l with
  | nil => rfl
  | cons x xs ih =>
    unfold sortedBy
    exact (insertBy_perm le x (sortedBy le xs)).trans (ih.cons x)

theorem insertBy_mem {α : Type} {le : α → α → Bool} {x z : α} {l : List α}
    (h : z ∈ insertBy le x l) : z = x ∨ z ∈ l :=
  List.mem_cons.mp ((insertBy_perm le x l).mem_iff.mp h)

theorem insertBy_pairwise {α : Type} {le : α → α → Bool}
    (htot : ∀ a b, le a b = true ∨ le b a = true)
    (htrans : ∀ a b c, le a b = true → le b c = true → le a c = true)
    (x : α) (l : List α) (hl : l.Pairwise (fun a b => le a b = true)) :
    (insertBy le x l).Pairwise (fun a b => le a b = true) := by
  induction l with
  | nil => simp [insertBy]
  | cons y ys ih =>
    rcases List.pairwise_cons.mp hl with ⟨hy, hys⟩
    unfold insertBy
    by_cases h : le y x = true
    · rw [if_pos h]
      refine List.pairwise_cons.mpr ⟨?_, ih hys⟩
      intro z hz
      rcases insertBy_mem hz with hz | hz
      · subst hz; exact h
      · exact hy z hz
    · rw [if_neg h]
      have hxy : le x y = true := (htot x y).resolve_right (fun hc => h hc)
      refine List.pairwise_cons.mpr ⟨?_, hl⟩
      intro z hz
      rcases List.mem_cons.mp hz with hz | hz
      · subst hz; exact hxy
      · exact htrans x y z hxy (hy z hz)

theorem sortedBy_pairwise {α : Type} {le : α → α → Bool}
    (htot : ∀ a b, le a b = true ∨ le b a = true)
    (htrans : ∀ a b c, le a b = true → le b c = true → le a c = true)
    (l : List α) :
    (sortedBy le l).Pairwise (fun a b => le a b = true) := by
  induction l with
  | nil => simp [sortedBy]
  | cons x xs ih => exact insertBy_pairwise htot htrans x (sortedBy le xs) ih

theorem sortedBy_length {α : Type} (le : α → α → Bool) (l : List α) :
    (sortedBy le l).length = l.length :=
  (sortedBy_perm le l).length_eq

theorem byTimestampDesc_total (a b : SessionSummary) :
    byTimestampDesc a b = true ∨ byTimestampDesc b a = true := by
  unfold byTimestampDesc
  rcases Int.le_total a.timestamp b.timestamp with h | h
  · right; simpa using h
  · left; simpa using h

theorem byTimestampDesc_trans (a b c : SessionSummary)
    (h1 : byTimestampDesc a b = true) (h2 : byTimestampDesc b c = true) :
    byTimestampDesc a c = true := by
  unfold byTimestampDesc at h1 h2 ⊢
  simp only [decide_eq_true_eq] at h1 h2 ⊢
  exact le_trans h2 h1

theorem usageFold_fields (l : List SessionSummary) :
    ∀ u0 : UsageData,
      (l.foldl addUsage u0).inputTokens
          = u0.inputTokens + (l.map (fun s => s.usage.inputTokens)).sum ∧
      (l.foldl addUsage u0).outputTokens
          = u0.outputTokens + (l.map (fun s => s.usage.outputTokens)).sum ∧
      (l.foldl addUsage u0).cacheWriteTokens
          = u0.cacheWriteTokens + (l.map (fun s => s.usage.cacheWriteTokens)).sum ∧
      (l.foldl addUsage u0).cacheReadTokens
          = u0.cacheReadTokens + (l.map (fun s => s.usage.cacheReadTokens)).sum ∧
      (l.foldl addUsage u0).totalTokens
          = u0.totalTokens + (l.map (fun s => s.usage.totalTokens)).sum := by
  induction l with
  | nil => intro u0; simp
  | cons s ss ih =>
    intro u0
    rw [List.foldl_cons]
    obtain ⟨h1, h2, h3, h4, h5⟩ := ih (addUsage u0 s)
    refine ⟨?_, ?_, ?_, ?_, ?_⟩
    · rw [h1]; simp [addUsage, List.sum_cons]; omega
    · rw [h2]; simp [addUsage, List.sum_cons]; omega
    · rw [h3]; simp [addUsage, List.sum_cons]; omega
    · rw [h4]; simp [addUsage, List.sum_cons]; omega
    · rw [h5]; simp [addUsage, List.sum_cons]; omega

theorem costFold (l : List SessionSummary) :
    ∀ c0 : Nat, l.foldl (fun c s => c + s.cost) c0 = c0 + (l.map (fun s => s.cost)).sum := by
  induction l with
  | nil => intro c0; simp
  | cons s ss ih =>
    intro c0
    rw [List.foldl_cons, ih]
    simp [List.sum_cons]
    omega

theorem weekFold_counts (l : List SessionSummary) :
    ∀ w0 : WeekBucket,
      (l.foldl weekAdd w0).sessions = w0.sessions + l.length ∧
      (l.foldl weekAdd w0).cost = w0.cost + (l.map (fun s => s.cost)).sum := by
  induction l with
  | nil => intro w0; simp
  | cons s ss ih =>
    intro w0
    rw [List.foldl_cons]
    obtain ⟨h1, h2⟩ := ih (weekAdd w0 s)
    refine ⟨?_, ?_⟩
    · rw [h1]; simp [weekAdd]; omega
    · rw [h2]; simp [weekAdd, List.sum_cons]; omega

theorem condWeekFold (p : SessionSummary → Prop) [DecidablePred p]
    (l : List SessionSummary) :
    ∀ w0 : WeekBucket,
      l.foldl (fun w s => if p s then weekAdd w s else w) w0
        = (l.filter (fun s => decide (p s))).foldl weekAdd w0 := by
  induction l with
  | nil => intro w0; rfl
  | cons s ss ih =>
    intro w0
    rw [List.foldl_cons, List.filter_cons]
    by_cases h : p s
    · rw [if_pos h, if_pos (by simpa using h), List.foldl_cons, ih]
    · rw [if_neg h, if_neg (by simpa using h), ih]

theorem mapIfKey_id {α β : Type} [DecidableEq β] (keyf : α → β) (key : β) (upd : α → α) :
    ∀ m : List α, (∀ x ∈ m, keyf x ≠ key) →
      m.map (fun x => if keyf x = key then upd x else x) = m := by
  intro m
  induction m with
  | nil => intro _; rfl
  | cons x xs ih =>
    intro h
    simp only [List.map_cons]
    rw [if_neg (h x (List.mem_cons_self x xs)), ih (fun y hy => h y (List.mem_cons_of_mem x hy))]

theorem mapIfKey_keys {α β : Type} [DecidableEq β] (keyf : α → β) (key : β) (upd : α → α)
    (hupd : ∀ x, keyf (upd x) = keyf x) :
    ∀ m : List α,
      (m.map (fun x => if keyf x = key then upd x else x)).map keyf = m.map keyf := by
  intro m
  induction m with
  | nil => rfl
  | cons x xs ih =>
    simp only [List.map_cons, ih]
    by_cases h : keyf x = key
    · rw [if_pos h, hupd]
    · rw [if_neg h]

theorem mapIfKey_sum {α β : Type} [DecidableEq β] (keyf : α → β) (key : β)
    (upd : α → α) (g : α → Nat) (c : Nat)
    (hupd : ∀ x, keyf x = key → g (upd x) = g x + c) :
    ∀ m : List α, (m.map keyf).Nodup → (∃ x0, x0 ∈ m ∧ keyf x0 = key) →
      ((m.map (fun x => if keyf x = key then upd x else x)).map g).sum
        = (m.map g).sum + c := by
  intro m
  induction m with
  | nil => intro _ h; simp at h
  | cons x xs ih =>
    intro hnd hex
    simp only [List.map_cons, List.nodup_cons] at hnd
    by_cases hx : keyf x = key
    · have hnone : ∀ y ∈ xs, keyf y ≠ key := by
        intro y hy hk
        exact hnd.1 (hx ▸ hk ▸ List.mem_map_of_mem keyf hy)
      simp only [List.map_cons, if_pos hx, mapIfKey_id keyf key upd xs hnone,
        List.sum_cons]
      rw [hupd x hx]
      omega
    · obtain ⟨x0, hx0, hk0⟩ := hex
      rcases List.mem_cons.mp hx0 with h | h
      · exact absurd (h ▸ hk0) hx
      · simp only [List.map_cons, if_neg hx, List.sum_cons, ih hnd.2 ⟨x0, h, hk0⟩]
        omega

theorem dailyAdd_stats (b : Bool) (s : SessionSummary) :
    ∀ m : List DailyUsage, (m.map (fun d => d.date)).Nodup →
      ((dailyAdd b m s).map (fun d => d.date)).Nodup ∧
      ((dailyAdd b m s).map (fun d => d.sessions)).sum
        = (m.map (fun d => d.sessions)).sum + 1 ∧
      ((dailyAdd b m s).map (fun d => d.cost)).sum
        = (m.map (fun d => d.cost)).sum + s.cost := by
  intro m hnd
  unfold dailyAdd
  cases hf : m.find? (fun d => d.date = epochDay s.timestamp) with
  | none =>
    simp only [hf]
    have hnone : ∀ d ∈ m, d.date ≠ epochDay s.timestamp := by
      intro d hd
      have := List.find?_eq_none.mp hf d hd
      simpa using this
    refine ⟨?_, ?_, ?_⟩
    · rw [List.map_append]
      refine List.Nodup.append hnd (by simp) ?_
      intro a ha
      simp only [List.map_cons, List.map_nil, List.mem_singleton]
      intro hb
      rcases List.mem_map.mp ha with ⟨d, hd, hdd⟩
      subst hb
      exact hnone d hd (by simpa [dailyUpd] using hdd)
    · rw [List.map_append, List.sum_append]
      simp [dailyUpd]
    · rw [List.map_append, List.sum_append]
      simp [dailyUpd]
  | some d0 =>
    simp only [hf]
    have hmem : d0 ∈ m := List.mem_of_find?_eq_some hf
    have hkey : d0.date = epochDay s.timestamp := by
      have := List.find?_some hf
      simpa using this
    refine ⟨?_, ?_, ?_⟩
    · rw [mapIfKey_keys (fun d => d.date) (epochDay s.timestamp) (dailyUpd b s)
        (fun d => by simp [dailyUpd])]
      exact hnd
    · rw [mapIfKey_sum (fun d => d.date) (epochDay s.timestamp) (dailyUpd b s)
        (fun d => d.sessions) 1 (fun d _ => by simp [dailyUpd]) m hnd ⟨d0, hmem, hkey⟩]
    · rw [mapIfKey_sum (fun d => d.date) (epochDay s.timestamp) (dailyUpd b s)
        (fun d => d.cost) s.cost (fun d _ => by simp [dailyUpd]) m hnd ⟨d0, hmem, hkey⟩]

theorem dailyFold_stats (b : Bool) (l : List SessionSummary) :
    ∀ m : List DailyUsage, (m.map (fun d => d.date)).Nodup →
      ((l.foldl (dailyAdd b) m).map (fun d => d.date)).Nodup ∧
      ((l.foldl (dailyAdd b) m).map (fun d => d.sessions)).sum
        = (m.map (fun d => d.sessions)).sum + l.length ∧
      ((l.foldl (dailyAdd b) m).map (fun d => d.cost)).sum
        = (m.map (fun d => d.cost)).sum + (l.map (fun s => s.cost)).sum := by
  induction l with
  | nil => intro m hnd; exact ⟨hnd, by simp, by simp⟩
  | cons s ss ih =>
    intro m hnd
    obtain ⟨h1, h2, h3⟩ := dailyAdd_stats b s m hnd
    obtain ⟨g1, g2, g3⟩ := ih (dailyAdd b m s) h1
    rw [List.foldl_cons]
    refine ⟨g1, ?_, ?_⟩
    · rw [g2, h2]
      simp only [List.length_cons]
      omega
    · rw [g3, h3]
      simp only [List.map_cons, List.sum_cons]
      omega

theorem modelAdd_stats (s : SessionSummary) :
    ∀ m : List ModelUsage, (m.map (fun t => t.model)).Nodup →
      ((modelAdd m s).map (fun t => t.model)).Nodup ∧
      ((modelAdd m s).map (fun t => t.sessionCount)).sum
        = (m.map (fun t => t.sessionCount)).sum + 1 ∧
      ((modelAdd m s).map (fun t => t.totalCost)).sum
        = (m.map (fun t => t.totalCost)).sum + s.cost := by
  intro m hnd
  unfold modelAdd
  cases hf : m.find? (fun t => t.model = s.model) with
  | none =>
    simp only [hf]
    have hnone : ∀ t ∈ m, t.model ≠ s.model := by
      intro t ht
      have := List.find?_eq_none.mp hf t ht
      simpa using this
    refine ⟨?_, ?_, ?_⟩
    · rw [List.map_append]
      refine List.Nodup.append hnd (by simp) ?_
      intro a ha
      simp only [List.map_cons, List.map_nil, List.mem_singleton]
      intro hb
      rcases List.mem_map.mp ha with ⟨t, ht, htt⟩
      subst hb
      exact hnone t ht (by simpa [modelUpd] using htt)
    · rw [List.map_append, List.sum_append]
      simp [modelUpd]
    · rw [List.map_append, List.sum_append]
      simp [modelUpd]
  | some t0 =>
    simp only [hf]
    have hmem : t0 ∈ m := List.mem_of_find?_eq_some hf
    have hkey : t0.model = s.model := by
      have := List.find?_some hf
      simpa using this
    refine ⟨?_, ?_, ?_⟩
    · rw [mapIfKey_keys (fun t => t.model) s.model (modelUpd s)
        (fun t => by simp [modelUpd])]
      exact hnd
    · rw [mapIfKey_sum (fun t => t.model) s.model (modelUpd s)
        (fun t => t.sessionCount) 1 (fun t _ => by simp [modelUpd]) m hnd ⟨t0, hmem, hkey⟩]
    · rw [mapIfKey_sum (fun t => t.model) s.model (modelUpd s)
        (fun t => t.totalCost) s.cost (fun t _ => by simp [modelUpd]) m hnd ⟨t0, hmem, hkey⟩]

theorem modelFold_stats (l : List SessionSummary) :
    ∀ m : List ModelUsage, (m.map (fun t => t.model)).Nodup →
      ((l.foldl modelAdd m).map (fun t => t.model)).Nodup ∧
      ((l.foldl modelAdd m).map (fun t => t.sessionCount)).sum
        = (m.map (fun t => t.sessionCount)).sum + l.length ∧
      ((l.foldl modelAdd m).map (fun t => t.totalCost)).sum
        = (m.map (fun t => t.totalCost)).sum + (l.map (fun s => s.cost)).sum := by
  induction l with
  | nil => intro m hnd; exact ⟨hnd, by simp, by simp⟩
  | cons s ss ih =>
    intro m hnd
    obtain ⟨h1, h2, h3⟩ := modelAdd_stats s m hnd
    obtain ⟨g1, g2, g3⟩ := ih (modelAdd m s) h1
    rw [List.foldl_cons]
    refine ⟨g1, ?_, ?_⟩
    · rw [g2, h2]
      simp only [List.length_cons]
      omega
    · rw [g3, h3]
      simp only [List.map_cons, List.sum_cons]
      omega

theorem claudeFold_fields (o t : Int) (l : List SessionSummary) :
    ∀ acc : ClaudeAcc,
      (l.foldl (claudeStep o t) acc).total = l.foldl addUsage acc.total ∧
      (l.foldl (claudeStep o t) acc).cost
        = l.foldl (fun c s => c + s.cost) acc.cost ∧
      (l.foldl (claudeStep o t) acc).daily = l.foldl (dailyAdd true) acc.daily ∧
      (l.foldl (claudeStep o t) acc).models = l.foldl modelAdd acc.models ∧
      (l.foldl (claudeStep o t) acc).cur
        = l.foldl (fun w s => if o < s.timestamp then weekAdd w s else w) acc.cur ∧
      (l.foldl (claudeStep o t) acc).last
        = l.foldl (fun w s =>
            if o < s.timestamp then w
            else if t < s.timestamp then weekAdd w s else w) acc.last := by
  induction l with
  | nil => intro acc; exact ⟨rfl, rfl, rfl, rfl, rfl, rfl⟩
  | cons s ss ih => intro acc; exact ih (claudeStep o t acc s)

theorem codexSessions_eq (now : Int) (l : List SessionSummary) :
    (getCodexProjectStatistics now l).sessions = sortedBy byTimestampDesc l := rfl

theorem sortedByTimestamp_pairwise (l : List SessionSummary) :
    (sortedBy byTimestampDesc l).Pairwise (fun a b => b.timestamp ≤ a.timestamp) := by
  have h := sortedBy_pairwise byTimestampDesc_total byTimestampDesc_trans l
  exact h.imp (fun hab => by simpa [byTimestampDesc] using hab)

theorem claudeLastFn (o t : Int) (l : List SessionSummary) :
    ∀ w0 : WeekBucket,
      l.foldl (fun w s =>
        if o < s.timestamp then w
        else if t < s.timestamp then weekAdd w s else w) w0
      = l.foldl (fun w s =>
          if ¬ o < s.timestamp ∧ t < s.timestamp then weekAdd w s else w) w0 := by
  induction l with
  | nil => intro w0; rfl
  | cons s ss ih =>
    intro w0
    rw [List.foldl_cons, List.foldl_cons, ih]
    congr 1
    by_cases h1 : o < s.timestamp
    · simp [h1]
    · by_cases h2 : t < s.timestamp <;> simp [h1, h2]

/-- C4 (amended): for every usage-statistics request over any set of scanned
session logs, the totals (`totalUsage`, `estimatedCost`), the daily map, the
model map and the weekly comparison are computed over ALL scanned sessions,
and the returned sessions list is sorted newest-first by timestamp; but the
200-entry cap applies only to the Claude provider — `processCodexSessions`
returns every scanned session, however many there are. -/
theorem usageStatistics_cap_and_totals (now : Int) (l : List SessionSummary) :
    (getClaudeProjectStatistics now l).sessions
        = (sortedBy byTimestampDesc l).take 200 ∧
    (getClaudeProjectStatistics now l).sessions.Pairwise
        (fun a b => b.timestamp ≤ a.timestamp) ∧
    (getClaudeProjectStatistics now l).totalUsage.totalTokens
        = (l.map (fun s => s.usage.totalTokens)).sum ∧
    (getClaudeProjectStatistics now l).estimatedCost
        = (l.map (fun s => s.cost)).sum ∧
    ((getClaudeProjectStatistics now l).dailyUsage.map (fun d => d.sessions)).sum
        = l.length ∧
    ((getClaudeProjectStatistics now l).byModel.map (fun t => t.sessionCount)).sum
        = l.length ∧
    ((getClaudeProjectStatistics now l).byModel.map (fun t => t.totalCost)).sum
        = (l.map (fun s => s.cost)).sum ∧
    (getClaudeProjectStatistics now l).currentWeek
        = (l.filter (fun s => decide (now - msPerWeek < s.timestamp))).foldl
            weekAdd WeekBucket.empty ∧
    (getClaudeProjectStatistics now l).lastWeek
        = (l.filter (fun s => decide (¬ now - msPerWeek < s.timestamp ∧
            now - 2 * msPerWeek < s.timestamp))).foldl weekAdd WeekBucket.empty ∧
    (getCodexProjectStatistics now l).sessions = sortedBy byTimestampDesc l ∧
    (getCodexProjectStatistics now l).sessions.Pairwise
        (fun a b => b.timestamp ≤ a.timestamp) ∧
    (getCodexProjectStatistics now l).sessions.length = l.length ∧
    (getCodexProjectStatistics now l).estimatedCost
        = (l.map (fun s => s.cost)).sum := by
  obtain ⟨ht, hc, hd, hm, hw1, hw2⟩ :=
    claudeFold_fields (now - msPerWeek) (now - 2 * msPerWeek) l ClaudeAcc.empty
  simp only [getClaudeProjectStatistics, getCodexProjectStatistics,
    processClaudeSessions, processCodexSessions]
  refine ⟨?_, ?_, ?_, ?_, ?_, ?_, ?_, ?_, ?_, ?_, ?_, ?_, ?_⟩
  · by_cases h : (sortedBy byTimestampDesc l).length > 200
    · rw [if_pos h]
    · rw [if_neg h, List.take_of_length_le (by omega)]
  · have hp := sortedByTimestamp_pairwise l
    by_cases h : (sortedBy byTimestampDesc l).length > 200
    · rw [if_pos h]; exact hp.sublist (List.take_sublist 200 _)
    · rw [if_neg h]; exact hp
  · rw [ht, (usageFold_fields l ClaudeAcc.empty.total).2.2.2.2]
    simp [ClaudeAcc.empty, UsageData.empty]
  · rw [hc, costFold l]
    simp [ClaudeAcc.empty]
  · rw [hd,
      ((sortedBy_perm byDateAsc (l.foldl (dailyAdd true) ClaudeAcc.empty.daily)).map
        (fun d => d.sessions)).sum_eq,
      (dailyFold_stats true l ClaudeAcc.empty.daily (by simp [ClaudeAcc.empty])).2.1]
    simp [ClaudeAcc.empty]
  · rw [hm,
      ((sortedBy_perm byCostDesc (l.foldl modelAdd ClaudeAcc.empty.models)).map
        (fun t => t.sessionCount)).sum_eq,
      (modelFold_stats l ClaudeAcc.empty.models (by simp [ClaudeAcc.empty])).2.1]
    simp [ClaudeAcc.empty]
  · rw [hm,
      ((sortedBy_perm byCostDesc (l.foldl modelAdd ClaudeAcc.empty.models)).map
        (fun t => t.totalCost)).sum_eq,
      (modelFold_stats l ClaudeAcc.empty.models (by simp [ClaudeAcc.empty])).2.2]
    simp [ClaudeAcc.empty]
  · exact hw1.trans
      (condWeekFold (fun s => now - msPerWeek < s.timestamp) l ClaudeAcc.empty.cur)
  · exact hw2.trans
      ((claudeLastFn (now - msPerWeek) (now - 2 * msPerWeek) l ClaudeAcc.empty.last).trans
        (condWeekFold
          (fun s => ¬ now - msPerWeek < s.timestamp ∧ now - 2 * msPerWeek < s.timestamp)
          l ClaudeAcc.empty.last))
  · trivial
  · exact sortedByTimestamp_pairwise l
  · exact sortedBy_length byTimestampDesc l
  · rw [costFold]
    simpa using ((sortedBy_perm byTimestampDesc l).map (fun s => s.cost)).sum_eq

/-- C4 counterexample to the unamended claim: 201 scanned Codex sessions
yield a `sessions` list of 201 entries — `processCodexSessions` applies no
200-entry cap. -/
theorem codexSessions_uncapped_counterexample :
    ¬ ((getCodexProjectStatistics 0 ((List.range 201).map (fun i =>
        { sessionId := "s", timestamp := Int.ofNat i, model := "m",
          usage := ⟨1, 0, 0, 0, 1⟩, cost := 0 }))).sessions.length ≤ 200) := by
  intro h
  rw [codexSessions_eq, sortedBy_length, List.length_map, List.length_range] at h
  omega

/-! ### TOML: string escaping round trip -/

theorem unesc_escChar (c : Char) (rest : List Char) :
    unescGo false (escChar c ++ rest) = c :: unescGo false rest := by
  by_cases h1 : c = cBs
  · subst h1; simp +decide [escChar, unescGo, unescChar]
  · by_cases h2 : c = cDq
    · subst h2; simp +decide [escChar, unescGo, unescChar]
    · by_cases h3 : c = cNl
      · subst h3; simp +decide [escChar, unescGo, unescChar]
      · by_cases h4 : c = cTab
        · subst h4; simp +decide [escChar, unescGo, unescChar]
        · by_cases h5 : c = cCr
          · subst h5; simp +decide [escChar, unescGo, unescChar]
          · simp [escChar, h1, h2, h3, h4, h5, unescGo]

theorem unesc_esc (s : List Char) : unescapeTomlString (escapeTomlString s) = s := by
  induction s with
  | nil => rfl
  | cons c cs ih =>
    simp only [escapeTomlString, List.flatMap_cons, unescapeTomlString] at ih ⊢
    rw [unesc_escChar, ih]

/-! ### TOML: scanner lemmas -/

theorem scanFold_append (st : SplitSt) (a b : List Char) :
    scanFold st (a ++ b) = scanFold (scanFold st a) b := by
  simp [scanFold, List.foldl_append]

theorem noSplits_append (delim : Char) (a : List Char) :
    ∀ st b, noSplits delim st (a ++ b)
      = (noSplits delim st a && noSplits delim (scanFold st a) b) := by
  induction a with
  | nil => intro st b; simp [noSplits, scanFold]
  | cons c cs ih =>
    intro st b
    rw [List.cons_append, noSplits, noSplits, ih, Bool.and_assoc]
    rfl

theorem splitsHere_ne (delim c : Char) (st : SplitSt) (h : c ≠ delim) :
    splitsHere delim st c = false := by
  simp [splitsHere, h]

theorem scanStep_plain (st : SplitSt) (c : Char) (h : plainChar c = true)
    (hE : st.esc = false) : scanStep st c = st := by
  simp only [plainChar, decide_eq_true_eq, not_or] at h
  obtain ⟨h1, h2, h3, h4, h5, h6, h7, h8⟩ := h
  unfold scanStep
  rw [if_neg (by simp [hE]), if_neg h1, if_neg (by simp [h2]), if_neg (by simp [h3])]
  by_cases h9 : ¬ st.inD ∧ ¬ st.inS
  · rw [if_pos h9, if_neg (by simp [h4, h6]), if_neg (by simp [h5, h7])]
  · rw [if_neg h9]

theorem scan_plain (s : List Char) : ∀ st : SplitSt, s.all plainChar = true →
    st.esc = false →
    scanFold st s = st ∧ noSplits cComma st s = true := by
  induction s with
  | nil => intro st _ _; exact ⟨rfl, rfl⟩
  | cons c cs ih =>
    intro st hall hE
    simp only [List.all_cons, Bool.and_eq_true] at hall
    have hc := scanStep_plain st c hall.1 hE
    have hp := hall.1
    simp only [plainChar, decide_eq_true_eq, not_or] at hp
    obtain ⟨ih1, ih2⟩ := ih st hall.2 hE
    constructor
    · show List.foldl scanStep st (c :: cs) = st
      rw [List.foldl_cons, hc]
      exact ih1
    · rw [noSplits, hc]
      simp [splitsHere_ne cComma c st hp.2.2.2.2.2.2.2, ih2]

theorem digit_plain (c : Char) (h : isDigitChar c = true) : plainChar c = true := by
  simp only [isDigitChar, decide_eq_true_eq] at h
  simp only [plainChar, decide_eq_true_eq, not_or]
  refine ⟨?_, ?_, ?_, ?_, ?_, ?_, ?_, ?_⟩ <;>
    (intro he; subst he; exact absurd h (by decide))

theorem digit_not_ws (c : Char) (h : isDigitChar c = true) : isWsChar c = false := by
  simp only [isDigitChar, decide_eq_true_eq] at h
  simp only [isWsChar, decide_eq_false_iff_not, not_or]
  refine ⟨?_, ?_, ?_, ?_⟩ <;> (intro he; subst he; exact absurd h (by decide))

/-! ### TOML: the decimal integer codec -/

theorem digitChar_toNat (d : Nat) (h : d < 10) : (digitChar d).toNat = 48 + d := by
  interval_cases d <;> decide

theorem digitChar_isDigit (d : Nat) (h : d < 10) : isDigitChar (digitChar d) = true := by
  interval_cases d <;> decide

theorem digitChar_ne_dash (d : Nat) (h : d < 10) : digitChar d ≠ cDash := by
  interval_cases d <;> decide

theorem natCharsF_acc : ∀ f n acc, natCharsF f n acc = natCharsF f n [] ++ acc := by
  intro f
  induction f with
  | zero => intro n acc; rfl
  | succ f ih =>
    intro n acc
    rw [natCharsF, natCharsF]
    by_cases h : n < 10
    · rw [if_pos h, if_pos h]; rfl
    · rw [if_neg h, if_neg h, ih, ih (n / 10) [digitChar (n % 10)], List.append_assoc]
      rfl

theorem natCharsF_all_digits : ∀ f n, (natCharsF f n []).all isDigitChar = true := by
  intro f
  induction f with
  | zero => intro n; rfl
  | succ f ih =>
    intro n
    rw [natCharsF]
    by_cases h : n < 10
    · rw [if_pos h]
      simp [digitChar_isDigit (n % 10) (Nat.mod_lt n (by omega))]
    · rw [if_neg h, natCharsF_acc]
      simp [List.all_append, ih, digitChar_isDigit (n % 10) (Nat.mod_lt n (by omega))]

theorem natCharsF_ne_nil : ∀ f n, 0 < f → natCharsF f n [] ≠ [] := by
  intro f
  cases f with
  | zero => intro n h; omega
  | succ f =>
    intro n _
    rw [natCharsF]
    by_cases h : n < 10
    · rw [if_pos h]; simp
    · rw [if_neg h, natCharsF_acc]; simp

theorem digitsValGo_append (s t : List Char) :
    ∀ a, digitsValGo a (s ++ t) = digitsValGo (digitsValGo a s) t := by
  induction s with
  | nil => intro a; rfl
  | cons c cs ih => intro a; exact ih (a * 10 + (c.toNat - 48))

theorem digitsValGo_digit (a d : Nat) (h : d < 10) :
    digitsValGo a [digitChar d] = a * 10 + d := by
  show a * 10 + ((digitChar d).toNat - 48) = a * 10 + d
  rw [digitChar_toNat d h]
  omega

theorem natCharsF_val : ∀ f n, n < 10 ^ f → digitsValGo 0 (natCharsF f n []) = n := by
  intro f
  induction f with
  | zero =>
    intro n h
    have : n = 0 := by simpa using h
    subst this; rfl
  | succ f ih =>
    intro n h
    rw [natCharsF]
    by_cases h10 : n < 10
    · rw [if_pos h10, digitsValGo_digit 0 (n % 10) (Nat.mod_lt n (by omega))]
      omega
    · rw [if_neg h10, natCharsF_acc, digitsValGo_append,
        ih (n / 10) (Nat.div_lt_of_lt_mul (by rw [pow_succ] at h; omega))]
      rw [digitsValGo_digit (n / 10) (n % 10) (Nat.mod_lt n (by omega))]
      omega

theorem natChars_val (n : Nat) : digitsValGo 0 (natChars n) = n :=
  natCharsF_val (n + 1) n
    (lt_of_lt_of_le (Nat.lt_pow_self (by omega) n)
      (Nat.pow_le_pow_right (by omega) (Nat.le_succ n)))

theorem natChars_all_digits (n : Nat) : (natChars n).all isDigitChar = true :=
  natCharsF_all_digits (n + 1) n

theorem natChars_ne_nil (n : Nat) : natChars n ≠ [] :=
  natCharsF_ne_nil (n + 1) n (by omega)

/-! ### TOML: trimming and basic string-shape lemmas -/

theorem getLast?_all {p : Char → Bool} : ∀ s : List Char, s ≠ [] → s.all p = true →
    ∃ c, s.getLast? = some c ∧ p c = true := by
  intro s
  induction s with
  | nil => intro h; exact absurd rfl h
  | cons a tl ih =>
    intro _ hall
    simp only [List.all_cons, Bool.and_eq_true] at hall
    cases tl with
    | nil => exact ⟨a, by simp, hall.1⟩
    | cons b tl2 =>
      obtain ⟨c, hc, hpc⟩ := ih (by simp) hall.2
      exact ⟨c, by rw [List.getLast?_cons_cons]; exact hc, hpc⟩

theorem trimmedNe_of_head_last (s : List Char) (a b : Char)
    (h1 : s.head? = some a) (h2 : s.getLast? = some b)
    (h3 : isWsChar a = false) (h4 : isWsChar b = false) : trimmedNe s = true := by
  unfold trimmedNe
  rw [h1, h2]
  simp [h3, h4]

theorem trimToml_id (s : List Char) (h : trimmedNe s = true) : trimToml s = s := by
  rcases s with _ | ⟨a, tl⟩
  · rfl
  · obtain ⟨b, t, hr⟩ : ∃ b t, (a :: tl).reverse = b :: t := by
      cases hr : (a :: tl).reverse with
      | nil => have := congrArg List.length hr; simp at this
      | cons b t => exact ⟨b, t, rfl⟩
    have hgl : (a :: tl).getLast? = some b := by
      rw [← List.head?_reverse, hr, List.head?_cons]
    unfold trimmedNe at h
    rw [List.head?_cons, hgl] at h
    simp only [decide_eq_true_eq] at h
    obtain ⟨ha, hb⟩ := h
    unfold trimToml
    rw [List.dropWhile_cons, if_neg (by simpa using ha), hr, List.dropWhile_cons,
      if_neg (by simpa using hb), ← hr, List.reverse_reverse]

theorem trimToml_cons_ws (c : Char) (s : List Char) (hc : isWsChar c = true) :
    trimToml (c :: s) = trimToml s := by
  unfold trimToml
  rw [List.dropWhile_cons, if_pos (by simpa using hc)]

theorem trimToml_snoc (s : List Char) (c : Char) (hc : isWsChar c = true)
    (h : trimmedNe s = true) : trimToml (s ++ [c]) = s := by
  rcases s with _ | ⟨a, tl⟩
  · exact absurd h (by decide)
  · obtain ⟨b, t, hr⟩ : ∃ b t, (a :: tl).reverse = b :: t := by
      cases hr : (a :: tl).reverse with
      | nil => have := congrArg List.length hr; simp at this
      | cons b t => exact ⟨b, t, rfl⟩
    have hgl : (a :: tl).getLast? = some b := by
      rw [← List.head?_reverse, hr, List.head?_cons]
    unfold trimmedNe at h
    rw [List.head?_cons, hgl] at h
    simp only [decide_eq_true_eq] at h
    obtain ⟨ha, hb⟩ := h
    unfold trimToml
    rw [List.cons_append, List.dropWhile_cons, if_neg (by simpa using ha)]
    rw [show (a :: (tl ++ [c])).reverse = c :: (a :: tl).reverse by simp]
    rw [List.dropWhile_cons, if_pos (by simpa using hc), hr, List.dropWhile_cons,
      if_neg (by simpa using hb), ← hr, List.reverse_reverse]

theorem trimToml_cons_sp (s : List Char) (h : trimmedNe s = true) :
    trimToml (cSp :: s) = s := by
  rw [trimToml_cons_ws cSp s (by decide), trimToml_id s h]

/-! ### TOML: headIs, lastIs, sliceEnds -/

theorem headIs_cons (c0 c : Char) (s : List Char) :
    headIs (c0 :: s) c = decide (c0 = c) := rfl

theorem lastIs_concat (s : List Char) (c0 c : Char) :
    lastIs (s ++ [c0]) c = decide (c0 = c) := by
  simp [lastIs, headIs, List.reverse_append]

theorem sliceEnds_wrap (a b : Char) (s : List Char) :
    sliceEnds (a :: (s ++ [b])) = s := by
  unfold sliceEnds
  simp

/-! ### TOML: integer printing parses back -/

theorem digit_ne (c x : Char) (h : isDigitChar c = true) (hx : isDigitChar x = false) :
    c ≠ x := by
  intro he
  subst he
  rw [h] at hx
  exact Bool.noConfusion hx

theorem intChars_shape (n : Int) :
    ∃ c rest, intChars n = c :: rest ∧ (c = cDash ∨ isDigitChar c = true) := by
  unfold intChars
  by_cases hn : n < 0
  · rw [if_pos hn]
    exact ⟨cDash, natChars n.natAbs, rfl, Or.inl rfl⟩
  · rw [if_neg hn]
    cases hc : natChars n.toNat with
    | nil => exact absurd hc (natChars_ne_nil _)
    | cons c rest =>
      have := natChars_all_digits n.toNat
      rw [hc] at this
      simp only [List.all_cons, Bool.and_eq_true] at this
      exact ⟨c, rest, rfl, Or.inr this.1⟩

theorem numParse_intChars (n : Int) : numParse (intChars n) = some n := by
  unfold intChars
  by_cases hn : n < 0
  · rw [if_pos hn, numParse]
    rw [if_pos rfl, if_pos ⟨natChars_ne_nil _, natChars_all_digits _⟩, natChars_val]
    congr 1
    omega
  · rw [if_neg hn]
    obtain ⟨c, rest, hcr⟩ : ∃ c rest, natChars n.toNat = c :: rest := by
      cases hc : natChars n.toNat with
      | nil => exact absurd hc (natChars_ne_nil _)
      | cons c rest => exact ⟨c, rest, rfl⟩
    have hdig : isDigitChar c = true := by
      have := natChars_all_digits n.toNat
      rw [hcr] at this
      simp only [List.all_cons, Bool.and_eq_true] at this
      exact this.1
    rw [hcr, numParse, if_neg (digit_ne c cDash hdig (by decide)), if_pos (by
      rw [← hcr]; exact natChars_all_digits n.toNat)]
    rw [← hcr, natChars_val]
    congr 1
    omega

/-! ### TOML: shape of printed values -/

theorem getLast?_wrap (x b : Char) (s : List Char) :
    (x :: (s ++ [b])).getLast? = some b := by
  rw [← List.cons_append, List.getLast?_concat]

theorem intChars_getLast (n : Int) :
    ∃ d, (intChars n).getLast? = some d ∧ isDigitChar d = true := by
  unfold intChars
  by_cases hn : n < 0
  · rw [if_pos hn]
    obtain ⟨c, rest, hnc⟩ : ∃ c rest, natChars n.natAbs = c :: rest := by
      cases hc2 : natChars n.natAbs with
      | nil => exact absurd hc2 (natChars_ne_nil _)
      | cons c rest => exact ⟨c, rest, rfl⟩
    rw [hnc]
    obtain ⟨d, hd, hdig⟩ := getLast?_all (c :: rest) (by simp)
      (by rw [← hnc]; exact natChars_all_digits _)
    exact ⟨d, by rw [List.getLast?_cons_cons]; exact hd, hdig⟩
  · rw [if_neg hn]
    exact getLast?_all _ (natChars_ne_nil _) (natChars_all_digits _)

theorem toTomlValue_ne_nil (v : Tv) : toTomlValue v ≠ [] := by
  cases v with
  | vStr s => simp [toTomlValue]
  | vInt n =>
    obtain ⟨c, rest, hcr, _⟩ := intChars_shape n
    show intChars n ≠ []
    rw [hcr]
    simp
  | vBool b => cases b <;> decide
  | vArr xs => simp [toTomlValue]
  | vTab kvs => simp [toTomlValue]

theorem toTomlValue_trimmedNe (v : Tv) : trimmedNe (toTomlValue v) = true := by
  cases v with
  | vStr s =>
    exact trimmedNe_of_head_last _ cDq cDq rfl (getLast?_wrap cDq cDq _)
      (by decide) (by decide)
  | vInt n =>
    obtain ⟨c, rest, hcr, hc⟩ := intChars_shape n
    obtain ⟨d, hd, hdig⟩ := intChars_getLast n
    refine trimmedNe_of_head_last _ c d ?_ hd ?_ (digit_not_ws d hdig)
    · show (intChars n).head? = some c
      rw [hcr, List.head?_cons]
    · rcases hc with h | h
      · subst h; decide
      · exact digit_not_ws c h
  | vBool b => cases b <;> decide
  | vArr xs =>
    exact trimmedNe_of_head_last _ cLb cRb rfl (getLast?_wrap cLb cRb _)
      (by decide) (by decide)
  | vTab kvs =>
    refine trimmedNe_of_head_last _ cLc cRc rfl ?_ (by decide) (by decide)
    show (cLc :: (cSp :: (toTomlKvs kvs ++ [cSp, cRc]))).getLast? = some cRc
    rw [show cSp :: (toTomlKvs kvs ++ [cSp, cRc])
        = (cSp :: (toTomlKvs kvs ++ [cSp])) ++ [cRc] by simp]
    exact getLast?_wrap cLc cRc _

/-! ### TOML: generated text contains no raw newline -/

theorem escChar_no_nl (c : Char) : cNl ∉ escChar c := by
  unfold escChar
  split_ifs with h1 h2 h3 h4 h5
  · decide
  · decide
  · decide
  · decide
  · decide
  · intro hm
    rw [List.mem_singleton] at hm
    exact h3 hm.symm

theorem escapeTomlString_no_nl (s : List Char) : cNl ∉ escapeTomlString s := by
  induction s with
  | nil => simp [escapeTomlString]
  | cons c cs ih =>
    simp only [escapeTomlString, List.flatMap_cons, List.mem_append] at ih ⊢
    rintro (h | h)
    · exact escChar_no_nl c h
    · exact ih h

theorem natChars_no_nl (n : Nat) : cNl ∉ natChars n := by
  intro hm
  have := List.all_eq_true.mp (natChars_all_digits n) cNl hm
  exact absurd this (by decide)

theorem intChars_no_nl (n : Int) : cNl ∉ intChars n := by
  unfold intChars
  by_cases hn : n < 0
  · rw [if_pos hn]
    intro hm
    rcases List.mem_cons.mp hm with h | h
    · exact absurd h (by decide)
    · exact natChars_no_nl _ h
  · rw [if_neg hn]
    exact natChars_no_nl _

theorem toToml_no_nl :
    (∀ v, cNl ∉ toTomlValue v) ∧ (∀ l, cNl ∉ toTomlList l) ∧
      (∀ k, cNl ∉ toTomlKvs k) := by
  refine ⟨@tvIndV (fun v => cNl ∉ toTomlValue v) (fun l => cNl ∉ toTomlList l)
      (fun k => cNl ∉ toTomlKvs k) ?hs ?hi ?hb ?ha ?ht ?hqn ?hqc ?hrn ?hrc,
    @tvIndL (fun v => cNl ∉ toTomlValue v) (fun l => cNl ∉ toTomlList l)
      (fun k => cNl ∉ toTomlKvs k) ?hs ?hi ?hb ?ha ?ht ?hqn ?hqc ?hrn ?hrc,
    @tvIndK (fun v => cNl ∉ toTomlValue v) (fun l => cNl ∉ toTomlList l)
      (fun k => cNl ∉ toTomlKvs k) ?hs ?hi ?hb ?ha ?ht ?hqn ?hqc ?hrn ?hrc⟩
  case hs => intro s; simp +decide [toTomlValue, escapeTomlString_no_nl s]
  case hi => intro n; exact intChars_no_nl n
  case hb => intro b; cases b <;> decide
  case ha => intro xs h; simp +decide [toTomlValue, h]
  case ht => intro kvs h; simp +decide [toTomlValue, h]
  case hqn => simp [toTomlList]
  case hqc =>
    intro x xs hx hxs
    cases xs with
    | nil => exact hx
    | cons y ys => simp +decide [toTomlList, hx, hxs]
  case hrn => simp [toTomlKvs]
  case hrc =>
    intro k v rest hv hrest
    cases rest with
    | nil => simp +decide [toTomlKvs, escapeTomlString_no_nl k, hv]
    | cons k2 v2 rest2 =>
      simp +decide [toTomlKvs, escapeTomlString_no_nl k, hv, hrest]

/-! ### TOML: scanner neutrality of printed values -/

theorem scanFold_cons (st : SplitSt) (c : Char) (l : List Char) :
    scanFold st (c :: l) = scanFold (scanStep st c) l := rfl

theorem noSplits_cons (delim : Char) (st : SplitSt) (c : Char) (l : List Char) :
    noSplits delim st (c :: l)
      = (!splitsHere delim st c && noSplits delim (scanStep st c) l) := by
  rw [noSplits]
  simp

theorem scanStep_inD (d : Int) (c : Char) (h1 : c ≠ cBs) (h2 : c ≠ cDq) :
    scanStep ⟨d, true, false, false⟩ c = ⟨d, true, false, false⟩ := by
  unfold scanStep
  rw [if_neg (by simp), if_neg h1, if_neg (by simp [h2]), if_neg (by simp),
    if_neg (by simp)]

theorem scanStep_open (d : Int) (c : Char) (h : c = cLb ∨ c = cLc) :
    scanStep ⟨d, false, false, false⟩ c = ⟨d + 1, false, false, false⟩ := by
  rcases h with h | h <;> subst h <;> simp +decide [scanStep]

theorem scanStep_close (d : Int) (c : Char) (h : c = cRb ∨ c = cRc) :
    scanStep ⟨d, false, false, false⟩ c = ⟨d - 1, false, false, false⟩ := by
  rcases h with h | h <;> subst h <;> simp +decide [scanStep]

theorem scanStep_comma0 (d : Int) :
    scanStep ⟨d, false, false, false⟩ cComma = ⟨d, false, false, false⟩ := by
  simp +decide [scanStep]

theorem splitsHere_depth (delim c : Char) (d : Int) (h : d ≠ 0) :
    splitsHere delim ⟨d, false, false, false⟩ c = false := by
  simp only [splitsHere, decide_eq_false_iff_not]
  rintro ⟨-, -, -, h0, -⟩
  exact h h0

theorem scanEscChunk (d : Int) (c : Char) :
    scanFold ⟨d, true, false, false⟩ (escChar c) = ⟨d, true, false, false⟩ ∧
    noSplits cComma ⟨d, true, false, false⟩ (escChar c) = true := by
  by_cases h1 : c = cBs
  · subst h1
    constructor <;> simp +decide [escChar, scanFold, scanStep, noSplits, splitsHere]
  · by_cases h2 : c = cDq
    · subst h2
      constructor <;> simp +decide [escChar, scanFold, scanStep, noSplits, splitsHere]
    · by_cases h3 : c = cNl
      · subst h3
        constructor <;> simp +decide [escChar, scanFold, scanStep, noSplits, splitsHere]
      · by_cases h4 : c = cTab
        · subst h4
          constructor <;>
            simp +decide [escChar, scanFold, scanStep, noSplits, splitsHere]
        · by_cases h5 : c = cCr
          · subst h5
            constructor <;>
              simp +decide [escChar, scanFold, scanStep, noSplits, splitsHere]
          · have he : escChar c = [c] := by simp [escChar, h1, h2, h3, h4, h5]
            rw [he]
            constructor
            · show scanStep ⟨d, true, false, false⟩ c = _
              exact scanStep_inD d c h1 h2
            · rw [noSplits_cons]
              simp [noSplits, splitsHere]

theorem scanEscString (d : Int) (s : List Char) :
    scanFold ⟨d, true, false, false⟩ (escapeTomlString s) = ⟨d, true, false, false⟩ ∧
    noSplits cComma ⟨d, true, false, false⟩ (escapeTomlString s) = true := by
  induction s with
  | nil => exact ⟨rfl, rfl⟩
  | cons c cs ih =>
    have h1 := scanEscChunk d c
    show scanFold _ (escChar c ++ escapeTomlString cs) = _ ∧
      noSplits cComma _ (escChar c ++ escapeTomlString cs) = true
    refine ⟨?_, ?_⟩
    · rw [scanFold_append, h1.1, ih.1]
    · rw [noSplits_append, h1.1, h1.2, ih.2]
      rfl

theorem scanQuoted (d : Int) (s : List Char) :
    scanFold ⟨d, false, false, false⟩ (cDq :: (escapeTomlString s ++ [cDq]))
      = ⟨d, false, false, false⟩ ∧
    noSplits cComma ⟨d, false, false, false⟩ (cDq :: (escapeTomlString s ++ [cDq]))
      = true := by
  have hstep : scanStep ⟨d, false, false, false⟩ cDq = ⟨d, true, false, false⟩ := by
    simp +decide [scanStep]
  have hstep2 : scanStep ⟨d, true, false, false⟩ cDq = ⟨d, false, false, false⟩ := by
    simp +decide [scanStep]
  have he := scanEscString d s
  constructor
  · rw [scanFold_cons, hstep, scanFold_append, he.1, scanFold_cons, hstep2]
    rfl
  · rw [noSplits_cons, hstep, splitsHere_ne cComma cDq _ (by decide),
      noSplits_append, he.1, he.2, noSplits_cons, hstep2,
      splitsHere_ne cComma cDq _ (by decide)]
    rfl

theorem all_plain_of_digits (s : List Char) (h : s.all isDigitChar = true) :
    s.all plainChar = true := by
  rw [List.all_eq_true] at h ⊢
  intro c hc
  exact digit_plain c (h c hc)

theorem intChars_all_plain (n : Int) : (intChars n).all plainChar = true := by
  unfold intChars
  by_cases hn : n < 0
  · rw [if_pos hn, List.all_cons]
    rw [all_plain_of_digits _ (natChars_all_digits n.natAbs)]
    decide
  · rw [if_neg hn]
    exact all_plain_of_digits _ (natChars_all_digits n.toNat)

theorem scanCleanAll :
    (∀ v, ScanCleanV v) ∧ (∀ l, ScanCleanL l) ∧ (∀ k, ScanCleanK k) := by
  refine ⟨@tvIndV ScanCleanV ScanCleanL ScanCleanK
      ?hs ?hi ?hb ?ha ?ht ?hqn ?hqc ?hrn ?hrc,
    @tvIndL ScanCleanV ScanCleanL ScanCleanK
      ?hs ?hi ?hb ?ha ?ht ?hqn ?hqc ?hrn ?hrc,
    @tvIndK ScanCleanV ScanCleanL ScanCleanK
      ?hs ?hi ?hb ?ha ?ht ?hqn ?hqc ?hrn ?hrc⟩
  case hs => intro s d _; exact scanQuoted d s
  case hi =>
    intro n d _
    exact scan_plain (intChars n) ⟨d, false, false, false⟩ (intChars_all_plain n) rfl
  case hb =>
    intro b d _
    cases b
    · exact scan_plain fChars ⟨d, false, false, false⟩ (by decide) rfl
    · exact scan_plain tChars ⟨d, false, false, false⟩ (by decide) rfl
  case ha =>
    intro xs ih d hd
    have hopen := scanStep_open d cLb (Or.inl rfl)
    have hbody := ih (d + 1) (by omega)
    have hclose : scanStep ⟨d + 1, false, false, false⟩ cRb
        = ⟨d, false, false, false⟩ := by
      rw [scanStep_close (d + 1) cRb (Or.inl rfl)]
      norm_num
    constructor
    · show scanFold _ (cLb :: (toTomlList xs ++ [cRb])) = _
      rw [scanFold_cons, hopen, scanFold_append, hbody.1]
      exact hclose
    · show noSplits cComma _ (cLb :: (toTomlList xs ++ [cRb])) = true
      rw [noSplits_cons, hopen, splitsHere_ne cComma cLb _ (by decide),
        noSplits_append, hbody.1, hbody.2, noSplits_cons, hclose,
        splitsHere_ne cComma cRb _ (by decide)]
      rfl
  case ht =>
    intro kvs ih d hd
    have hopen := scanStep_open d cLc (Or.inr rfl)
    have hsp : scanStep ⟨d + 1, false, false, false⟩ cSp
        = ⟨d + 1, false, false, false⟩ := scanStep_plain _ cSp (by decide) rfl
    have hbody := ih (d + 1) (by omega)
    have hclose : scanStep ⟨d + 1, false, false, false⟩ cRc
        = ⟨d, false, false, false⟩ := by
      rw [scanStep_close (d + 1) cRc (Or.inr rfl)]
      norm_num
    constructor
    · show scanFold _ (cLc :: cSp :: (toTomlKvs kvs ++ [cSp, cRc])) = _
      rw [scanFold_cons, hopen, scanFold_cons, hsp, scanFold_append, hbody.1,
        scanFold_cons, hsp, scanFold_cons, hclose]
      rfl
    · show noSplits cComma _ (cLc :: cSp :: (toTomlKvs kvs ++ [cSp, cRc])) = true
      rw [noSplits_cons, hopen, splitsHere_ne cComma cLc _ (by decide),
        noSplits_cons, hsp, splitsHere_ne cComma cSp _ (by decide),
        noSplits_append, hbody.1, hbody.2, noSplits_cons, hsp,
        splitsHere_ne cComma cSp _ (by decide), noSplits_cons, hclose,
        splitsHere_ne cComma cRc _ (by decide)]
      rfl
  case hqn => intro d _; exact ⟨rfl, rfl⟩
  case hqc =>
    intro x xs hx hxs d hd
    cases xs with
    | nil => exact hx d (by omega)
    | cons y ys =>
      have h1 := hx d (by omega)
      have hcm := scanStep_comma0 d
      have hsp : scanStep ⟨d, false, false, false⟩ cSp
          = ⟨d, false, false, false⟩ := scanStep_plain _ cSp (by decide) rfl
      have h2 := hxs d hd
      constructor
      · show scanFold _ (toTomlValue x ++ cComma :: cSp :: toTomlList (TvList.cons y ys))
            = _
        rw [scanFold_append, h1.1, scanFold_cons, hcm, scanFold_cons, hsp]
        exact h2.1
      · show noSplits cComma _
            (toTomlValue x ++ cComma :: cSp :: toTomlList (TvList.cons y ys)) = true
        rw [noSplits_append, h1.1, h1.2, noSplits_cons, hcm,
          splitsHere_depth cComma cComma d (by omega), noSplits_cons, hsp,
          splitsHere_ne cComma cSp _ (by decide), h2.2]
        rfl
  case hrn => intro d _; exact ⟨rfl, rfl⟩
  case hrc =>
    intro k v rest hv hrest d hd
    have hq := scanQuoted d k
    have hsp : scanStep ⟨d, false, false, false⟩ cSp
        = ⟨d, false, false, false⟩ := scanStep_plain _ cSp (by decide) rfl
    have heq : scanStep ⟨d, false, false, false⟩ cEq
        = ⟨d, false, false, false⟩ := scanStep_plain _ cEq (by decide) rfl
    have hv1 := hv d (by omega)
    cases rest with
    | nil =>
      have hsh : cDq :: escapeTomlString k ++ [cDq, cSp, cEq, cSp] ++ toTomlValue v
          = (cDq :: (escapeTomlString k ++ [cDq])) ++
              (cSp :: cEq :: cSp :: toTomlValue v) := by
        simp
      constructor
      · show scanFold _
            (cDq :: escapeTomlString k ++ [cDq, cSp, cEq, cSp] ++ toTomlValue v) = _
        rw [hsh, scanFold_append, hq.1, scanFold_cons, hsp, scanFold_cons, heq,
          scanFold_cons, hsp]
        exact hv1.1
      · show noSplits cComma _
            (cDq :: escapeTomlString k ++ [cDq, cSp, cEq, cSp] ++ toTomlValue v) = true
        rw [hsh, noSplits_append, hq.1, hq.2, noSplits_cons, hsp,
          splitsHere_ne cComma cSp _ (by decide), noSplits_cons, heq,
          splitsHere_ne cComma cEq _ (by decide), noSplits_cons, hsp,
          splitsHere_ne cComma cSp _ (by decide), hv1.2]
        rfl
    | cons k2 v2 rest2 =>
      have hcm := scanStep_comma0 d
      have hrest1 := hrest d hd
      have hsh : cDq :: escapeTomlString k ++ [cDq, cSp, cEq, cSp] ++ toTomlValue v ++
            cComma :: cSp :: toTomlKvs (TvKvs.cons k2 v2 rest2)
          = (cDq :: (escapeTomlString k ++ [cDq])) ++
              (cSp :: cEq :: cSp ::
                (toTomlValue v ++
                  cComma :: cSp :: toTomlKvs (TvKvs.cons k2 v2 rest2))) := by
        simp
      constructor
      · show scanFold _
            (cDq :: escapeTomlString k ++ [cDq, cSp, cEq, cSp] ++ toTomlValue v ++
              cComma :: cSp :: toTomlKvs (TvKvs.cons k2 v2 rest2)) = _
        rw [hsh, scanFold_append, hq.1, scanFold_cons, hsp, scanFold_cons, heq,
          scanFold_cons, hsp, scanFold_append, hv1.1, scanFold_cons, hcm,
          scanFold_cons, hsp]
        exact hrest1.1
      · show noSplits cComma _
            (cDq :: escapeTomlString k ++ [cDq, cSp, cEq, cSp] ++ toTomlValue v ++
              cComma :: cSp :: toTomlKvs (TvKvs.cons k2 v2 rest2)) = true
        rw [hsh, noSplits_append, hq.1, hq.2, noSplits_cons, hsp,
          splitsHere_ne cComma cSp _ (by decide), noSplits_cons, heq,
          splitsHere_ne cComma cEq _ (by decide), noSplits_cons, hsp,
          splitsHere_ne cComma cSp _ (by decide), noSplits_append, hv1.1, hv1.2,
          noSplits_cons, hcm, splitsHere_depth cComma cComma d (by omega),
          noSplits_cons, hsp, splitsHere_ne cComma cSp _ (by decide), hrest1.2]
        rfl

/-! ### TOML: the element splitter on generated bodies -/

theorem splitGo_chunk (delim : Char) (s : List Char) :
    ∀ st cur rest, noSplits delim st s = true →
      splitGo delim (s ++ rest) st cur
        = splitGo delim rest (scanFold st s) (cur ++ s) := by
  induction s with
  | nil =>
    intro st cur rest _
    rw [List.nil_append, List.append_nil]
    rfl
  | cons c cs ih =>
    intro st cur rest hns
    rw [noSplits_cons] at hns
    simp only [Bool.and_eq_true, Bool.not_eq_true'] at hns
    rw [List.cons_append, splitGo, if_neg (by simp [hns.1]),
      ih (scanStep st c) (cur ++ [c]) rest hns.2, ← scanFold_cons,
      List.append_assoc]
    rfl

theorem splitGo_last (delim : Char) (s : List Char) (st : SplitSt) (cur : List Char)
    (hns : noSplits delim st s = true) (hne : cur ++ s ≠ []) :
    splitGo delim s st cur = [cur ++ s] := by
  have h := splitGo_chunk delim s st cur [] hns
  rw [List.append_nil] at h
  rw [h, splitGo, if_pos hne]

theorem splitsHere_neutral (delim : Char) : splitsHere delim neutralSt delim = true := by
  simp [splitsHere, neutralSt]

theorem splitGo_delim (delim : Char) (rest : List Char) (cur : List Char) :
    splitGo delim (delim :: rest) neutralSt cur
      = cur :: splitGo delim rest neutralSt [] := by
  rw [splitGo, if_pos (splitsHere_neutral delim)]

theorem scanStep_neutral_sp : scanStep neutralSt cSp = neutralSt :=
  scanStep_plain neutralSt cSp (by decide) rfl

theorem splitGo_sp (rest : List Char) :
    splitGo cComma (cSp :: rest) neutralSt []
      = splitGo cComma rest neutralSt [cSp] := by
  rw [splitGo, if_neg (by simp [splitsHere_ne cComma cSp neutralSt (by decide)]),
    scanStep_neutral_sp]
  rfl

theorem neutral_clean_v (v : Tv) :
    scanFold neutralSt (toTomlValue v) = neutralSt ∧
    noSplits cComma neutralSt (toTomlValue v) = true :=
  (scanCleanAll.1 v) 0 (le_refl 0)

theorem splitList_spec : ∀ (xs : TvList), ∀ (x : Tv) (cur : List Char),
    splitGo cComma (toTomlList (TvList.cons x xs)) neutralSt cur
      = (cur ++ toTomlValue x) ::
          (listOfTvList xs).map (fun y => cSp :: toTomlValue y) := by
  refine @tvIndL (fun _ => True)
    (fun xs => ∀ (x : Tv) (cur : List Char),
      splitGo cComma (toTomlList (TvList.cons x xs)) neutralSt cur
        = (cur ++ toTomlValue x) ::
            (listOfTvList xs).map (fun y => cSp :: toTomlValue y))
    (fun _ => True) (fun _ => trivial) (fun _ => trivial) (fun _ => trivial)
    (fun _ _ => trivial) (fun _ _ => trivial) ?_ ?_ trivial
    (fun _ _ _ _ _ => trivial)
  · intro x cur
    show splitGo cComma (toTomlValue x) neutralSt cur = [cur ++ toTomlValue x]
    exact splitGo_last cComma (toTomlValue x) neutralSt cur (neutral_clean_v x).2
      (by simp [toTomlValue_ne_nil x])
  · intro y ys _ ih x cur
    show splitGo cComma
        (toTomlValue x ++ cComma :: cSp :: toTomlList (TvList.cons y ys)) neutralSt cur
      = _
    rw [splitGo_chunk cComma (toTomlValue x) neutralSt cur _ (neutral_clean_v x).2,
      (neutral_clean_v x).1, splitGo_delim, splitGo_sp, ih y [cSp]]
    rfl

theorem splitTomlElements_list (x : Tv) (xs : TvList) :
    splitTomlElements (toTomlList (TvList.cons x xs)) cComma
      = toTomlValue x :: (listOfTvList xs).map (fun y => cSp :: toTomlValue y) := by
  unfold splitTomlElements
  rw [splitList_spec xs x []]
  rfl

/-! ### TOML: safe keys print verbatim -/

theorem safe_ne (c x : Char) (h : safeKeyChar c = true) (hx : safeKeyChar x = false) :
    c ≠ x := by
  intro he
  subst he
  rw [h] at hx
  exact Bool.noConfusion hx

theorem safe_escChar (c : Char) (h : safeKeyChar c = true) : escChar c = [c] := by
  unfold escChar
  rw [if_neg (safe_ne c cBs h (by decide)), if_neg (safe_ne c cDq h (by decide)),
    if_neg (safe_ne c cNl h (by decide)), if_neg (safe_ne c cTab h (by decide)),
    if_neg (safe_ne c cCr h (by decide))]

theorem safeKey_esc (k : List Char) (h : k.all safeKeyChar = true) :
    escapeTomlString k = k := by
  induction k with
  | nil => rfl
  | cons c cs ih =>
    rw [List.all_cons, Bool.and_eq_true] at h
    show escChar c ++ escapeTomlString cs = c :: cs
    rw [safe_escChar c h.1, ih h.2]
    rfl

/-! ### TOML: the pair splitter on generated inline tables -/

theorem pairText_clean (k : List Char) (v : Tv) :
    scanFold neutralSt (pairText k v) = neutralSt ∧
    noSplits cComma neutralSt (pairText k v) = true := by
  have hq := scanQuoted 0 k
  have hv := (scanCleanAll.1 v) 0 (le_refl 0)
  have hsp : scanStep ⟨0, false, false, false⟩ cSp = ⟨0, false, false, false⟩ :=
    scanStep_plain _ cSp (by decide) rfl
  have heq : scanStep ⟨0, false, false, false⟩ cEq = ⟨0, false, false, false⟩ :=
    scanStep_plain _ cEq (by decide) rfl
  have hsh : pairText k v
      = (cDq :: (escapeTomlString k ++ [cDq])) ++
          (cSp :: cEq :: cSp :: toTomlValue v) := by
    unfold pairText
    simp
  show scanFold ⟨0, false, false, false⟩ (pairText k v) = ⟨0, false, false, false⟩ ∧
    noSplits cComma ⟨0, false, false, false⟩ (pairText k v) = true
  constructor
  · rw [hsh, scanFold_append, hq.1, scanFold_cons, hsp, scanFold_cons, heq,
      scanFold_cons, hsp]
    exact hv.1
  · rw [hsh, noSplits_append, hq.1, hq.2, noSplits_cons, hsp,
      splitsHere_ne cComma cSp _ (by decide), noSplits_cons, heq,
      splitsHere_ne cComma cEq _ (by decide), noSplits_cons, hsp,
      splitsHere_ne cComma cSp _ (by decide), hv.2]
    rfl

theorem pairText_ne_nil (k : List Char) (v : Tv) : pairText k v ≠ [] := by
  unfold pairText
  simp

theorem kvs_cons_cons_text (k : List Char) (v : Tv) (k2 : List Char) (v2 : Tv)
    (rest2 : TvKvs) :
    toTomlKvs (TvKvs.cons k v (TvKvs.cons k2 v2 rest2))
      = pairText k v ++ cComma :: cSp :: toTomlKvs (TvKvs.cons k2 v2 rest2) := by
  show cDq :: escapeTomlString k ++ [cDq, cSp, cEq, cSp] ++ toTomlValue v ++
      cComma :: cSp :: toTomlKvs (TvKvs.cons k2 v2 rest2) = _
  unfold pairText
  simp

theorem splitKvs_spec : ∀ (rest : TvKvs), ∀ (k : List Char) (v : Tv) (cur : List Char),
    splitGo cComma (toTomlKvs (TvKvs.cons k v rest)) neutralSt cur
      = (cur ++ pairText k v) ::
          (kvsEntries rest).map (fun p => cSp :: pairText p.1 p.2) := by
  refine @tvIndK (fun _ => True) (fun _ => True)
    (fun rest => ∀ (k : List Char) (v : Tv) (cur : List Char),
      splitGo cComma (toTomlKvs (TvKvs.cons k v rest)) neutralSt cur
        = (cur ++ pairText k v) ::
            (kvsEntries rest).map (fun p => cSp :: pairText p.1 p.2))
    (fun _ => trivial) (fun _ => trivial) (fun _ => trivial) (fun _ _ => trivial)
    (fun _ _ => trivial) trivial (fun _ _ _ _ => trivial) ?_ ?_
  · intro k v cur
    show splitGo cComma (pairText k v) neutralSt cur = [cur ++ pairText k v]
    exact splitGo_last cComma (pairText k v) neutralSt cur (pairText_clean k v).2
      (by simp [pairText_ne_nil k v])
  · intro k2 v2 rest2 _ ih k v cur
    rw [kvs_cons_cons_text,
      splitGo_chunk cComma (pairText k v) neutralSt cur _ (pairText_clean k v).2,
      (pairText_clean k v).1, splitGo_delim, splitGo_sp, ih k2 v2 [cSp]]
    rfl

theorem splitTomlElements_kvs (k : List Char) (v : Tv) (rest : TvKvs) :
    splitTomlElements (toTomlKvs (TvKvs.cons k v rest)) cComma
      = pairText k v :: (kvsEntries rest).map (fun p => cSp :: pairText p.1 p.2) := by
  unfold splitTomlElements
  rw [splitKvs_spec rest k v []]
  rfl

/-! ### TOML: locating the equals sign -/

theorem firstIdx_append (s t : List Char) (c : Char) (h : c ∉ s) :
    firstIdx (s ++ c :: t) c = some s.length := by
  induction s with
  | nil =>
    rw [List.nil_append, firstIdx, if_pos rfl]
    rfl
  | cons a as ih =>
    have ha : a ≠ c := fun he => h (he ▸ List.mem_cons_self a as)
    rw [List.cons_append, firstIdx, if_neg ha,
      ih (fun hm => h (List.mem_cons_of_mem a hm))]
    rfl

/-! ### TOML: table and entry-list bookkeeping -/

theorem appendKvs_nil : ∀ t : TvKvs, appendKvs t TvKvs.nil = t
  | TvKvs.nil => rfl
  | TvKvs.cons k v rest => by rw [appendKvs, appendKvs_nil rest]
termination_by structural t => t

theorem appendKvs_assoc : ∀ a b c : TvKvs,
    appendKvs (appendKvs a b) c = appendKvs a (appendKvs b c)
  | TvKvs.nil, _, _ => rfl
  | TvKvs.cons k v rest, b, c => by
    rw [appendKvs, appendKvs, appendKvs, appendKvs_assoc rest b c]
termination_by structural a => a

theorem getK_none_iff : ∀ (t : TvKvs) (k : List Char),
    getK t k = none ↔ k ∉ kvsKeys t
  | TvKvs.nil => by intro k; simp [getK, kvsKeys]
  | TvKvs.cons k0 v0 rest => by
    intro k
    rw [getK, kvsKeys]
    by_cases h : k0 = k
    · subst h
      simp
    · rw [if_neg h, getK_none_iff rest k]
      simp [List.mem_cons]
      intro
      exact fun he => h he.symm
termination_by structural t => t

theorem getK_setK_ne : ∀ (t : TvKvs) (k k' : List Char) (v : Tv), k ≠ k' →
    getK (setK t k v) k' = getK t k'
  | TvKvs.nil => by
    intro k k' v h
    simp [setK, getK, h]
  | TvKvs.cons k0 v0 rest => by
    intro k k' v h
    rw [setK]
    by_cases h0 : k0 = k
    · rw [if_pos h0, getK, getK]
      subst h0
      rw [if_neg h, if_neg h]
    · rw [if_neg h0, getK, getK]
      by_cases h1 : k0 = k'
      · rw [if_pos h1, if_pos h1]
      · rw [if_neg h1, if_neg h1, getK_setK_ne rest k k' v h]
termination_by structural t => t

theorem setK_fresh : ∀ (t : TvKvs) (k : List Char) (v : Tv), getK t k = none →
    setK t k v = appendKvs t (TvKvs.cons k v TvKvs.nil)
  | TvKvs.nil => by intro k v _; rfl
  | TvKvs.cons k0 v0 rest => by
    intro k v h
    rw [getK] at h
    by_cases h0 : k0 = k
    · rw [if_pos h0] at h
      exact Option.noConfusion h
    · rw [if_neg h0] at h
      rw [setK, if_neg h0, appendKvs, setK_fresh rest k v h]
termination_by structural t => t

theorem ofEntries_kvsEntries : ∀ kvs : TvKvs, ofEntries (kvsEntries kvs) = kvs
  | TvKvs.nil => rfl
  | TvKvs.cons k v rest => by
    rw [kvsEntries, ofEntries, ofEntries_kvsEntries rest]
termination_by structural kvs => kvs

theorem kvsEntries_map_fst : ∀ kvs : TvKvs,
    (kvsEntries kvs).map Prod.fst = kvsKeys kvs
  | TvKvs.nil => rfl
  | TvKvs.cons k v rest => by
    rw [kvsEntries, kvsKeys, List.map_cons, kvsEntries_map_fst rest]
termination_by structural kvs => kvs

theorem foldSetK : ∀ (l : List (List Char × Tv)) (t : TvKvs),
    (l.map Prod.fst).Nodup → (∀ p ∈ l, getK t p.1 = none) →
    l.foldl (fun r p => setK r p.1 p.2) t = appendKvs t (ofEntries l) := by
  intro l
  induction l with
  | nil => intro t _ _; rw [List.foldl_nil, ofEntries, appendKvs_nil]
  | cons p ps ih =>
    intro t hnd hfresh
    simp only [List.map_cons, List.nodup_cons] at hnd
    rw [List.foldl_cons]
    rw [ih (setK t p.1 p.2) hnd.2 (fun q hq => by
      rw [getK_setK_ne t p.1 q.1 p.2 (fun he => hnd.1 (he ▸ List.mem_map_of_mem Prod.fst hq))]
      exact hfresh q (List.mem_cons_of_mem p hq))]
    rw [setK_fresh t p.1 p.2 (hfresh p (List.mem_cons_self p ps)), appendKvs_assoc]
    rfl

theorem wfTvList_mem : ∀ xs : TvList, wfTvList xs = true →
    ∀ x ∈ listOfTvList xs, wfTv x = true
  | TvList.nil => by intro _ x hx; simp [listOfTvList] at hx
  | TvList.cons y ys => by
    intro h x hx
    rw [wfTvList, Bool.and_eq_true] at h
    rcases List.mem_cons.mp hx with hx | hx
    · subst hx; exact h.1
    · exact wfTvList_mem ys h.2 x hx
termination_by structural xs => xs

theorem wfKvs_entries : ∀ kvs : TvKvs, wfKvs kvs = true →
    ∀ p ∈ kvsEntries kvs, safeKey p.1 = true ∧ wfTv p.2 = true
  | TvKvs.nil => by intro _ p hp; simp [kvsEntries] at hp
  | TvKvs.cons k v rest => by
    intro h p hp
    rw [wfKvs, Bool.and_eq_true, Bool.and_eq_true] at h
    rcases List.mem_cons.mp hp with hp | hp
    · subst hp; exact ⟨h.1.1, h.1.2⟩
    · exact wfKvs_entries rest h.2 p hp
termination_by structural kvs => kvs

theorem depth_mem_list : ∀ xs : TvList, ∀ x ∈ listOfTvList xs,
    tvDepth x ≤ tvListDepth xs
  | TvList.nil => by intro x hx; simp [listOfTvList] at hx
  | TvList.cons y ys => by
    intro x hx
    rw [tvListDepth]
    rcases List.mem_cons.mp hx with hx | hx
    · subst hx; exact le_max_left _ _
    · exact le_trans (depth_mem_list ys x hx) (le_max_right _ _)
termination_by structural xs => xs

theorem depth_mem_kvs : ∀ kvs : TvKvs, ∀ p ∈ kvsEntries kvs,
    tvDepth p.2 ≤ tvKvsDepth kvs
  | TvKvs.nil => by intro p hp; simp [kvsEntries] at hp
  | TvKvs.cons k v rest => by
    intro p hp
    rw [tvKvsDepth]
    rcases List.mem_cons.mp hp with hp | hp
    · subst hp; exact le_max_left _ _
    · exact le_trans (depth_mem_kvs rest p hp) (le_max_right _ _)
termination_by structural kvs => kvs

/-! ### TOML: first/last characters of list and table bodies -/

theorem trimmedNe_dest (s : List Char) (h : trimmedNe s = true) :
    ∃ a b, s.head? = some a ∧ s.getLast? = some b ∧
      isWsChar a = false ∧ isWsChar b = false := by
  unfold trimmedNe at h
  cases hh : s.head? with
  | none => rw [hh] at h; exact absurd h (by cases s.getLast? <;> simp)
  | some a =>
    cases hl : s.getLast? with
    | none => rw [hh, hl] at h; exact absurd h (by simp)
    | some b =>
      rw [hh, hl] at h
      simp only [decide_eq_true_eq] at h
      exact ⟨a, b, rfl, rfl, by simp [h.1], by simp [h.2]⟩

theorem getLast?_append_right (a b : List Char) (hb : b ≠ []) :
    (a ++ b).getLast? = b.getLast? := by
  cases hrb : b.reverse with
  | nil => exact absurd (by simpa using congrArg List.reverse hrb) hb
  | cons c t =>
    rw [← List.head?_reverse, ← List.head?_reverse, List.reverse_append, hrb,
      List.cons_append, List.head?_cons, List.head?_cons]

theorem head?_append_left (a b : List Char) (x : Char) (s : List Char)
    (ha : a = x :: s) : (a ++ b).head? = some x := by
  subst ha
  rw [List.cons_append, List.head?_cons]

theorem toTomlList_trimmedNe : ∀ (ys : TvList) (y : Tv),
    trimmedNe (toTomlList (TvList.cons y ys)) = true
  | TvList.nil => fun y => toTomlValue_trimmedNe y
  | TvList.cons z zs => by
    intro y
    obtain ⟨a, b, hh, hl, hwa, hwb⟩ := trimmedNe_dest _ (toTomlValue_trimmedNe y)
    obtain ⟨a2, b2, hh2, hl2, hwa2, hwb2⟩ :=
      trimmedNe_dest _ (toTomlList_trimmedNe zs z)
    obtain ⟨s, hs⟩ : ∃ s, toTomlValue y = a :: s := by
      cases hty : toTomlValue y with
      | nil => rw [hty] at hh; exact absurd hh (by simp)
      | cons c cs =>
        rw [hty, List.head?_cons] at hh
        exact ⟨cs, by rw [Option.some.injEq] at hh; rw [hh]⟩
    refine trimmedNe_of_head_last _ a b2 ?_ ?_ hwa hwb2
    · exact head?_append_left _ _ a s hs
    · show (toTomlValue y ++ cComma :: cSp :: toTomlList (TvList.cons z zs)).getLast?
          = some b2
      obtain ⟨cs, hcs⟩ : ∃ cs, toTomlList (TvList.cons z zs) = a2 :: cs := by
        cases htz : toTomlList (TvList.cons z zs) with
        | nil => rw [htz] at hh2; exact absurd hh2 (by simp)
        | cons c cs =>
          rw [htz, List.head?_cons, Option.some.injEq] at hh2
          exact ⟨cs, by rw [hh2]⟩
      rw [getLast?_append_right _ _ (by simp), hcs, List.getLast?_cons_cons,
        List.getLast?_cons_cons, ← hcs]
      exact hl2
termination_by structural ys => ys

theorem toTomlKvs_trimmedNe : ∀ (rest : TvKvs) (k : List Char) (v : Tv),
    trimmedNe (toTomlKvs (TvKvs.cons k v rest)) = true
  | TvKvs.nil => by
    intro k v
    obtain ⟨a, b, hh, hl, hwa, hwb⟩ := trimmedNe_dest _ (toTomlValue_trimmedNe v)
    refine trimmedNe_of_head_last _ cDq b rfl ?_ (by decide) hwb
    show (cDq :: escapeTomlString k ++ [cDq, cSp, cEq, cSp] ++ toTomlValue v).getLast?
        = some b
    rw [getLast?_append_right _ _ (by
      intro he
      rw [he] at hh
      simp at hh)]
    exact hl
  | TvKvs.cons k2 v2 rest2 => by
    intro k v
    obtain ⟨a2, b2, hh2, hl2, hwa2, hwb2⟩ :=
      trimmedNe_dest _ (toTomlKvs_trimmedNe rest2 k2 v2)
    refine trimmedNe_of_head_last _ cDq b2 rfl ?_ (by decide) hwb2
    show (cDq :: escapeTomlString k ++ [cDq, cSp, cEq, cSp] ++ toTomlValue v ++
        cComma :: cSp :: toTomlKvs (TvKvs.cons k2 v2 rest2)).getLast? = some b2
    obtain ⟨cs, hcs⟩ : ∃ cs, toTomlKvs (TvKvs.cons k2 v2 rest2) = a2 :: cs := by
      cases htz : toTomlKvs (TvKvs.cons k2 v2 rest2) with
      | nil => rw [htz] at hh2; exact absurd hh2 (by simp)
      | cons c cs =>
        rw [htz, List.head?_cons, Option.some.injEq] at hh2
        exact ⟨cs, by rw [hh2]⟩
    rw [getLast?_append_right _ _ (by simp), hcs, List.getLast?_cons_cons,
      List.getLast?_cons_cons, ← hcs]
    exact hl2
termination_by structural rest => rest

/-! ### TOML: branch discrimination in the value parser -/

theorem ne_of_head (a b : Char) (s t : List Char) (h : a ≠ b) : a :: s ≠ b :: t := by
  simp [h]

theorem not_head_cond (a c c' : Char) (s : List Char) (h : a ≠ c) :
    ¬ (headIs (a :: s) c ∧ lastIs (a :: s) c') := by
  intro hc
  have h1 := hc.1
  rw [headIs_cons] at h1
  simp [h] at h1

theorem not_quoted (a : Char) (s : List Char) (h1 : a ≠ cDq) (h2 : a ≠ cSq) :
    ¬ ((headIs (a :: s) cDq ∧ lastIs (a :: s) cDq) ∨
        (headIs (a :: s) cSq ∧ lastIs (a :: s) cSq)) := by
  rintro (⟨hc, -⟩ | ⟨hc, -⟩)
  · rw [headIs_cons] at hc; simp [h1] at hc
  · rw [headIs_cons] at hc; simp [h2] at hc

/-! ### TOML: parsing one printed inline-table pair -/

theorem ofTvList_listOf : ∀ l : TvList, ofTvList (listOfTvList l) = l
  | TvList.nil => rfl
  | TvList.cons x xs => by
    rw [listOfTvList, ofTvList, ofTvList_listOf xs]
termination_by structural l => l

theorem pairText_trimNe (k : List Char) (v : Tv) : trimmedNe (pairText k v) = true :=
  toTomlKvs_trimmedNe TvKvs.nil k v

theorem pairStep (f : Nat) (result : TvKvs) (pair : List Char) (k : List Char) (v : Tv)
    (hsafe : safeKey k = true)
    (htrim : trimToml pair = pairText k v)
    (hparse : parseTomlValueF f (toTomlValue v) = v) :
    pairFoldStep f result pair = setK result k v := by
  have hall : k.all safeKeyChar = true := by
    simp only [safeKey, decide_eq_true_eq] at hsafe
    exact hsafe.2
  have hesc : escapeTomlString k = k := safeKey_esc k hall
  have hshape : pairText k v
      = (cDq :: k ++ [cDq, cSp]) ++ cEq :: (cSp :: toTomlValue v) := by
    unfold pairText
    rw [hesc]
    simp
  have hnoeq : cEq ∉ cDq :: k ++ [cDq, cSp] := by
    intro hm
    rcases List.mem_append.mp hm with hm | hm
    · rcases List.mem_cons.mp hm with hm | hm
      · exact absurd hm (by decide)
      · exact absurd (List.all_eq_true.mp hall cEq hm) (by decide)
    · simp +decide at hm
  have hidx : firstIdx (trimToml pair) cEq = some ((cDq :: k ++ [cDq, cSp]).length) := by
    rw [htrim, hshape]
    exact firstIdx_append _ _ cEq hnoeq
  have hk0 : trimToml (cDq :: k ++ [cDq, cSp]) = cDq :: k ++ [cDq] := by
    rw [show cDq :: k ++ [cDq, cSp] = (cDq :: k ++ [cDq]) ++ [cSp] by simp]
    refine trimToml_snoc _ cSp (by decide) ?_
    refine trimmedNe_of_head_last _ cDq cDq (by simp) ?_ (by decide) (by decide)
    exact List.getLast?_concat _
  have hdrop : ((cDq :: k ++ [cDq, cSp]) ++ cEq :: (cSp :: toTomlValue v)).drop
      ((cDq :: k ++ [cDq, cSp]).length + 1) = cSp :: toTomlValue v := by
    rw [show (cDq :: k ++ [cDq, cSp]) ++ cEq :: (cSp :: toTomlValue v)
        = ((cDq :: k ++ [cDq, cSp]) ++ [cEq]) ++ (cSp :: toTomlValue v) by simp]
    exact List.drop_left' (by simp)
  simp only [pairFoldStep, hidx]
  rw [if_neg (by simp)]
  rw [htrim, hshape, List.take_left, hk0, hdrop]
  rw [if_pos (Or.inl ⟨by simp [List.cons_append, headIs_cons], by
    rw [show cDq :: k ++ [cDq] = (cDq :: k) ++ [cDq] from rfl, lastIs_concat]
    simp⟩)]
  rw [show cDq :: k ++ [cDq] = cDq :: (k ++ [cDq]) from rfl, sliceEnds_wrap,
    trimToml_cons_sp _ (toTomlValue_trimmedNe v), hparse]

theorem pairFold (f : Nat) : ∀ (l : List (List Char × Tv)) (result : TvKvs),
    (∀ p ∈ l, safeKey p.1 = true ∧ parseTomlValueF f (toTomlValue p.2) = p.2) →
    (l.map (fun p => cSp :: pairText p.1 p.2)).foldl (pairFoldStep f) result
      = l.foldl (fun r p => setK r p.1 p.2) result := by
  intro l
  induction l with
  | nil => intro result _; rfl
  | cons p ps ih =>
    intro result h
    rw [List.map_cons, List.foldl_cons, List.foldl_cons,
      pairStep f result (cSp :: pairText p.1 p.2) p.1 p.2
        (h p (List.mem_cons_self p ps)).1
        (trimToml_cons_sp _ (pairText_trimNe p.1 p.2))
        (h p (List.mem_cons_self p ps)).2]
    exact ih (setK result p.1 p.2) (fun q hq => h q (List.mem_cons_of_mem p hq))

/-! ### TOML: the value round trip -/

theorem ne_tChars (a : Char) (s : List Char) (h : a ≠ 't') : a :: s ≠ tChars :=
  ne_of_head a 't' s _ h

theorem ne_fChars (a : Char) (s : List Char) (h : a ≠ 'f') : a :: s ≠ fChars :=
  ne_of_head a 'f' s _ h

theorem valRtV_all : ∀ v : Tv, ValRtV v := by
  refine @tvIndV ValRtV
    (fun l => ∀ x ∈ listOfTvList l, ValRtV x)
    (fun kvs => ∀ p ∈ kvsEntries kvs, ValRtV p.2)
    ?hs ?hi ?hb ?ha ?ht ?hqn ?hqc ?hrn ?hrc
  case hqn => intro x hx; simp [listOfTvList] at hx
  case hqc =>
    intro x xs hx hxs z hz
    rcases List.mem_cons.mp hz with hz | hz
    · subst hz; exact hx
    · exact hxs z hz
  case hrn => intro p hp; simp [kvsEntries] at hp
  case hrc =>
    intro k v rest hv hrest p hp
    rcases List.mem_cons.mp hp with hp | hp
    · subst hp; exact hv
    · exact hrest p hp
  case hs =>
    intro s _ f hf
    cases f with
    | zero => rw [show tvDepth (Tv.vStr s) = 0 from rfl] at hf; omega
    | succ f =>
      have hform : toTomlValue (Tv.vStr s) = cDq :: (escapeTomlString s ++ [cDq]) := by
        simp [toTomlValue]
      rw [hform, parseTomlValueF,
        if_neg (by simp),
        if_neg (ne_tChars cDq _ (by decide)),
        if_neg (ne_fChars cDq _ (by decide)),
        if_neg (not_head_cond cDq cLb cRb _ (by decide)),
        if_neg (not_head_cond cDq cLc cRc _ (by decide)),
        if_pos (Or.inl ⟨by rw [headIs_cons]; simp, by
          rw [show cDq :: (escapeTomlString s ++ [cDq])
              = (cDq :: escapeTomlString s) ++ [cDq] by simp, lastIs_concat]
          simp⟩),
        sliceEnds_wrap, unesc_esc]
  case hi =>
    intro n _ f hf
    cases f with
    | zero => rw [show tvDepth (Tv.vInt n) = 0 from rfl] at hf; omega
    | succ f =>
      obtain ⟨c, rest, hcr, hc⟩ := intChars_shape n
      have hcne : ∀ x : Char, isDigitChar x = false → cDash ≠ x → c ≠ x := by
        intro x hx hdx
        rcases hc with h | h
        · subst h; exact hdx
        · exact digit_ne c x h hx
      have hform : toTomlValue (Tv.vInt n) = c :: rest := hcr
      rw [hform, parseTomlValueF,
        if_neg (by simp),
        if_neg (ne_tChars c _ (hcne 't' (by decide) (by decide))),
        if_neg (ne_fChars c _ (hcne 'f' (by decide) (by decide))),
        if_neg (not_head_cond c cLb cRb _ (hcne cLb (by decide) (by decide))),
        if_neg (not_head_cond c cLc cRc _ (hcne cLc (by decide) (by decide))),
        if_neg (not_quoted c _ (hcne cDq (by decide) (by decide))
          (hcne cSq (by decide) (by decide))),
        ← hcr, numParse_intChars]
  case hb =>
    intro b _ f hf
    cases b
    · cases f with
      | zero => exact absurd hf (by decide)
      | succ f =>
        rw [show toTomlValue (Tv.vBool false) = fChars from rfl, parseTomlValueF,
          if_neg (by decide), if_neg (by decide), if_pos rfl]
    · cases f with
      | zero => exact absurd hf (by decide)
      | succ f =>
        rw [show toTomlValue (Tv.vBool true) = tChars from rfl, parseTomlValueF,
          if_neg (by decide), if_pos rfl]
  case ha =>
    intro xs ihQ hwf f hf
    cases f with
    | zero =>
      rw [show tvDepth (Tv.vArr xs) = tvListDepth xs + 1 from rfl] at hf
      omega
    | succ f =>
      have hfl : tvListDepth xs < f := by
        rw [show tvDepth (Tv.vArr xs) = tvListDepth xs + 1 from rfl] at hf
        omega
      have hform : toTomlValue (Tv.vArr xs) = cLb :: (toTomlList xs ++ [cRb]) := by
        simp [toTomlValue]
      rw [hform, parseTomlValueF,
        if_neg (by simp),
        if_neg (ne_tChars cLb _ (by decide)),
        if_neg (ne_fChars cLb _ (by decide)),
        if_pos (⟨by rw [headIs_cons]; simp, by
          rw [show cLb :: (toTomlList xs ++ [cRb])
              = (cLb :: toTomlList xs) ++ [cRb] by simp, lastIs_concat]
          simp⟩ : headIs _ cLb ∧ lastIs _ cRb),
        sliceEnds_wrap]
      cases xs with
      | nil => rw [show trimToml (toTomlList TvList.nil) = [] from rfl, if_pos rfl]
      | cons y ys =>
        obtain ⟨a, b, hh, -, -, -⟩ := trimmedNe_dest _ (toTomlList_trimmedNe ys y)
        rw [trimToml_id _ (toTomlList_trimmedNe ys y),
          if_neg (by intro he; rw [he] at hh; simp at hh),
          splitTomlElements_list y ys]
        simp only [List.map_cons, List.map_map]
        rw [trimToml_id _ (toTomlValue_trimmedNe y)]
        have hmap : (listOfTvList ys).map (trimToml ∘ fun z => cSp :: toTomlValue z)
            = (listOfTvList ys).map toTomlValue := by
          apply List.map_congr_left
          intro z _
          exact trimToml_cons_sp _ (toTomlValue_trimmedNe z)
        rw [hmap]
        have hfil : (toTomlValue y :: (listOfTvList ys).map toTomlValue).filter
            (· ≠ []) = toTomlValue y :: (listOfTvList ys).map toTomlValue := by
          apply List.filter_eq_self.mpr
          intro a2 ha2
          rcases List.mem_cons.mp ha2 with ha2 | ha2
          · subst ha2; simp [toTomlValue_ne_nil y]
          · obtain ⟨z, hz, hz2⟩ := List.mem_map.mp ha2
            subst hz2
            simp [toTomlValue_ne_nil z]
        rw [hfil]
        simp only [List.map_cons, List.map_map]
        have hy : parseTomlValueF f (toTomlValue y) = y :=
          ihQ y (by simp [listOfTvList])
            (wfTvList_mem (TvList.cons y ys) hwf y (by simp [listOfTvList])) f
            (by
              have := depth_mem_list (TvList.cons y ys) y (by simp [listOfTvList])
              omega)
        have hmap2 : (listOfTvList ys).map (parseTomlValueF f ∘ toTomlValue)
            = (listOfTvList ys).map id := by
          apply List.map_congr_left
          intro z hz
          exact ihQ z (by simp [listOfTvList, hz])
            (wfTvList_mem (TvList.cons y ys) hwf z (by simp [listOfTvList, hz])) f
            (by
              have := depth_mem_list (TvList.cons y ys) z (by simp [listOfTvList, hz])
              omega)
        rw [hy, hmap2, List.map_id,
          show y :: listOfTvList ys = listOfTvList (TvList.cons y ys) from rfl,
          ofTvList_listOf]
  case ht =>
    intro kvs ihR hwf f hf
    cases kvs with
    | nil => exact absurd hwf (by decide)
    | cons k v rest =>
      have hw := hwf
      rw [show wfTv (Tv.vTab (TvKvs.cons k v rest))
          = (true && decide ((kvsKeys (TvKvs.cons k v rest)).Nodup) &&
              wfKvs (TvKvs.cons k v rest)) from rfl,
        Bool.true_and, Bool.and_eq_true] at hw
      obtain ⟨hnd, hwk⟩ := hw
      cases f with
      | zero =>
        rw [show tvDepth (Tv.vTab (TvKvs.cons k v rest))
            = tvKvsDepth (TvKvs.cons k v rest) + 1 from rfl] at hf
        omega
      | succ f =>
        have hfk : tvKvsDepth (TvKvs.cons k v rest) < f := by
          rw [show tvDepth (Tv.vTab (TvKvs.cons k v rest))
              = tvKvsDepth (TvKvs.cons k v rest) + 1 from rfl] at hf
          omega
        have hwk' := hwk
        rw [wfKvs, Bool.and_eq_true, Bool.and_eq_true] at hwk'
        obtain ⟨⟨hsafek, hwfv⟩, hwkr⟩ := hwk'
        have hndk : (kvsKeys (TvKvs.cons k v rest)).Nodup := by simpa using hnd
        rw [kvsKeys, List.nodup_cons] at hndk
        have hform : toTomlValue (Tv.vTab (TvKvs.cons k v rest))
            = cLc :: ((cSp :: (toTomlKvs (TvKvs.cons k v rest) ++ [cSp])) ++ [cRc]) := by
          simp [toTomlValue]
        obtain ⟨a, b, hh, -, -, -⟩ := trimmedNe_dest _ (toTomlKvs_trimmedNe rest k v)
        rw [hform, parseTomlValueF,
          if_neg (by simp),
          if_neg (ne_tChars cLc _ (by decide)),
          if_neg (ne_fChars cLc _ (by decide)),
          if_neg (not_head_cond cLc cLb cRb _ (by decide)),
          if_pos (⟨by rw [headIs_cons]; simp, by
            rw [show cLc :: ((cSp :: (toTomlKvs (TvKvs.cons k v rest) ++ [cSp])) ++ [cRc])
                = (cLc :: (cSp :: (toTomlKvs (TvKvs.cons k v rest) ++ [cSp]))) ++ [cRc]
              by simp, lastIs_concat]
            simp⟩ : headIs _ cLc ∧ lastIs _ cRc),
          sliceEnds_wrap,
          trimToml_cons_ws cSp _ (by decide),
          trimToml_snoc _ cSp (by decide) (toTomlKvs_trimmedNe rest k v),
          if_neg (by intro he; rw [he] at hh; simp at hh),
          splitTomlElements_kvs k v rest]
        have hparsev : parseTomlValueF f (toTomlValue v) = v :=
          ihR (k, v) (by simp [kvsEntries]) hwfv f
            (by
              have := depth_mem_kvs (TvKvs.cons k v rest) (k, v) (by simp [kvsEntries])
              omega)
        show Tv.vTab ((pairText k v ::
            (kvsEntries rest).map fun p => cSp :: pairText p.1 p.2).foldl
              (pairFoldStep f) TvKvs.nil) = _
        rw [List.foldl_cons,
          pairStep f TvKvs.nil (pairText k v) k v hsafek
            (trimToml_id _ (pairText_trimNe k v)) hparsev,
          pairFold f (kvsEntries rest) (setK TvKvs.nil k v) (fun p hp =>
            ⟨(wfKvs_entries rest hwkr p hp).1,
              ihR p (List.mem_cons_of_mem (k, v) hp)
                ((wfKvs_entries rest hwkr p hp).2) f
                (by
                  have h1 := depth_mem_kvs rest p hp
                  have h2 : tvKvsDepth rest ≤ tvKvsDepth (TvKvs.cons k v rest) := by
                    rw [tvKvsDepth]
                    exact le_max_right _ _
                  omega)⟩),
          show setK TvKvs.nil k v = TvKvs.cons k v TvKvs.nil from rfl,
          foldSetK (kvsEntries rest) (TvKvs.cons k v TvKvs.nil)
            (by rw [kvsEntries_map_fst]; exact hndk.2)
            (fun p hp => by
              have hpk : k ≠ p.1 := by
                intro he
                refine hndk.1 ?_
                rw [he, ← kvsEntries_map_fst]
                exact List.mem_map_of_mem Prod.fst hp
              rw [getK, if_neg hpk]
              rfl),
          ofEntries_kvsEntries]
        rfl

/-! ### TOML: the document fuel suffices -/

theorem depthLen :
    (∀ v, tvDepth v ≤ (toTomlValue v).length) ∧
    (∀ l, tvListDepth l ≤ (toTomlList l).length) ∧
    (∀ k, tvKvsDepth k ≤ (toTomlKvs k).length) := by
  refine ⟨@tvIndV (fun v => tvDepth v ≤ (toTomlValue v).length)
      (fun l => tvListDepth l ≤ (toTomlList l).length)
      (fun k => tvKvsDepth k ≤ (toTomlKvs k).length)
      ?hs ?hi ?hb ?ha ?ht ?hqn ?hqc ?hrn ?hrc,
    @tvIndL (fun v => tvDepth v ≤ (toTomlValue v).length)
      (fun l => tvListDepth l ≤ (toTomlList l).length)
      (fun k => tvKvsDepth k ≤ (toTomlKvs k).length)
      ?hs ?hi ?hb ?ha ?ht ?hqn ?hqc ?hrn ?hrc,
    @tvIndK (fun v => tvDepth v ≤ (toTomlValue v).length)
      (fun l => tvListDepth l ≤ (toTomlList l).length)
      (fun k => tvKvsDepth k ≤ (toTomlKvs k).length)
      ?hs ?hi ?hb ?ha ?ht ?hqn ?hqc ?hrn ?hrc⟩
  case hs => intro s; rw [show tvDepth (Tv.vStr s) = 0 from rfl]; omega
  case hi => intro n; rw [show tvDepth (Tv.vInt n) = 0 from rfl]; omega
  case hb => intro b; rw [show tvDepth (Tv.vBool b) = 0 from rfl]; omega
  case ha =>
    intro xs ih
    rw [show tvDepth (Tv.vArr xs) = tvListDepth xs + 1 from rfl,
      show toTomlValue (Tv.vArr xs) = cLb :: (toTomlList xs ++ [cRb]) from by
        simp [toTomlValue]]
    simp only [List.length_cons, List.length_append, List.length_singleton]
    omega
  case ht =>
    intro kvs ih
    rw [show tvDepth (Tv.vTab kvs) = tvKvsDepth kvs + 1 from rfl,
      show toTomlValue (Tv.vTab kvs)
          = cLc :: (cSp :: (toTomlKvs kvs ++ [cSp, cRc])) from by simp [toTomlValue]]
    simp only [List.length_cons, List.length_append]
    omega
  case hqn =>
    show tvListDepth TvList.nil ≤ (toTomlList TvList.nil).length
    rw [show tvListDepth TvList.nil = 0 from rfl]
    omega
  case hqc =>
    intro x xs ihx ihxs
    rw [show tvListDepth (TvList.cons x xs) = max (tvDepth x) (tvListDepth xs) from rfl]
    cases xs with
    | nil =>
      rw [show toTomlList (TvList.cons x TvList.nil) = toTomlValue x from rfl,
        show tvListDepth TvList.nil = 0 from rfl]
      omega
    | cons y ys =>
      rw [show toTomlList (TvList.cons x (TvList.cons y ys))
          = toTomlValue x ++ cComma :: cSp :: toTomlList (TvList.cons y ys) from rfl,
        List.length_append, List.length_cons, List.length_cons]
      omega
  case hrn =>
    show tvKvsDepth TvKvs.nil ≤ (toTomlKvs TvKvs.nil).length
    rw [show tvKvsDepth TvKvs.nil = 0 from rfl]
    omega
  case hrc =>
    intro k v rest ihv ihr
    rw [show tvKvsDepth (TvKvs.cons k v rest) = max (tvDepth v) (tvKvsDepth rest)
      from rfl]
    cases rest with
    | nil =>
      rw [show tvKvsDepth TvKvs.nil = 0 from rfl,
        show toTomlKvs (TvKvs.cons k v TvKvs.nil) = pairText k v from rfl]
      simp only [pairText, List.length_append, List.length_cons]
      omega
    | cons k2 v2 r2 =>
      rw [kvs_cons_cons_text]
      simp only [pairText, List.length_append, List.length_cons]
      omega

/-! ### TOML: newline splitting of the generated document -/

theorem splitNl_append_line (l : List Char) (hnl : cNl ∉ l) (rest : List Char) :
    splitNl (l ++ cNl :: rest) = l :: splitNl rest := by
  induction l with
  | nil => rw [List.nil_append, splitNl, if_pos rfl]
  | cons c cs ih =>
    have hc : c ≠ cNl := fun he => hnl (he ▸ List.mem_cons_self c cs)
    rw [List.cons_append, splitNl, if_neg hc,
      ih (fun hm => hnl (List.mem_cons_of_mem c hm))]

theorem splitNl_single (l : List Char) (hnl : cNl ∉ l) :
    splitNl (l ++ [cNl]) = [l, []] :=
  splitNl_append_line l hnl []

theorem intercalate_cons2 (sep : List Char) (a b : List Char) (ls : List (List Char)) :
    List.intercalate sep (a :: b :: ls) = a ++ sep ++ List.intercalate sep (b :: ls) := by
  simp [List.intercalate, List.intersperse]

theorem splitNl_intercalate : ∀ lines : List (List Char), lines ≠ [] →
    (∀ l ∈ lines, cNl ∉ l) →
    splitNl (List.intercalate [cNl] lines ++ [cNl]) = lines ++ [[]] := by
  intro lines
  induction lines with
  | nil => intro h; exact absurd rfl h
  | cons l ls ih =>
    intro _ hnl
    cases ls with
    | nil =>
      rw [show List.intercalate [cNl] [l] = l from by simp [List.intercalate],
        splitNl_single l (hnl l (by simp))]
      rfl
    | cons l2 ls2 =>
      have hj : List.intercalate [cNl] (l :: l2 :: ls2)
          = l ++ cNl :: List.intercalate [cNl] (l2 :: ls2) := by
        rw [intercalate_cons2]
        simp
      rw [hj, List.append_assoc,
        show (cNl :: List.intercalate [cNl] (l2 :: ls2)) ++ [cNl]
          = cNl :: (List.intercalate [cNl] (l2 :: ls2) ++ [cNl]) from rfl,
        splitNl_append_line l (hnl l (by simp)) _,
        ih (by simp) (fun x hx => hnl x (List.mem_cons_of_mem l hx))]
      rfl

/-! ### TOML: dotted section paths -/

theorem safeKey_not_mem (k : List Char) (x : Char) (h : safeKey k = true)
    (hx : safeKeyChar x = false) : x ∉ k := by
  intro hm
  simp only [safeKey, decide_eq_true_eq] at h
  have h2 := List.all_eq_true.mp h.2 x hm
  rw [hx] at h2
  exact Bool.noConfusion h2

theorem splitDots_append (p : List Char) (hd : cDot ∉ p) (rest : List Char) :
    splitDots (p ++ cDot :: rest) = p :: splitDots rest := by
  induction p with
  | nil => rw [List.nil_append, splitDots, if_pos rfl]
  | cons c cs ih =>
    have hc : c ≠ cDot := fun he => hd (he ▸ List.mem_cons_self c cs)
    rw [List.cons_append, splitDots, if_neg hc,
      ih (fun hm => hd (List.mem_cons_of_mem c hm))]

theorem splitDots_single (p : List Char) (hd : cDot ∉ p) : splitDots p = [p] := by
  induction p with
  | nil => rfl
  | cons c cs ih =>
    have hc : c ≠ cDot := fun he => hd (he ▸ List.mem_cons_self c cs)
    rw [splitDots, if_neg hc, ih (fun hm => hd (List.mem_cons_of_mem c hm))]

theorem splitDots_joinDots : ∀ parts : List (List Char), parts ≠ [] →
    (∀ p ∈ parts, cDot ∉ p) → splitDots (joinDots parts) = parts := by
  intro parts
  induction parts with
  | nil => intro h; exact absurd rfl h
  | cons p ps ih =>
    intro _ hd
    cases ps with
    | nil =>
      rw [show joinDots [p] = p from by simp [joinDots, List.intercalate],
        splitDots_single p (hd p (by simp))]
    | cons p2 ps2 =>
      have hj : joinDots (p :: p2 :: ps2) = p ++ cDot :: joinDots (p2 :: ps2) := by
        unfold joinDots
        rw [intercalate_cons2]
        simp
      rw [hj, splitDots_append p (hd p (by simp)) _,
        ih (by simp) (fun x hx => hd x (List.mem_cons_of_mem p hx))]

theorem joinDots_snoc : ∀ parts : List (List Char), parts ≠ [] → ∀ k : List Char,
    joinDots (parts ++ [k]) = joinDots parts ++ cDot :: k := by
  intro parts
  induction parts with
  | nil => intro h; exact absurd rfl h
  | cons p ps ih =>
    intro _ k
    cases ps with
    | nil =>
      have h1 : joinDots ([p] ++ [k]) = p ++ [cDot] ++ List.intercalate [cDot] [k] := by
        unfold joinDots
        exact intercalate_cons2 [cDot] p k []
      rw [h1, show List.intercalate [cDot] [k] = k from by
        simp [List.intercalate, List.intersperse],
        show joinDots [p] = p from by simp [joinDots, List.intercalate, List.intersperse]]
      simp
    | cons p2 ps2 =>
      have h1 : joinDots ((p :: p2 :: ps2) ++ [k])
          = p ++ [cDot] ++ joinDots ((p2 :: ps2) ++ [k]) := by
        unfold joinDots
        exact intercalate_cons2 [cDot] p p2 (ps2 ++ [k])
      have h2 : joinDots (p :: p2 :: ps2) = p ++ [cDot] ++ joinDots (p2 :: ps2) := by
        unfold joinDots
        exact intercalate_cons2 [cDot] p p2 ps2
      rw [h1, ih (by simp) k, h2]
      simp

/-! ### TOML: path navigation lemmas for the section parser -/

theorem getK_setK_self : ∀ (t : TvKvs) (k : List Char) (v : Tv),
    getK (setK t k v) k = some v
  | TvKvs.nil => by intro k v; simp [setK, getK]
  | TvKvs.cons k0 v0 rest => by
    intro k v
    rw [setK]
    by_cases h0 : k0 = k
    · rw [if_pos h0, getK, if_pos h0]
    · rw [if_neg h0, getK, if_neg h0, getK_setK_self rest]
termination_by structural t => t

theorem setK_setK_self : ∀ (t : TvKvs) (k : List Char) (a b : Tv),
    setK (setK t k a) k b = setK t k b
  | TvKvs.nil => by intro k a b; simp [setK]
  | TvKvs.cons k0 v0 rest => by
    intro k a b
    rw [setK]
    by_cases h0 : k0 = k
    · rw [if_pos h0, setK, if_pos h0, setK, if_pos h0]
    · rw [if_neg h0, setK, if_neg h0, setK, if_neg h0, setK_setK_self rest]
termination_by structural t => t

theorem setK_self : ∀ (t : TvKvs) (k : List Char) (v : Tv),
    getK t k = some v → setK t k v = t
  | TvKvs.nil => by
    intro k v h
    rw [getK] at h
    exact Option.noConfusion h
  | TvKvs.cons k0 v0 rest => by
    intro k v h
    rw [getK] at h
    rw [setK]
    by_cases h0 : k0 = k
    · rw [if_pos h0] at h
      rw [if_pos h0, Option.some.injEq] at *
      rw [h]
    · rw [if_neg h0] at h
      rw [if_neg h0, setK_self rest k v h]
termination_by structural t => t

theorem updateAtPath_comp : ∀ (path : List (List Char)) (root : TvKvs)
    (f g : TvKvs → TvKvs),
    updateAtPath (updateAtPath root path f) path g
      = updateAtPath root path (fun s => g (f s)) := by
  intro path
  induction path with
  | nil => intro root f g; rfl
  | cons p ps ih =>
    intro root f g
    simp only [updateAtPath, getK_setK_self]
    rw [setK_setK_self, ih]

theorem updateAtPath_congr : ∀ (path : List (List Char)) (root t : TvKvs)
    (f g : TvKvs → TvKvs),
    getPathK root path = some t → f t = g t →
    updateAtPath root path f = updateAtPath root path g := by
  intro path
  induction path with
  | nil =>
    intro root t f g hg hfg
    rw [getPathK, Option.some.injEq] at hg
    subst hg
    simpa [updateAtPath] using hfg
  | cons p ps ih =>
    intro root t f g hg hfg
    rw [getPathK] at hg
    cases hgk : getK root p with
    | none => rw [hgk] at hg; simp at hg
    | some w =>
      rw [hgk] at hg
      cases w with
      | vTab sub =>
        simp only [updateAtPath, hgk]
        rw [ih sub t f g hg hfg]
      | vStr s => simp at hg
      | vInt n => simp at hg
      | vBool b => simp at hg
      | vArr xs => simp at hg

theorem updateAtPath_id : ∀ (path : List (List Char)) (root t : TvKvs),
    getPathK root path = some t → updateAtPath root path (fun s => s) = root := by
  intro path
  induction path with
  | nil => intro root t _; rfl
  | cons p ps ih =>
    intro root t hg
    rw [getPathK] at hg
    cases hgk : getK root p with
    | none => rw [hgk] at hg; simp at hg
    | some w =>
      rw [hgk] at hg
      cases w with
      | vTab sub =>
        simp only [updateAtPath, hgk]
        rw [ih sub t hg]
        exact setK_self root p (Tv.vTab sub) hgk
      | vStr s => simp at hg
      | vInt n => simp at hg
      | vBool b => simp at hg
      | vArr xs => simp at hg

theorem getPathK_update : ∀ (path : List (List Char)) (root t : TvKvs)
    (f : TvKvs → TvKvs),
    getPathK root path = some t →
    getPathK (updateAtPath root path f) path = some (f t) := by
  intro path
  induction path with
  | nil =>
    intro root t f hg
    rw [getPathK, Option.some.injEq] at hg
    subst hg
    rfl
  | cons p ps ih =>
    intro root t f hg
    rw [getPathK] at hg
    cases hgk : getK root p with
    | none => rw [hgk] at hg; simp at hg
    | some w =>
      rw [hgk] at hg
      cases w with
      | vTab sub =>
        simp only [updateAtPath, hgk, getPathK, getK_setK_self]
        exact ih sub t f hg
      | vStr s => simp at hg
      | vInt n => simp at hg
      | vBool b => simp at hg
      | vArr xs => simp at hg

theorem setPath_snoc : ∀ (path : List (List Char)) (root : TvKvs) (k : List Char)
    (v : Tv),
    setPath root (path ++ [k]) v = updateAtPath root path (fun s => setK s k v) := by
  intro path
  induction path with
  | nil => intro root k v; rfl
  | cons p ps ih =>
    intro root k v
    cases ps with
    | nil => rfl
    | cons p2 ps2 =>
      rw [show (p :: p2 :: ps2) ++ [k] = p :: p2 :: (ps2 ++ [k]) from rfl]
      rw [setPath, updateAtPath,
        show p2 :: (ps2 ++ [k]) = (p2 :: ps2) ++ [k] from rfl, ih]
      simp

theorem addable_nil : ∀ ps : List (List Char), ps ≠ [] → AddableAt TvKvs.nil ps := by
  intro ps hne
  cases ps with
  | nil => exact absurd rfl hne
  | cons p ps2 =>
    cases ps2 with
    | nil => rfl
    | cons p2 ps3 => exact Or.inl rfl

theorem setPath_cc_none (root : TvKvs) (p p2 : List Char) (ps2 : List (List Char))
    (v : Tv) (hg : getK root p = none) :
    setPath root (p :: p2 :: ps2) v
      = setK root p (Tv.vTab (setPath TvKvs.nil (p2 :: ps2) v)) := by
  rw [setPath, hg]
  simp

theorem setPath_cc_tab (root t : TvKvs) (p p2 : List Char) (ps2 : List (List Char))
    (v : Tv) (hg : getK root p = some (Tv.vTab t)) :
    setPath root (p :: p2 :: ps2) v
      = setK root p (Tv.vTab (setPath t (p2 :: ps2) v)) := by
  rw [setPath, hg]
  simp

theorem ensurePath_cons_none (root : TvKvs) (p : List Char) (ps : List (List Char))
    (hg : getK root p = none) :
    ensurePath root (p :: ps) = setK root p (Tv.vTab (ensurePath TvKvs.nil ps)) := by
  rw [ensurePath, hg]

theorem ensurePath_cons_tab (root t : TvKvs) (p : List Char) (ps : List (List Char))
    (hg : getK root p = some (Tv.vTab t)) :
    ensurePath root (p :: ps) = setK root p (Tv.vTab (ensurePath t ps)) := by
  rw [ensurePath, hg]

theorem updateAtPath_cons_none (root : TvKvs) (p : List Char) (ps : List (List Char))
    (f : TvKvs → TvKvs) (hg : getK root p = none) :
    updateAtPath root (p :: ps) f
      = setK root p (Tv.vTab (updateAtPath TvKvs.nil ps f)) := by
  rw [updateAtPath, hg]

theorem updateAtPath_cons_tab (root t : TvKvs) (p : List Char) (ps : List (List Char))
    (f : TvKvs → TvKvs) (hg : getK root p = some (Tv.vTab t)) :
    updateAtPath root (p :: ps) f
      = setK root p (Tv.vTab (updateAtPath t ps f)) := by
  rw [updateAtPath, hg]

theorem getPathK_cons_tab (root t : TvKvs) (p : List Char) (ps : List (List Char))
    (hg : getK root p = some (Tv.vTab t)) :
    getPathK root (p :: ps) = getPathK t ps := by
  rw [getPathK, hg]

theorem ensure_addable : ∀ (parts : List (List Char)) (root : TvKvs),
    AddableAt root parts →
    ensurePath root parts = setPath root parts (Tv.vTab TvKvs.nil) := by
  intro parts
  induction parts with
  | nil => intro root h; exact absurd h (fun x => x)
  | cons p ps ih =>
    intro root h
    cases ps with
    | nil =>
      have h' : getK root p = none := h
      rw [ensurePath_cons_none root p [] h']
      rfl
    | cons p2 ps2 =>
      rcases h with h | ⟨t, hg, ht⟩
      · rw [ensurePath_cons_none root p _ h,
          ih TvKvs.nil (addable_nil (p2 :: ps2) (by simp)),
          setPath_cc_none root p p2 ps2 _ h]
      · rw [ensurePath_cons_tab root t p _ hg, ih t ht,
          setPath_cc_tab root t p p2 ps2 _ hg]

theorem getPathK_setPath : ∀ (parts : List (List Char)) (root : TvKvs) (X : TvKvs),
    AddableAt root parts →
    getPathK (setPath root parts (Tv.vTab X)) parts = some X := by
  intro parts
  induction parts with
  | nil => intro root X h; exact absurd h (fun x => x)
  | cons p ps ih =>
    intro root X h
    cases ps with
    | nil =>
      rw [show setPath root [p] (Tv.vTab X) = setK root p (Tv.vTab X) from rfl,
        getPathK, getK_setK_self]
      rfl
    | cons p2 ps2 =>
      rcases h with h | ⟨t, hg, ht⟩
      · rw [setPath_cc_none root p p2 ps2 _ h, getPathK, getK_setK_self]
        exact ih TvKvs.nil X (addable_nil (p2 :: ps2) (by simp))
      · rw [setPath_cc_tab root t p p2 ps2 _ hg, getPathK, getK_setK_self]
        exact ih t X ht

theorem update_setPath : ∀ (parts : List (List Char)) (root : TvKvs) (X : TvKvs)
    (f : TvKvs → TvKvs),
    AddableAt root parts →
    updateAtPath (setPath root parts (Tv.vTab X)) parts f
      = setPath root parts (Tv.vTab (f X)) := by
  intro parts
  induction parts with
  | nil => intro root X f h; exact absurd h (fun x => x)
  | cons p ps ih =>
    intro root X f h
    cases ps with
    | nil =>
      rw [show setPath root [p] (Tv.vTab X) = setK root p (Tv.vTab X) from rfl,
        updateAtPath_cons_tab _ X p [] f (getK_setK_self root p (Tv.vTab X)),
        setK_setK_self]
      rfl
    | cons p2 ps2 =>
      rcases h with h | ⟨t, hg, ht⟩
      · rw [setPath_cc_none root p p2 ps2 _ h,
          updateAtPath_cons_tab _ _ p _ f (getK_setK_self root p _),
          setK_setK_self, ih TvKvs.nil X f (addable_nil (p2 :: ps2) (by simp)),
          setPath_cc_none root p p2 ps2 _ h]
      · rw [setPath_cc_tab root t p p2 ps2 _ hg,
          updateAtPath_cons_tab _ _ p _ f (getK_setK_self root p _),
          setK_setK_self, ih t X f ht,
          setPath_cc_tab root t p p2 ps2 _ hg]

theorem addable_ext : ∀ (parts : List (List Char)) (root : TvKvs) (k : List Char),
    AddableAt root parts → AddableAt root (parts ++ [k]) := by
  intro parts
  induction parts with
  | nil => intro root k h; exact absurd h (fun x => x)
  | cons p ps ih =>
    intro root k h
    cases ps with
    | nil => exact Or.inl h
    | cons p2 ps2 =>
      rcases h with h | ⟨t, hg, ht⟩
      · exact Or.inl h
      · exact Or.inr ⟨t, hg, ih t k ht⟩

theorem addable_of_get : ∀ (parts : List (List Char)) (root t : TvKvs)
    (k : List Char),
    getPathK root parts = some t → getK t k = none → AddableAt root (parts ++ [k]) := by
  intro parts
  induction parts with
  | nil =>
    intro root t k hg hk
    rw [getPathK, Option.some.injEq] at hg
    subst hg
    exact hk
  | cons p ps ih =>
    intro root t k hg hk
    rw [getPathK] at hg
    cases hgk : getK root p with
    | none => rw [hgk] at hg; simp at hg
    | some w =>
      rw [hgk] at hg
      cases w with
      | vTab sub =>
        cases ps with
        | nil =>
          have hg2 : some sub = some t := hg
          rw [Option.some.injEq] at hg2
          exact Or.inr ⟨sub, hgk, by rw [hg2]; exact hk⟩
        | cons p2 ps2 => exact Or.inr ⟨sub, hgk, ih sub t k hg hk⟩
      | vStr s => simp at hg
      | vInt n => simp at hg
      | vBool b => simp at hg
      | vArr xs => simp at hg

theorem setPath_deep : ∀ (parts : List (List Char)) (root : TvKvs) (k : List Char)
    (w : Tv),
    AddableAt root parts →
    setPath root (parts ++ [k]) w
      = setPath root parts (Tv.vTab (TvKvs.cons k w TvKvs.nil)) := by
  intro parts
  induction parts with
  | nil => intro root k w h; exact absurd h (fun x => x)
  | cons p ps ih =>
    intro root k w h
    cases ps with
    | nil =>
      have h' : getK root p = none := h
      rw [show ([p] : List (List Char)) ++ [k] = [p, k] from rfl,
        setPath_cc_none root p k [] w h']
      rfl
    | cons p2 ps2 =>
      rcases h with h | ⟨t, hg, ht⟩
      · rw [show (p :: p2 :: ps2) ++ [k] = p :: p2 :: (ps2 ++ [k]) from rfl,
          setPath_cc_none root p p2 (ps2 ++ [k]) w h,
          show p2 :: (ps2 ++ [k]) = (p2 :: ps2) ++ [k] from rfl,
          ih TvKvs.nil k w (addable_nil (p2 :: ps2) (by simp)),
          setPath_cc_none root p p2 ps2 _ h]
      · rw [show (p :: p2 :: ps2) ++ [k] = p :: p2 :: (ps2 ++ [k]) from rfl,
          setPath_cc_tab root t p p2 (ps2 ++ [k]) w hg,
          show p2 :: (ps2 ++ [k]) = (p2 :: ps2) ++ [k] from rfl,
          ih t k w ht,
          setPath_cc_tab root t p p2 ps2 _ hg]

/-! ### TOML: line classification and single-line processing -/

theorem safe_not_ws (c : Char) (h : safeKeyChar c = true) : isWsChar c = false := by
  have h1 := safe_ne c cSp h (by decide)
  have h2 := safe_ne c cTab h (by decide)
  have h3 := safe_ne c cNl h (by decide)
  have h4 := safe_ne c cCr h (by decide)
  simp [isWsChar, h1, h2, h3, h4]

theorem safeKey_trimmedNe (k : List Char) (h : safeKey k = true) : trimmedNe k = true := by
  simp only [safeKey, decide_eq_true_eq] at h
  obtain ⟨hne, hall⟩ := h
  obtain ⟨b, hb, hpb⟩ := getLast?_all k hne hall
  cases k with
  | nil => exact absurd rfl hne
  | cons a tl =>
    refine trimmedNe_of_head_last _ a b rfl hb ?_ (safe_not_ws b hpb)
    exact safe_not_ws a (List.all_eq_true.mp hall a (List.mem_cons_self a tl))

theorem joinDots_single (p : List Char) : joinDots [p] = p := by
  simp [joinDots, List.intercalate]

theorem joinDots_trimmedNe : ∀ parts : List (List Char), parts ≠ [] →
    (∀ p ∈ parts, safeKey p = true) → trimmedNe (joinDots parts) = true := by
  intro parts
  induction parts with
  | nil => intro h; exact absurd rfl h
  | cons p ps ih =>
    intro _ hs
    cases ps with
    | nil => rw [joinDots_single]; exact safeKey_trimmedNe p (hs p (by simp))
    | cons p2 ps2 =>
      have hj : joinDots (p :: p2 :: ps2) = p ++ cDot :: joinDots (p2 :: ps2) := by
        unfold joinDots
        rw [intercalate_cons2]
        simp
      have hih := ih (by simp) (fun x hx => hs x (List.mem_cons_of_mem p hx))
      obtain ⟨a, b, hha, hhb, hwa, hwb⟩ := trimmedNe_dest _ hih
      have hpsafe := hs p (List.mem_cons_self p (p2 :: ps2))
      simp only [safeKey, decide_eq_true_eq] at hpsafe
      obtain ⟨hpne, hpall⟩ := hpsafe
      obtain ⟨c, tl, hp⟩ : ∃ c tl, p = c :: tl := by
        cases p with
        | nil => exact absurd rfl hpne
        | cons c tl => exact ⟨c, tl, rfl⟩
      refine trimmedNe_of_head_last _ c b ?_ ?_ ?_ hwb
      · rw [hj]; exact head?_append_left p _ c tl hp
      · rw [hj]
        have hne2 : joinDots (p2 :: ps2) ≠ [] := by
          intro he
          rw [he] at hha
          exact Option.noConfusion hha
        rw [getLast?_append_right p _ (by simp),
          show cDot :: joinDots (p2 :: ps2) = [cDot] ++ joinDots (p2 :: ps2) from rfl,
          getLast?_append_right [cDot] _ hne2]
        exact hhb
      · refine safe_not_ws c (List.all_eq_true.mp hpall c ?_)
        rw [hp]
        exact List.mem_cons_self c tl

theorem header_isHeaderLine (p : List Char) :
    isHeaderLine (cLb :: p ++ [cRb]) = true := by
  have htr : trimToml (cLb :: p ++ [cRb]) = cLb :: p ++ [cRb] :=
    trimToml_id _ (trimmedNe_of_head_last _ cLb cRb rfl (getLast?_wrap cLb cRb p)
      (by decide) (by decide))
  simp only [isHeaderLine, htr, decide_eq_true_eq]
  refine ⟨by simp, ?_, ?_, ?_⟩
  · rw [show (cLb :: p) ++ [cRb] = cLb :: (p ++ [cRb]) from rfl, headIs_cons]
    decide
  · rw [show (cLb :: p) ++ [cRb] = cLb :: (p ++ [cRb]) from rfl, headIs_cons]
    decide
  · rw [lastIs_concat]
    decide

theorem emptyLine_proc (rest : List (List Char)) (root : TvKvs)
    (path : List (List Char)) :
    parseLinesGo ([] :: rest) root path = parseLinesGo rest root path := rfl

theorem pathIrrel_nil : PathIrrelevant [] := fun _ _ _ => rfl

theorem pathIrrel_blank : PathIrrelevant [[]] := fun _ _ _ => rfl

theorem pathIrrel_header (l : List Char) (rest : List (List Char))
    (h : isHeaderLine l = true) : PathIrrelevant (l :: rest) := by
  intro root p q
  simp only [isHeaderLine, decide_eq_true_eq] at h
  obtain ⟨hne, hnh, hlb, hrb⟩ := h
  simp only [parseLinesGo]
  rw [if_neg hne, if_neg hnh, if_pos ⟨hlb, hrb⟩,
    if_neg hne, if_neg hnh, if_pos ⟨hlb, hrb⟩]

theorem kvLine_proc (rest : List (List Char)) (root : TvKvs)
    (path : List (List Char)) (k : List Char) (v : Tv)
    (hsafe : safeKey k = true) (hwf : wfTv v = true) :
    parseLinesGo ((k ++ [cSp, cEq, cSp] ++ toTomlValue v) :: rest) root path
      = parseLinesGo rest
          (updateAtPath root path (fun sec => setK sec k v)) path := by
  have hall : k.all safeKeyChar = true := by
    simp only [safeKey, decide_eq_true_eq] at hsafe
    exact hsafe.2
  obtain ⟨c, k', hk⟩ : ∃ c k', k = c :: k' := by
    simp only [safeKey, decide_eq_true_eq] at hsafe
    cases k with
    | nil => exact absurd rfl hsafe.1
    | cons c k' => exact ⟨c, k', rfl⟩
  have hcsafe : safeKeyChar c = true := by
    refine List.all_eq_true.mp hall c ?_
    rw [hk]
    exact List.mem_cons_self c k'
  have hshape : k ++ [cSp, cEq, cSp] ++ toTomlValue v
      = (k ++ [cSp]) ++ cEq :: (cSp :: toTomlValue v) := by simp
  have htrim : trimToml (k ++ [cSp, cEq, cSp] ++ toTomlValue v)
      = k ++ [cSp, cEq, cSp] ++ toTomlValue v := by
    refine trimToml_id _ ?_
    obtain ⟨a, b, hha, hhb, hwa, hwb⟩ := trimmedNe_dest _ (toTomlValue_trimmedNe v)
    refine trimmedNe_of_head_last _ c b ?_ ?_ (safe_not_ws c hcsafe) hwb
    · exact head?_append_left _ _ c (k' ++ [cSp, cEq, cSp]) (by rw [hk]; simp)
    · rw [getLast?_append_right _ _ (toTomlValue_ne_nil v)]
      exact hhb
  have hne : ¬ (k ++ [cSp, cEq, cSp] ++ toTomlValue v = []) := by
    rw [hk]; simp
  have hhash : ¬ (headIs (k ++ [cSp, cEq, cSp] ++ toTomlValue v) cHash = true) := by
    rw [hk, show ((c :: k') ++ [cSp, cEq, cSp]) ++ toTomlValue v
      = c :: ((k' ++ [cSp, cEq, cSp]) ++ toTomlValue v) from by simp, headIs_cons]
    simp [safe_ne c cHash hcsafe (by decide)]
  have hlb : ¬ (headIs (k ++ [cSp, cEq, cSp] ++ toTomlValue v) cLb = true
      ∧ lastIs (k ++ [cSp, cEq, cSp] ++ toTomlValue v) cRb = true) := by
    rw [hk, show ((c :: k') ++ [cSp, cEq, cSp]) ++ toTomlValue v
      = c :: ((k' ++ [cSp, cEq, cSp]) ++ toTomlValue v) from by simp, headIs_cons]
    intro hcontra
    have h1 := hcontra.1
    simp [safe_ne c cLb hcsafe (by decide)] at h1
  have hnoeq : cEq ∉ k ++ [cSp] := by
    intro hm
    rcases List.mem_append.mp hm with hm | hm
    · exact absurd (List.all_eq_true.mp hall cEq hm) (by decide)
    · simp +decide at hm
  have hidx : firstIdx (k ++ [cSp, cEq, cSp] ++ toTomlValue v) cEq
      = some ((k ++ [cSp]).length) := by
    rw [hshape]
    exact firstIdx_append _ _ cEq hnoeq
  have htake : (k ++ [cSp, cEq, cSp] ++ toTomlValue v).take ((k ++ [cSp]).length)
      = k ++ [cSp] := by
    rw [hshape]
    exact List.take_left _ _
  have hdrop : (k ++ [cSp, cEq, cSp] ++ toTomlValue v).drop ((k ++ [cSp]).length + 1)
      = cSp :: toTomlValue v := by
    rw [hshape,
      show (k ++ [cSp]) ++ cEq :: (cSp :: toTomlValue v)
        = ((k ++ [cSp]) ++ [cEq]) ++ (cSp :: toTomlValue v) by simp]
    exact List.drop_left' (by simp)
  have hkey : trimToml (k ++ [cSp]) = k :=
    trimToml_snoc k cSp (by decide) (safeKey_trimmedNe k hsafe)
  have hval : trimToml (cSp :: toTomlValue v) = toTomlValue v :=
    trimToml_cons_sp _ (toTomlValue_trimmedNe v)
  have hparse : parseTomlValueF ((toTomlValue v).length + 1) (toTomlValue v) = v :=
    valRtV_all v hwf _ (Nat.lt_succ_of_le (depthLen.1 v))
  simp only [parseLinesGo, htrim, hidx]
  rw [if_neg hne, if_neg hhash, if_neg hlb,
    if_neg (show ¬ ((k ++ [cSp]).length = 0) by simp)]
  rw [htake, hdrop, hkey, hval, hparse]

theorem headerLine_proc (rest : List (List Char)) (root : TvKvs)
    (path : List (List Char)) (parts : List (List Char))
    (hpne : parts ≠ []) (hps : ∀ p ∈ parts, safeKey p = true) :
    parseLinesGo ((cLb :: joinDots parts ++ [cRb]) :: rest) root path
      = parseLinesGo rest (ensurePath root parts) parts := by
  have htr : trimToml (cLb :: joinDots parts ++ [cRb])
      = cLb :: joinDots parts ++ [cRb] :=
    trimToml_id _ (trimmedNe_of_head_last _ cLb cRb rfl
      (getLast?_wrap cLb cRb (joinDots parts)) (by decide) (by decide))
  have hne : ¬ (cLb :: joinDots parts ++ [cRb] = []) := by simp
  have hhash : ¬ (headIs (cLb :: joinDots parts ++ [cRb]) cHash = true) := by
    rw [show (cLb :: joinDots parts) ++ [cRb]
      = cLb :: (joinDots parts ++ [cRb]) from rfl, headIs_cons]
    decide
  have hhdr : headIs (cLb :: joinDots parts ++ [cRb]) cLb = true
      ∧ lastIs (cLb :: joinDots parts ++ [cRb]) cRb = true := by
    constructor
    · rw [show (cLb :: joinDots parts) ++ [cRb]
        = cLb :: (joinDots parts ++ [cRb]) from rfl, headIs_cons]
      decide
    · rw [lastIs_concat]
      decide
  have hsec : trimToml (sliceEnds (cLb :: joinDots parts ++ [cRb]))
      = joinDots parts := by
    rw [show (cLb :: joinDots parts) ++ [cRb]
      = cLb :: (joinDots parts ++ [cRb]) from rfl, sliceEnds_wrap,
      trimToml_id _ (joinDots_trimmedNe parts hpne hps)]
  have hsplit : splitDots (joinDots parts) = parts :=
    splitDots_joinDots parts hpne
      (fun p hp => safeKey_not_mem p cDot (hps p hp) (by decide))
  simp only [parseLinesGo, htr]
  rw [if_neg hne, if_neg hhash, if_pos hhdr, hsec, hsplit]

/-! ### TOML: shape of the generated section blocks -/

theorem wfTab_dest (kvs : TvKvs) (h : wfTv (Tv.vTab kvs) = true) :
    kvs ≠ TvKvs.nil ∧ (kvsKeys kvs).Nodup ∧ wfKvs kvs = true := by
  cases kvs with
  | nil => exact absurd h (by decide)
  | cons k v r =>
    rw [show wfTv (Tv.vTab (TvKvs.cons k v r))
      = (true && decide ((kvsKeys (TvKvs.cons k v r)).Nodup) &&
          wfKvs (TvKvs.cons k v r)) from rfl,
      Bool.true_and, Bool.and_eq_true, decide_eq_true_eq] at h
    exact ⟨by simp, h.1, h.2⟩

theorem pathIrr_lines :
    (∀ v : Tv, ∀ path rest, PathIrrelevant rest →
      PathIrrelevant (sectionLines path v ++ rest)) ∧
    (∀ kvs : TvKvs, ∀ path rest, PathIrrelevant rest →
      PathIrrelevant (sectionSubs path kvs ++ rest)) := by
  refine ⟨@tvIndV (fun v => ∀ path rest, PathIrrelevant rest →
      PathIrrelevant (sectionLines path v ++ rest))
      (fun _ => True)
      (fun kvs => ∀ path rest, PathIrrelevant rest →
        PathIrrelevant (sectionSubs path kvs ++ rest))
      ?hs ?hi ?hb ?ha ?ht ?hqn ?hqc ?hrn ?hrc,
    @tvIndK (fun v => ∀ path rest, PathIrrelevant rest →
      PathIrrelevant (sectionLines path v ++ rest))
      (fun _ => True)
      (fun kvs => ∀ path rest, PathIrrelevant rest →
        PathIrrelevant (sectionSubs path kvs ++ rest))
      ?hs ?hi ?hb ?ha ?ht ?hqn ?hqc ?hrn ?hrc⟩
  case hs => intro s path rest h; exact h
  case hi => intro n path rest h; exact h
  case hb => intro b path rest h; exact h
  case ha => intro xs _ path rest h; exact h
  case ht =>
    intro kvs hk path rest h
    by_cases hsimp : simpleLines kvs = []
    · simp only [sectionLines]
      rw [if_pos hsimp, List.nil_append]
      exact hk path rest h
    · simp only [sectionLines]
      rw [if_neg hsimp]
      exact pathIrrel_header _ _ (header_isHeaderLine path)
  case hqn => trivial
  case hqc => intro x xs _ _; trivial
  case hrn => intro path rest h; exact h
  case hrc =>
    intro k v r hv hr path rest h
    by_cases htv : isTabV v = true
    · rw [sectionSubs, if_pos htv, List.append_assoc]
      exact hv _ _ (hr path rest h)
    · rw [sectionSubs, if_neg htv, List.nil_append]
      exact hr path rest h

theorem simpleLines_cons_iff (k : List Char) (v : Tv) (r : TvKvs)
    (h : simpleLines (TvKvs.cons k v r) = []) :
    isTabV v = true ∧ simpleLines r = [] := by
  rw [simpleLines] at h
  by_cases ht : isTabV v = true
  · rw [if_pos ht] at h
    exact ⟨ht, h⟩
  · rw [if_neg ht] at h
    exact absurd h (by simp)

theorem simpleOf_nil_of : ∀ kvs : TvKvs,
    simpleLines kvs = [] → simpleOfKvs kvs = TvKvs.nil
  | TvKvs.nil => fun _ => rfl
  | TvKvs.cons k v r => by
    intro h
    obtain ⟨ht, hr⟩ := simpleLines_cons_iff k v r h
    rw [simpleOfKvs, if_pos ht, simpleOf_nil_of r hr]
termination_by structural kvs => kvs

theorem sectionLines_ne :
    (∀ v : Tv, ∀ path, wfTv v = true → isTabV v = true →
      sectionLines path v ≠ []) ∧
    (∀ kvs : TvKvs, ∀ path, wfKvs kvs = true → kvs ≠ TvKvs.nil →
      sectionLines path (Tv.vTab kvs) ≠ []) := by
  refine ⟨@tvIndV (fun v => ∀ path, wfTv v = true → isTabV v = true →
      sectionLines path v ≠ [])
      (fun _ => True)
      (fun kvs => ∀ path, wfKvs kvs = true → kvs ≠ TvKvs.nil →
        sectionLines path (Tv.vTab kvs) ≠ [])
      ?hs ?hi ?hb ?ha ?ht ?hqn ?hqc ?hrn ?hrc,
    @tvIndK (fun v => ∀ path, wfTv v = true → isTabV v = true →
      sectionLines path v ≠ [])
      (fun _ => True)
      (fun kvs => ∀ path, wfKvs kvs = true → kvs ≠ TvKvs.nil →
        sectionLines path (Tv.vTab kvs) ≠ [])
      ?hs ?hi ?hb ?ha ?ht ?hqn ?hqc ?hrn ?hrc⟩
  case hs => intro s path _ htv; exact Bool.noConfusion htv
  case hi => intro n path _ htv; exact Bool.noConfusion htv
  case hb => intro b path _ htv; exact Bool.noConfusion htv
  case ha => intro xs _ path _ htv; exact Bool.noConfusion htv
  case ht =>
    intro kvs hk path hwf _
    obtain ⟨hne, hnd, hwfk⟩ := wfTab_dest kvs hwf
    exact hk path hwfk hne
  case hqn => trivial
  case hqc => intro x xs _ _; trivial
  case hrn => intro path _ hne; exact absurd rfl hne
  case hrc =>
    intro k v r hv hr path hwfk _
    by_cases hsimp : simpleLines (TvKvs.cons k v r) = []
    · obtain ⟨htv, hsr⟩ := simpleLines_cons_iff k v r hsimp
      have hwfv : wfTv v = true := by
        rw [wfKvs, Bool.and_eq_true, Bool.and_eq_true] at hwfk
        exact hwfk.1.2
      have h1 : sectionLines (path ++ cDot :: k) v ≠ [] := hv _ hwfv htv
      simp only [sectionLines]
      rw [if_pos hsimp, List.nil_append, sectionSubs, if_pos htv]
      intro hcontra
      rcases List.append_eq_nil.mp hcontra with ⟨h2, _⟩
      exact h1 h2
    · simp only [sectionLines]
      rw [if_neg hsimp]
      simp

theorem lines_no_nl :
    (∀ v : Tv, ∀ path, wfTv v = true → cNl ∉ path →
      ∀ l ∈ sectionLines path v, cNl ∉ l) ∧
    (∀ kvs : TvKvs, wfKvs kvs = true →
      (∀ l ∈ simpleLines kvs, cNl ∉ l) ∧
      (∀ path, cNl ∉ path → ∀ l ∈ sectionSubs path kvs, cNl ∉ l)) := by
  refine ⟨@tvIndV (fun v => ∀ path, wfTv v = true → cNl ∉ path →
      ∀ l ∈ sectionLines path v, cNl ∉ l)
      (fun _ => True)
      (fun kvs => wfKvs kvs = true →
        (∀ l ∈ simpleLines kvs, cNl ∉ l) ∧
        (∀ path, cNl ∉ path → ∀ l ∈ sectionSubs path kvs, cNl ∉ l))
      ?hs ?hi ?hb ?ha ?ht ?hqn ?hqc ?hrn ?hrc,
    @tvIndK (fun v => ∀ path, wfTv v = true → cNl ∉ path →
      ∀ l ∈ sectionLines path v, cNl ∉ l)
      (fun _ => True)
      (fun kvs => wfKvs kvs = true →
        (∀ l ∈ simpleLines kvs, cNl ∉ l) ∧
        (∀ path, cNl ∉ path → ∀ l ∈ sectionSubs path kvs, cNl ∉ l))
      ?hs ?hi ?hb ?ha ?ht ?hqn ?hqc ?hrn ?hrc⟩
  case hs => intro s path _ _ l hl; exact absurd hl (List.not_mem_nil l)
  case hi => intro n path _ _ l hl; exact absurd hl (List.not_mem_nil l)
  case hb => intro b path _ _ l hl; exact absurd hl (List.not_mem_nil l)
  case ha => intro xs _ path _ _ l hl; exact absurd hl (List.not_mem_nil l)
  case ht =>
    intro kvs hk path hwf hpnl l hl
    obtain ⟨hne0, hnd0, hwfk0⟩ := wfTab_dest kvs hwf
    simp only [sectionLines] at hl
    rcases List.mem_append.mp hl with hl | hl
    · by_cases hsimp : simpleLines kvs = []
      · rw [if_pos hsimp] at hl
        exact absurd hl (List.not_mem_nil l)
      · rw [if_neg hsimp] at hl
        rcases List.mem_cons.mp hl with hl | hl
        · subst hl
          intro hm
          rcases List.mem_append.mp hm with hm | hm
          · rcases List.mem_cons.mp hm with hm | hm
            · exact absurd hm (by decide)
            · exact hpnl hm
          · simp +decide at hm
        · exact (hk hwfk0).1 l hl
    · exact (hk hwfk0).2 path hpnl l hl
  case hqn => trivial
  case hqc => intro x xs _ _; trivial
  case hrn =>
    intro _
    exact ⟨fun l hl => absurd hl (List.not_mem_nil l),
      fun path _ l hl => absurd hl (List.not_mem_nil l)⟩
  case hrc =>
    intro k v r hv hr hwfk
    rw [wfKvs, Bool.and_eq_true, Bool.and_eq_true] at hwfk
    constructor
    · intro l hl
      by_cases htv : isTabV v = true
      · rw [simpleLines, if_pos htv] at hl
        exact (hr hwfk.2).1 l hl
      · rw [simpleLines, if_neg htv] at hl
        rcases List.mem_cons.mp hl with hl | hl
        · subst hl
          intro hm
          rcases List.mem_append.mp hm with hm | hm
          · rcases List.mem_append.mp hm with hm | hm
            · exact safeKey_not_mem k cNl hwfk.1.1 (by decide) hm
            · simp +decide at hm
          · exact toToml_no_nl.1 v hm
        · exact (hr hwfk.2).1 l hl
    · intro path hpnl l hl
      by_cases htv : isTabV v = true
      · rw [sectionSubs, if_pos htv] at hl
        rcases List.mem_append.mp hl with hl | hl
        · refine hv _ hwfk.1.2 ?_ l hl
          intro hm
          rcases List.mem_append.mp hm with hm | hm
          · exact hpnl hm
          · rcases List.mem_cons.mp hm with hm | hm
            · exact absurd hm (by decide)
            · exact safeKey_not_mem k cNl hwfk.1.1 (by decide) hm
        · exact (hr hwfk.2).2 path hpnl l hl
      · rw [sectionSubs, if_neg htv, List.nil_append] at hl
        exact (hr hwfk.2).2 path hpnl l hl

theorem topSections_no_nl : ∀ kvs : TvKvs, wfKvs kvs = true →
    ∀ l ∈ topSections kvs, cNl ∉ l
  | TvKvs.nil => by intro _ l hl; exact absurd hl (List.not_mem_nil l)
  | TvKvs.cons k v r => by
    intro hwf l hl
    rw [wfKvs, Bool.and_eq_true, Bool.and_eq_true] at hwf
    rw [topSections] at hl
    rcases List.mem_append.mp hl with hl | hl
    · by_cases htv : isTabV v = true
      · rw [if_pos htv] at hl
        refine lines_no_nl.1 v k hwf.1.2 ?_ l hl
        exact fun hm => safeKey_not_mem k cNl hwf.1.1 (by decide) hm
      · rw [if_neg htv] at hl
        exact absurd hl (List.not_mem_nil l)
    · exact topSections_no_nl r hwf.2 l hl
termination_by structural kvs => kvs

theorem genLines_no_nl (config : TvKvs) (h : wfDoc config = true) :
    ∀ l ∈ generateTomlLines config, cNl ∉ l := by
  rw [wfDoc, Bool.and_eq_true] at h
  intro l hl
  rw [generateTomlLines] at hl
  rcases List.mem_append.mp hl with hl | hl
  · exact (lines_no_nl.2 config h.2).1 l hl
  · exact topSections_no_nl config h.2 l hl

theorem pathIrr_top : ∀ kvs : TvKvs, ∀ rest, PathIrrelevant rest →
    PathIrrelevant (topSections kvs ++ rest)
  | TvKvs.nil => fun rest h => h
  | TvKvs.cons k v r => by
    intro rest h
    rw [topSections]
    by_cases htv : isTabV v = true
    · rw [if_pos htv, List.append_assoc]
      exact pathIrr_lines.1 v k _ (pathIrr_top r rest h)
    · rw [if_neg htv, List.nil_append]
      exact pathIrr_top r rest h
termination_by structural kvs => kvs

/-! ### TOML: simple entries of one section -/

theorem simpleKeys_sub : ∀ kvs : TvKvs,
    ∀ k ∈ kvsKeys (simpleOfKvs kvs), k ∈ kvsKeys kvs
  | TvKvs.nil => by intro k hk; exact absurd hk (List.not_mem_nil k)
  | TvKvs.cons k0 v r => by
    intro k hk
    rw [kvsKeys]
    by_cases htv : isTabV v = true
    · rw [simpleOfKvs, if_pos htv] at hk
      exact List.mem_cons_of_mem k0 (simpleKeys_sub r k hk)
    · rw [simpleOfKvs, if_neg htv, kvsKeys] at hk
      rcases List.mem_cons.mp hk with hk | hk
      · rw [hk]; exact List.mem_cons_self k0 _
      · exact List.mem_cons_of_mem k0 (simpleKeys_sub r k hk)
termination_by structural kvs => kvs

theorem tableKeys_sub : ∀ kvs : TvKvs,
    ∀ k ∈ tableKeys kvs, k ∈ kvsKeys kvs
  | TvKvs.nil => by intro k hk; exact absurd hk (List.not_mem_nil k)
  | TvKvs.cons k0 v r => by
    intro k hk
    rw [kvsKeys]
    by_cases htv : isTabV v = true
    · rw [tableKeys, if_pos htv] at hk
      rcases List.mem_cons.mp hk with hk | hk
      · rw [hk]; exact List.mem_cons_self k0 _
      · exact List.mem_cons_of_mem k0 (tableKeys_sub r k hk)
    · rw [tableKeys, if_neg htv] at hk
      exact List.mem_cons_of_mem k0 (tableKeys_sub r k hk)
termination_by structural kvs => kvs

theorem tableKeys_fresh : ∀ kvs : TvKvs, (kvsKeys kvs).Nodup →
    ∀ k ∈ tableKeys kvs, getK (simpleOfKvs kvs) k = none
  | TvKvs.nil => by intro _ k hk; exact absurd hk (List.not_mem_nil k)
  | TvKvs.cons k0 v r => by
    intro hnd k hk
    rw [kvsKeys, List.nodup_cons] at hnd
    obtain ⟨h0, hnd'⟩ := hnd
    by_cases htv : isTabV v = true
    · rw [simpleOfKvs, if_pos htv]
      rw [tableKeys, if_pos htv] at hk
      rcases List.mem_cons.mp hk with hk | hk
      · subst hk
        rw [getK_none_iff]
        intro hmem
        exact h0 (simpleKeys_sub r k hmem)
      · exact tableKeys_fresh r hnd' k hk
    · rw [simpleOfKvs, if_neg htv]
      rw [tableKeys, if_neg htv] at hk
      rw [getK]
      have hne : ¬ (k0 = k) :=
        fun he => h0 (by rw [he]; exact tableKeys_sub r k hk)
      rw [if_neg hne]
      exact tableKeys_fresh r hnd' k hk
termination_by structural kvs => kvs

theorem setSimple_append : ∀ (kvs : TvKvs) (sec : TvKvs),
    (kvsKeys kvs).Nodup → (∀ k ∈ kvsKeys kvs, getK sec k = none) →
    setSimple sec kvs = appendKvs sec (simpleOfKvs kvs)
  | TvKvs.nil => by
    intro sec _ _
    rw [show simpleOfKvs TvKvs.nil = TvKvs.nil from rfl, appendKvs_nil]
    rfl
  | TvKvs.cons k v r => by
    intro sec hnd hfresh
    rw [kvsKeys] at hnd hfresh
    rw [List.nodup_cons] at hnd
    obtain ⟨hk, hnd'⟩ := hnd
    by_cases htv : isTabV v = true
    · rw [setSimple, if_pos htv, simpleOfKvs, if_pos htv,
        setSimple_append r sec hnd'
          (fun k' hk' => hfresh k' (List.mem_cons_of_mem k hk'))]
    · rw [setSimple, if_neg htv, simpleOfKvs, if_neg htv]
      have hfresh2 : ∀ k' ∈ kvsKeys r, getK (setK sec k v) k' = none := by
        intro k' hk'
        have hne : k ≠ k' := fun he => hk (by rw [he]; exact hk')
        rw [getK_setK_ne sec k k' v hne]
        exact hfresh k' (List.mem_cons_of_mem k hk')
      rw [setSimple_append r (setK sec k v) hnd' hfresh2,
        setK_fresh sec k v (hfresh k (List.mem_cons_self k (kvsKeys r))),
        appendKvs_assoc]
      rfl
termination_by structural kvs => kvs

theorem simpleLines_proc : ∀ (kvs : TvKvs) (rest : List (List Char)) (root t : TvKvs)
    (path : List (List Char)),
    getPathK root path = some t → wfKvs kvs = true →
    parseLinesGo (simpleLines kvs ++ rest) root path
      = parseLinesGo rest
          (updateAtPath root path (fun sec => setSimple sec kvs)) path
  | TvKvs.nil => by
    intro rest root t path hg _
    rw [show simpleLines TvKvs.nil = [] from rfl, List.nil_append,
      show (fun sec => setSimple sec TvKvs.nil) = (fun sec : TvKvs => sec) from rfl,
      updateAtPath_id path root t hg]
  | TvKvs.cons k v r => by
    intro rest root t path hg hwf
    rw [wfKvs, Bool.and_eq_true, Bool.and_eq_true] at hwf
    by_cases htv : isTabV v = true
    · rw [simpleLines, if_pos htv, simpleLines_proc r rest root t path hg hwf.2]
      refine congrArg (fun r0 => parseLinesGo rest r0 path) ?_
      refine congrArg (updateAtPath root path) (funext fun s => ?_)
      show setSimple s r = setSimple s (TvKvs.cons k v r)
      rw [setSimple, if_pos htv]
    · rw [simpleLines, if_neg htv, List.cons_append,
        kvLine_proc _ root path k v hwf.1.1 hwf.1.2,
        simpleLines_proc r rest _ (setK t k v) path
          (getPathK_update path root t _ hg) hwf.2,
        updateAtPath_comp]
      refine congrArg (fun r0 => parseLinesGo rest r0 path) ?_
      refine congrArg (updateAtPath root path) (funext fun s => ?_)
      show setSimple (setK s k v) r = setSimple s (TvKvs.cons k v r)
      rw [setSimple, if_neg htv]
termination_by structural kvs => kvs

/-! ### TOML: processing the generated section blocks -/

theorem subsBlock_nil (parts : List (List Char)) (root t0 : TvKvs)
    (rest : List (List Char)) (path0 : List (List Char))
    (hget : getPathK root parts = some t0) (hpi : PathIrrelevant rest) :
    parseLinesGo (sectionSubs (joinDots parts) TvKvs.nil ++ rest) root path0
      = parseLinesGo rest
          (updateAtPath root parts (fun t => appendKvs t (canonSubs TvKvs.nil)))
          parts := by
  rw [show sectionSubs (joinDots parts) TvKvs.nil = [] from rfl, List.nil_append,
    show (fun t => appendKvs t (canonSubs TvKvs.nil)) = (fun t : TvKvs => t) from
      funext (fun t => appendKvs_nil t),
    updateAtPath_id parts root t0 hget]
  exact hpi root path0 parts

theorem tomlBlocks : ∀ n : Nat,
    (∀ (kvs : TvKvs) (parts : List (List Char)) (root : TvKvs)
      (rest : List (List Char)) (path0 : List (List Char)),
      2 * kvsSizeM kvs + 1 ≤ n →
      wfTv (Tv.vTab kvs) = true →
      parts ≠ [] → (∀ p ∈ parts, safeKey p = true) →
      AddableAt root parts → PathIrrelevant rest →
      parseLinesGo (sectionLines (joinDots parts) (Tv.vTab kvs) ++ rest) root path0
        = parseLinesGo rest
            (setPath root parts
              (Tv.vTab (appendKvs (simpleOfKvs kvs) (canonSubs kvs)))) parts) ∧
    (∀ (kvs : TvKvs) (parts : List (List Char)) (root t0 : TvKvs)
      (rest : List (List Char)) (path0 : List (List Char)),
      2 * kvsSizeM kvs ≤ n →
      wfKvs kvs = true → (kvsKeys kvs).Nodup →
      parts ≠ [] → (∀ p ∈ parts, safeKey p = true) →
      getPathK root parts = some t0 →
      (∀ k ∈ tableKeys kvs, getK t0 k = none) →
      PathIrrelevant rest →
      parseLinesGo (sectionSubs (joinDots parts) kvs ++ rest) root path0
        = parseLinesGo rest
            (updateAtPath root parts (fun t => appendKvs t (canonSubs kvs)))
            parts) := by
  intro n
  induction n with
  | zero =>
    constructor
    · intro kvs parts root rest path0 hb
      exact absurd hb (by omega)
    · intro kvs parts root t0 rest path0 hb hwf hnd hpne hps hget hfresh hpi
      cases kvs with
      | nil => exact subsBlock_nil parts root t0 rest path0 hget hpi
      | cons k v r =>
        exfalso
        simp only [kvsSizeM] at hb
        omega
  | succ n ih =>
    obtain ⟨ihA, ihB⟩ := ih
    constructor
    · intro kvs parts root rest path0 hb hwf hpne hps hadd hpi
      obtain ⟨hne, hnd, hwfk⟩ := wfTab_dest kvs hwf
      by_cases hsimp : simpleLines kvs = []
      · obtain ⟨k, v, r, hkvs⟩ : ∃ k v r, kvs = TvKvs.cons k v r := by
          cases kvs with
          | nil => exact absurd rfl hne
          | cons k v r => exact ⟨k, v, r, rfl⟩
        subst hkvs
        obtain ⟨htv, hsr⟩ := simpleLines_cons_iff k v r hsimp
        obtain ⟨w, hv⟩ : ∃ w, v = Tv.vTab w := by
          cases v with
          | vTab w => exact ⟨w, rfl⟩
          | vStr s => exact absurd htv (by simp [isTabV])
          | vInt n => exact absurd htv (by simp [isTabV])
          | vBool b => exact absurd htv (by simp [isTabV])
          | vArr xs => exact absurd htv (by simp [isTabV])
        subst hv
        simp only [kvsSizeM, tvSizeM] at hb
        rw [wfKvs, Bool.and_eq_true, Bool.and_eq_true] at hwfk
        rw [kvsKeys, List.nodup_cons] at hnd
        obtain ⟨hk0, hnd'⟩ := hnd
        simp only [sectionLines]
        rw [if_pos hsimp, List.nil_append, sectionSubs, if_pos htv,
          show joinDots parts ++ cDot :: k = joinDots (parts ++ [k]) from
            (joinDots_snoc parts hpne k).symm,
          List.append_assoc]
        have hps' : ∀ p ∈ parts ++ [k], safeKey p = true := by
          intro p hp
          rcases List.mem_append.mp hp with hp | hp
          · exact hps p hp
          · rw [List.mem_singleton.mp hp]
            exact hwfk.1.1
        rw [ihA w (parts ++ [k]) root (sectionSubs (joinDots parts) r ++ rest) path0
          (by omega) hwfk.1.2 (by simp) hps' (addable_ext parts root k hadd)
          (pathIrr_lines.2 r (joinDots parts) rest hpi),
          setPath_deep parts root k _ hadd]
        have hget1 : getPathK
            (setPath root parts (Tv.vTab (TvKvs.cons k
              (Tv.vTab (appendKvs (simpleOfKvs w) (canonSubs w))) TvKvs.nil))) parts
            = some (TvKvs.cons k
                (Tv.vTab (appendKvs (simpleOfKvs w) (canonSubs w))) TvKvs.nil) :=
          getPathK_setPath parts root _ hadd
        have hfresh1 : ∀ k' ∈ tableKeys r,
            getK (TvKvs.cons k
              (Tv.vTab (appendKvs (simpleOfKvs w) (canonSubs w))) TvKvs.nil) k'
              = none := by
          intro k' hk'
          rw [getK,
            if_neg (fun he => hk0 (by rw [he]; exact tableKeys_sub r k' hk')), getK]
        rw [ihB r parts _
            (TvKvs.cons k (Tv.vTab (appendKvs (simpleOfKvs w) (canonSubs w))) TvKvs.nil)
            rest (parts ++ [k]) (by omega) hwfk.2 hnd' hpne hps hget1 hfresh1 hpi,
          update_setPath parts root _ _ hadd,
          show simpleOfKvs (TvKvs.cons k (Tv.vTab w) r) = simpleOfKvs r from rfl,
          simpleOf_nil_of r hsr]
        rfl
      · simp only [sectionLines]
        rw [if_neg hsimp,
          show ((cLb :: joinDots parts ++ [cRb]) :: simpleLines kvs
              ++ sectionSubs (joinDots parts) kvs) ++ rest
            = (cLb :: joinDots parts ++ [cRb])
              :: (simpleLines kvs
                ++ (sectionSubs (joinDots parts) kvs ++ rest)) from by simp,
          headerLine_proc _ root path0 parts hpne hps,
          ensure_addable parts root hadd,
          simpleLines_proc kvs _ _ TvKvs.nil parts
            (getPathK_setPath parts root TvKvs.nil hadd) hwfk,
          update_setPath parts root TvKvs.nil _ hadd,
          setSimple_append kvs TvKvs.nil hnd (fun k' _ => rfl),
          show appendKvs TvKvs.nil (simpleOfKvs kvs) = simpleOfKvs kvs from rfl]
        have hget2 : getPathK (setPath root parts (Tv.vTab (simpleOfKvs kvs))) parts
            = some (simpleOfKvs kvs) := getPathK_setPath parts root _ hadd
        have hfresh2 : ∀ k' ∈ tableKeys kvs, getK (simpleOfKvs kvs) k' = none :=
          tableKeys_fresh kvs hnd
        rw [ihB kvs parts _ (simpleOfKvs kvs) rest parts (by omega) hwfk hnd hpne hps
            hget2 hfresh2 hpi,
          update_setPath parts root _ _ hadd]
    · intro kvs parts root t0 rest path0 hb hwf hnd hpne hps hget hfresh hpi
      cases kvs with
      | nil => exact subsBlock_nil parts root t0 rest path0 hget hpi
      | cons k v r =>
        simp only [kvsSizeM] at hb
        rw [wfKvs, Bool.and_eq_true, Bool.and_eq_true] at hwf
        rw [kvsKeys, List.nodup_cons] at hnd
        obtain ⟨hk0, hnd'⟩ := hnd
        by_cases htv : isTabV v = true
        · obtain ⟨w, hv⟩ : ∃ w, v = Tv.vTab w := by
            cases v with
            | vTab w => exact ⟨w, rfl⟩
            | vStr s => exact absurd htv (by simp [isTabV])
            | vInt n => exact absurd htv (by simp [isTabV])
            | vBool b => exact absurd htv (by simp [isTabV])
            | vArr xs => exact absurd htv (by simp [isTabV])
          subst hv
          simp only [tvSizeM] at hb
          have hkmem : k ∈ tableKeys (TvKvs.cons k (Tv.vTab w) r) := by
            rw [tableKeys, if_pos htv]
            exact List.mem_cons_self k _
          rw [sectionSubs, if_pos htv,
            show joinDots parts ++ cDot :: k = joinDots (parts ++ [k]) from
              (joinDots_snoc parts hpne k).symm,
            List.append_assoc]
          have hps' : ∀ p ∈ parts ++ [k], safeKey p = true := by
            intro p hp
            rcases List.mem_append.mp hp with hp | hp
            · exact hps p hp
            · rw [List.mem_singleton.mp hp]
              exact hwf.1.1
          have haddk : AddableAt root (parts ++ [k]) :=
            addable_of_get parts root t0 k hget (hfresh k hkmem)
          rw [ihA w (parts ++ [k]) root (sectionSubs (joinDots parts) r ++ rest) path0
            (by omega) hwf.1.2 (by simp) hps' haddk
            (pathIrr_lines.2 r (joinDots parts) rest hpi),
            setPath_snoc parts root k _]
          have hget1 : getPathK
              (updateAtPath root parts
                (fun s => setK s k
                  (Tv.vTab (appendKvs (simpleOfKvs w) (canonSubs w)))))
              parts
              = some (setK t0 k
                  (Tv.vTab (appendKvs (simpleOfKvs w) (canonSubs w)))) :=
            getPathK_update parts root t0 _ hget
          have hfresh1 : ∀ k' ∈ tableKeys r,
              getK (setK t0 k (Tv.vTab (appendKvs (simpleOfKvs w) (canonSubs w)))) k'
                = none := by
            intro k' hk'
            have hne : k ≠ k' := fun he => hk0 (by rw [he]; exact tableKeys_sub r k' hk')
            rw [getK_setK_ne t0 k k' _ hne]
            exact hfresh k'
              (by rw [tableKeys, if_pos htv]; exact List.mem_cons_of_mem k hk')
          rw [ihB r parts _
              (setK t0 k (Tv.vTab (appendKvs (simpleOfKvs w) (canonSubs w))))
              rest (parts ++ [k]) (by omega) hwf.2 hnd' hpne hps hget1 hfresh1 hpi,
            updateAtPath_comp]
          refine congrArg (fun r0 => parseLinesGo rest r0 parts) ?_
          refine updateAtPath_congr parts root t0 _ _ hget ?_
          show appendKvs
              (setK t0 k (Tv.vTab (appendKvs (simpleOfKvs w) (canonSubs w))))
              (canonSubs r)
            = appendKvs t0 (canonSubs (TvKvs.cons k (Tv.vTab w) r))
          rw [setK_fresh t0 k _ (hfresh k hkmem), appendKvs_assoc, canonSubs,
            if_pos htv]
          rfl
        · rw [sectionSubs, if_neg htv, List.nil_append,
            ihB r parts root t0 rest path0 (by omega) hwf.2 hnd' hpne hps hget
              (fun k' hk' => hfresh k'
                (by rw [tableKeys, if_neg htv]; exact hk')) hpi]
          refine congrArg (fun r0 => parseLinesGo rest r0 parts) ?_
          refine congrArg (updateAtPath root parts) (funext fun t => ?_)
          show appendKvs t (canonSubs r) = appendKvs t (canonSubs (TvKvs.cons k v r))
          rw [canonSubs, if_neg htv]

theorem secBlock (kvs : TvKvs) (parts : List (List Char)) (root : TvKvs)
    (rest : List (List Char)) (path0 : List (List Char))
    (hwf : wfTv (Tv.vTab kvs) = true)
    (hpne : parts ≠ []) (hps : ∀ p ∈ parts, safeKey p = true)
    (hadd : AddableAt root parts) (hpi : PathIrrelevant rest) :
    parseLinesGo (sectionLines (joinDots parts) (Tv.vTab kvs) ++ rest) root path0
      = parseLinesGo rest
          (setPath root parts
            (Tv.vTab (appendKvs (simpleOfKvs kvs) (canonSubs kvs)))) parts :=
  (tomlBlocks (2 * kvsSizeM kvs + 1)).1 kvs parts root rest path0 (Nat.le_refl _)
    hwf hpne hps hadd hpi

theorem topBlock : ∀ (kvs : TvKvs) (root : TvKvs) (rest : List (List Char))
    (path0 : List (List Char)),
    wfKvs kvs = true → (kvsKeys kvs).Nodup →
    (∀ k ∈ tableKeys kvs, getK root k = none) →
    PathIrrelevant rest →
    parseLinesGo (topSections kvs ++ rest) root path0
      = parseLinesGo rest (appendKvs root (canonSubs kvs)) []
  | TvKvs.nil => by
    intro root rest path0 _ _ _ hpi
    rw [show topSections TvKvs.nil = [] from rfl, List.nil_append,
      show canonSubs TvKvs.nil = TvKvs.nil from rfl, appendKvs_nil]
    exact hpi root path0 []
  | TvKvs.cons k v r => by
    intro root rest path0 hwf hnd hfresh hpi
    rw [wfKvs, Bool.and_eq_true, Bool.and_eq_true] at hwf
    rw [kvsKeys, List.nodup_cons] at hnd
    obtain ⟨hk0, hnd'⟩ := hnd
    by_cases htv : isTabV v = true
    · obtain ⟨w, hv⟩ : ∃ w, v = Tv.vTab w := by
        cases v with
        | vTab w => exact ⟨w, rfl⟩
        | vStr s => exact absurd htv (by simp [isTabV])
        | vInt n => exact absurd htv (by simp [isTabV])
        | vBool b => exact absurd htv (by simp [isTabV])
        | vArr xs => exact absurd htv (by simp [isTabV])
      subst hv
      have hkmem : k ∈ tableKeys (TvKvs.cons k (Tv.vTab w) r) := by
        rw [tableKeys, if_pos htv]
        exact List.mem_cons_self k _
      rw [topSections, if_pos htv, List.append_assoc]
      nth_rewrite 1 [show k = joinDots [k] from (joinDots_single k).symm]
      have hpsk : ∀ p ∈ [k], safeKey p = true := by
        intro p hp
        rw [List.mem_singleton.mp hp]
        exact hwf.1.1
      have haddk : AddableAt root [k] := hfresh k hkmem
      rw [secBlock w [k] root (topSections r ++ rest) path0 hwf.1.2 (by simp)
        hpsk haddk (pathIrr_top r rest hpi)]
      have hfresh1 : ∀ k' ∈ tableKeys r,
          getK (setPath root [k]
            (Tv.vTab (appendKvs (simpleOfKvs w) (canonSubs w)))) k' = none := by
        intro k' hk'
        have hne : k ≠ k' := fun he => hk0 (by rw [he]; exact tableKeys_sub r k' hk')
        rw [show setPath root [k] (Tv.vTab (appendKvs (simpleOfKvs w) (canonSubs w)))
            = setK root k (Tv.vTab (appendKvs (simpleOfKvs w) (canonSubs w)))
            from rfl,
          getK_setK_ne root k k' _ hne]
        exact hfresh k'
          (by rw [tableKeys, if_pos htv]; exact List.mem_cons_of_mem k hk')
      rw [topBlock r
        (setPath root [k] (Tv.vTab (appendKvs (simpleOfKvs w) (canonSubs w))))
        rest [k] hwf.2 hnd' hfresh1 hpi]
      refine congrArg (fun r0 => parseLinesGo rest r0 []) ?_
      rw [show setPath root [k] (Tv.vTab (appendKvs (simpleOfKvs w) (canonSubs w)))
          = setK root k (Tv.vTab (appendKvs (simpleOfKvs w) (canonSubs w)))
          from rfl,
        setK_fresh root k _ (hfresh k hkmem), appendKvs_assoc, canonSubs,
        if_pos htv]
      rfl
    · rw [topSections, if_neg htv, List.nil_append,
        topBlock r root rest path0 hwf.2 hnd'
          (fun k' hk' => hfresh k' (by rw [tableKeys, if_neg htv]; exact hk')) hpi]
      refine congrArg (fun r0 => parseLinesGo rest r0 []) ?_
      refine congrArg (appendKvs root) ?_
      rw [canonSubs, if_neg htv]
termination_by structural kvs => kvs

/-! ### TOML: the canonical reordering is deep-equal to the original -/

theorem kvsEntries_append : ∀ a b : TvKvs,
    kvsEntries (appendKvs a b) = kvsEntries a ++ kvsEntries b
  | TvKvs.nil => fun _ => rfl
  | TvKvs.cons k v r => by
    intro b
    rw [appendKvs,
      show kvsEntries (TvKvs.cons k v (appendKvs r b))
        = (k, v) :: kvsEntries (appendKvs r b) from rfl,
      kvsEntries_append r b,
      show kvsEntries (TvKvs.cons k v r) = (k, v) :: kvsEntries r from rfl]
    rfl
termination_by structural a => a

theorem kvsLen_append : ∀ a b : TvKvs,
    kvsLen (appendKvs a b) = kvsLen a + kvsLen b
  | TvKvs.nil => by
    intro b
    rw [show appendKvs TvKvs.nil b = b from rfl,
      show kvsLen TvKvs.nil = 0 from rfl]
    omega
  | TvKvs.cons k v r => by
    intro b
    rw [appendKvs,
      show kvsLen (TvKvs.cons k v (appendKvs r b)) = kvsLen (appendKvs r b) + 1
        from rfl,
      show kvsLen (TvKvs.cons k v r) = kvsLen r + 1 from rfl,
      kvsLen_append r b]
    omega
termination_by structural a => a

theorem kvsLen_split : ∀ kvs : TvKvs,
    kvsLen (simpleOfKvs kvs) + kvsLen (canonSubs kvs) = kvsLen kvs
  | TvKvs.nil => rfl
  | TvKvs.cons k v r => by
    by_cases htv : isTabV v = true
    · rw [simpleOfKvs, if_pos htv, canonSubs, if_pos htv,
        show kvsLen (TvKvs.cons k (canonTv v) (canonSubs r))
          = kvsLen (canonSubs r) + 1 from rfl,
        show kvsLen (TvKvs.cons k v r) = kvsLen r + 1 from rfl]
      have := kvsLen_split r
      omega
    · rw [simpleOfKvs, if_neg htv, canonSubs, if_neg htv,
        show kvsLen (TvKvs.cons k v (simpleOfKvs r))
          = kvsLen (simpleOfKvs r) + 1 from rfl,
        show kvsLen (TvKvs.cons k v r) = kvsLen r + 1 from rfl]
      have := kvsLen_split r
      omega
termination_by structural kvs => kvs

theorem getK_of_mem_nodup : ∀ (kvs : TvKvs) (k : List Char) (v : Tv),
    (kvsKeys kvs).Nodup → (k, v) ∈ kvsEntries kvs → getK kvs k = some v
  | TvKvs.nil => by intro k v _ hm; exact absurd hm (List.not_mem_nil _)
  | TvKvs.cons k0 v0 rest => by
    intro k v hnd hm
    rw [kvsKeys, List.nodup_cons] at hnd
    rw [kvsEntries] at hm
    rw [getK]
    rcases List.mem_cons.mp hm with hm | hm
    · have hk : k = k0 := congrArg Prod.fst hm
      have hv : v = v0 := congrArg Prod.snd hm
      rw [if_pos hk.symm, hv]
    · have hkm : k ∈ kvsKeys rest := by
        rw [← kvsEntries_map_fst]
        exact List.mem_map_of_mem Prod.fst hm
      have hne : ¬ (k0 = k) := fun he => hnd.1 (by rw [he]; exact hkm)
      rw [if_neg hne]
      exact getK_of_mem_nodup rest k v hnd.2 hm
termination_by structural kvs => kvs

theorem kvsSubEquiv_of : ∀ a b : TvKvs,
    (∀ p ∈ kvsEntries a, ∃ w, getK b p.1 = some w ∧ tvEquiv p.2 w = true) →
    kvsSubEquiv a b = true
  | TvKvs.nil => fun _ _ => rfl
  | TvKvs.cons k v rest => by
    intro b h
    obtain ⟨w, hw, he⟩ :=
      h (k, v) (by rw [kvsEntries]; exact List.mem_cons_self _ _)
    rw [kvsSubEquiv, hw, Bool.and_eq_true]
    exact ⟨he, kvsSubEquiv_of rest b
      (fun p hp => h p (by rw [kvsEntries]; exact List.mem_cons_of_mem _ hp))⟩
termination_by structural a => a

theorem simpleOf_mem : ∀ kvs : TvKvs,
    ∀ p ∈ kvsEntries (simpleOfKvs kvs), p ∈ kvsEntries kvs
  | TvKvs.nil => by intro p hp; exact absurd hp (List.not_mem_nil p)
  | TvKvs.cons k v r => by
    intro p hp
    rw [kvsEntries]
    by_cases htv : isTabV v = true
    · rw [simpleOfKvs, if_pos htv] at hp
      exact List.mem_cons_of_mem _ (simpleOf_mem r p hp)
    · rw [simpleOfKvs, if_neg htv, kvsEntries] at hp
      rcases List.mem_cons.mp hp with hp | hp
      · rw [hp]; exact List.mem_cons_self _ _
      · exact List.mem_cons_of_mem _ (simpleOf_mem r p hp)
termination_by structural kvs => kvs

theorem canonSubs_mem : ∀ kvs : TvKvs, ∀ p ∈ kvsEntries (canonSubs kvs),
    ∃ v0, (p.1, v0) ∈ kvsEntries kvs ∧ p.2 = canonTv v0
  | TvKvs.nil => by intro p hp; exact absurd hp (List.not_mem_nil p)
  | TvKvs.cons k v r => by
    intro p hp
    by_cases htv : isTabV v = true
    · rw [canonSubs, if_pos htv, kvsEntries] at hp
      rcases List.mem_cons.mp hp with hp | hp
      · have h1 : p.1 = k := by rw [hp]
        have h2 : p.2 = canonTv v := by rw [hp]
        refine ⟨v, ?_, h2⟩
        rw [kvsEntries, h1]
        exact List.mem_cons_self _ _
      · obtain ⟨v0, h1, h2⟩ := canonSubs_mem r p hp
        exact ⟨v0, by rw [kvsEntries]; exact List.mem_cons_of_mem _ h1, h2⟩
    · rw [canonSubs, if_neg htv] at hp
      obtain ⟨v0, h1, h2⟩ := canonSubs_mem r p hp
      exact ⟨v0, by rw [kvsEntries]; exact List.mem_cons_of_mem _ h1, h2⟩
termination_by structural kvs => kvs

theorem equiv_main :
    (∀ v : Tv, wfTv v = true →
      tvEquiv v v = true ∧ tvEquiv (canonTv v) v = true) ∧
    (∀ kvs : TvKvs, wfKvs kvs = true →
      ∀ p ∈ kvsEntries kvs,
        tvEquiv p.2 p.2 = true ∧ tvEquiv (canonTv p.2) p.2 = true) := by
  refine ⟨@tvIndV (fun v => wfTv v = true →
      tvEquiv v v = true ∧ tvEquiv (canonTv v) v = true)
      (fun xs => wfTvList xs = true → tvListEquiv xs xs = true)
      (fun kvs => wfKvs kvs = true →
        ∀ p ∈ kvsEntries kvs,
          tvEquiv p.2 p.2 = true ∧ tvEquiv (canonTv p.2) p.2 = true)
      ?hs ?hi ?hb ?ha ?ht ?hqn ?hqc ?hrn ?hrc,
    @tvIndK (fun v => wfTv v = true →
      tvEquiv v v = true ∧ tvEquiv (canonTv v) v = true)
      (fun xs => wfTvList xs = true → tvListEquiv xs xs = true)
      (fun kvs => wfKvs kvs = true →
        ∀ p ∈ kvsEntries kvs,
          tvEquiv p.2 p.2 = true ∧ tvEquiv (canonTv p.2) p.2 = true)
      ?hs ?hi ?hb ?ha ?ht ?hqn ?hqc ?hrn ?hrc⟩
  case hs =>
    intro s _
    refine ⟨by simp [tvEquiv], ?_⟩
    show tvEquiv (Tv.vStr s) (Tv.vStr s) = true
    simp [tvEquiv]
  case hi =>
    intro n _
    refine ⟨by simp [tvEquiv], ?_⟩
    show tvEquiv (Tv.vInt n) (Tv.vInt n) = true
    simp [tvEquiv]
  case hb =>
    intro b _
    refine ⟨by simp [tvEquiv], ?_⟩
    show tvEquiv (Tv.vBool b) (Tv.vBool b) = true
    simp [tvEquiv]
  case ha =>
    intro xs hq hwf
    refine ⟨?_, ?_⟩
    · show tvListEquiv xs xs = true
      exact hq hwf
    · show tvListEquiv xs xs = true
      exact hq hwf
  case ht =>
    intro kvs hk hwf
    obtain ⟨hne, hnd, hwfk⟩ := wfTab_dest kvs hwf
    have hsub_refl : kvsSubEquiv kvs kvs = true := by
      refine kvsSubEquiv_of kvs kvs (fun p hp =>
        ⟨p.2, getK_of_mem_nodup kvs p.1 p.2 hnd hp, (hk hwfk p hp).1⟩)
    constructor
    · show (decide (kvsLen kvs = kvsLen kvs) && kvsSubEquiv kvs kvs) = true
      rw [Bool.and_eq_true]
      exact ⟨by simp, hsub_refl⟩
    · show (decide (kvsLen (appendKvs (simpleOfKvs kvs) (canonSubs kvs))
          = kvsLen kvs) &&
        kvsSubEquiv (appendKvs (simpleOfKvs kvs) (canonSubs kvs)) kvs) = true
      rw [Bool.and_eq_true]
      constructor
      · rw [decide_eq_true_eq, kvsLen_append, kvsLen_split]
      · refine kvsSubEquiv_of _ kvs (fun p hp => ?_)
        rw [kvsEntries_append] at hp
        rcases List.mem_append.mp hp with hp | hp
        · have hp' := simpleOf_mem kvs p hp
          exact ⟨p.2, getK_of_mem_nodup kvs p.1 p.2 hnd hp', (hk hwfk p hp').1⟩
        · obtain ⟨v0, h1, h2⟩ := canonSubs_mem kvs p hp
          refine ⟨v0, getK_of_mem_nodup kvs p.1 v0 hnd h1, ?_⟩
          rw [h2]
          exact (hk hwfk (p.1, v0) h1).2
  case hqn => intro _; rfl
  case hqc =>
    intro x xs hx hxs h
    rw [wfTvList, Bool.and_eq_true] at h
    show (tvEquiv x x && tvListEquiv xs xs) = true
    rw [Bool.and_eq_true]
    exact ⟨(hx h.1).1, hxs h.2⟩
  case hrn => intro _ p hp; exact absurd hp (List.not_mem_nil p)
  case hrc =>
    intro k v rest hv hrest hwfk
    rw [wfKvs, Bool.and_eq_true, Bool.and_eq_true] at hwfk
    intro p hp
    rw [kvsEntries] at hp
    rcases List.mem_cons.mp hp with hp | hp
    · rw [hp]
      exact hv hwfk.1.2
    · exact hrest hwfk.2 p hp

theorem canonDoc_equiv (config : TvKvs) (h : wfDoc config = true) :
    docEquiv (canonDoc config) config = true := by
  rw [wfDoc, Bool.and_eq_true, decide_eq_true_eq] at h
  cases config with
  | nil => rfl
  | cons k v r =>
    have hwf : wfTv (Tv.vTab (TvKvs.cons k v r)) = true := by
      rw [show wfTv (Tv.vTab (TvKvs.cons k v r))
        = (true && decide ((kvsKeys (TvKvs.cons k v r)).Nodup) &&
            wfKvs (TvKvs.cons k v r)) from rfl,
        Bool.true_and, Bool.and_eq_true, decide_eq_true_eq]
      exact ⟨h.1, h.2⟩
    exact (equiv_main.1 (Tv.vTab (TvKvs.cons k v r)) hwf).2

theorem genLines_nil (config : TvKvs) (h : wfDoc config = true)
    (hl : generateTomlLines config = []) : config = TvKvs.nil := by
  cases config with
  | nil => rfl
  | cons k v r =>
    exfalso
    rw [wfDoc, Bool.and_eq_true, decide_eq_true_eq] at h
    rw [generateTomlLines] at hl
    rcases List.append_eq_nil.mp hl with ⟨h1, h2⟩
    by_cases htv : isTabV v = true
    · rw [topSections, if_pos htv] at h2
      rcases List.append_eq_nil.mp h2 with ⟨h3, _⟩
      have hwfv : wfTv v = true := by
        have h4 := h.2
        rw [wfKvs, Bool.and_eq_true, Bool.and_eq_true] at h4
        exact h4.1.2
      exact sectionLines_ne.1 v k hwfv htv h3
    · rw [simpleLines, if_neg htv] at h1
      exact List.cons_ne_nil _ _ h1

/-- C5: the TOML round trip, as amended.  The original claim
`parseToml (generateToml config) = config` is false (see
`tomlRoundTrip_counterexample`: a table whose value is an empty table is
silently dropped, because `generateToml` emits no line for it).  For every
well-formed configuration (arbitrary strings, integers and booleans; arrays
of well-formed values; tables that are non-empty with bare safe keys and no
duplicate keys), parsing the generated document yields exactly the canonical
reordering `canonDoc config` that the section mechanism performs (simple
entries of each table first, then its sub-tables, recursively), and that
result is deep-equal to the original configuration up to table key order
(`docEquiv`, JavaScript-style object equality). -/
theorem parseToml_generateToml_canon (config : TvKvs) (h : wfDoc config = true) :
    parseToml (generateToml config) = canonDoc config ∧
    docEquiv (parseToml (generateToml config)) config = true := by
  have hwd := h
  rw [wfDoc, Bool.and_eq_true, decide_eq_true_eq] at h
  by_cases hl : generateTomlLines config = []
  · have hc : config = TvKvs.nil := genLines_nil config hwd hl
    subst hc
    exact ⟨rfl, rfl⟩
  · have hmain : parseToml (generateToml config) = canonDoc config := by
      simp only [generateToml, parseToml]
      rw [if_pos hl,
        splitNl_intercalate (generateTomlLines config) hl (genLines_no_nl config hwd),
        generateTomlLines, List.append_assoc,
        simpleLines_proc config _ TvKvs.nil TvKvs.nil [] rfl h.2,
        show updateAtPath TvKvs.nil [] (fun sec => setSimple sec config)
          = setSimple TvKvs.nil config from rfl,
        setSimple_append config TvKvs.nil h.1 (fun k' _ => rfl),
        show appendKvs TvKvs.nil (simpleOfKvs config) = simpleOfKvs config from rfl,
        topBlock config (simpleOfKvs config) [[]] [] h.2 h.1
          (tableKeys_fresh config h.1) pathIrrel_blank]
      rfl
    exact ⟨hmain, by rw [hmain]; exact canonDoc_equiv config hwd⟩

/-- Witness for C5: the round-trip theorem applied to a concrete
configuration exercising every value form (strings needing escapes, negative
integers, booleans, arrays containing inline tables, nested sections). -/
theorem parseToml_generateToml_canon_witness :
    wfDoc tomlWitnessConfig = true ∧
    (parseToml (generateToml tomlWitnessConfig) = canonDoc tomlWitnessConfig ∧
     docEquiv (parseToml (generateToml tomlWitnessConfig)) tomlWitnessConfig
       = true) :=
  ⟨rfl, parseToml_generateToml_canon tomlWitnessConfig rfl⟩

/-- Counterexample to C5 as written: the configuration `{a: {}}` is built
solely from maps, but `generateToml` emits no line for the empty nested
table (no simple entries, no sub-sections), so the document parses back to
the empty object, which differs from the input even up to deep equality. -/
theorem tomlRoundTrip_counterexample :
    parseToml (generateToml (TvKvs.cons ['a'] (Tv.vTab TvKvs.nil) TvKvs.nil))
      = TvKvs.nil ∧
    docEquiv
      (parseToml (generateToml (TvKvs.cons ['a'] (Tv.vTab TvKvs.nil) TvKvs.nil)))
      (TvKvs.cons ['a'] (Tv.vTab TvKvs.nil) TvKvs.nil) = false :=
  ⟨rfl, rfl⟩
